import Mathlib

/-!
Verification development for the Deep-TOON codec (`deep_toon` Python package).

The repository ships only the package's public API (`deep_toon/__init__.py`),
its evaluation harnesses and packaging metadata; the implementation modules
`deep_toon/encoder.py` and `deep_toon/decoder.py` are referenced by the API but
are not part of the available sources.  Definitions below that embed those two
modules are therefore modelled from the specification (its Literal Grammar,
Encoder, Decoder and Smart-Encode Policy sections); each such definition says
so in its doc comment.  Definitions embedding `__init__.py` and the evaluation
harnesses are translated from those files directly.
-/

namespace DeepToon

abbrev Chars := List Char

/-- JSON-style numbers.  Modelled from the spec: the Number variant of the
Value data model "must preserve the distinction between integral and
fractional textual form on round trip"; `dec m e` denotes the fractional
decimal `m / 10^e` (well-formed when `1 ≤ e`), and the non-finite values a
Python float can hold are the three extra constructors. -/
inductive JNum where
  | int (i : Int)
  | dec (m : Int) (e : Nat)
  | inf
  | negInf
  | nan
deriving DecidableEq, Repr

/-- JSON-compatible value tree.  Modelled from the spec: "a tagged union over
exactly these variants, mirroring JSON's data model", with `obj` an ordered
mapping (insertion order significant). -/
inductive Value where
  | null
  | bool (b : Bool)
  | num (n : JNum)
  | str (s : Chars)
  | arr (elems : List Value)
  | obj (entries : List (Chars × Value))
deriving Repr

mutual

/-- Node count of a value tree (measure for strong induction). -/
def sizeV : Value → Nat
  | .null | .bool _ | .num _ | .str _ => 1
  | .arr es => 2 + sizeList es
  | .obj es => 2 + sizeEntries es

def sizeList : List Value → Nat
  | [] => 0
  | v :: vs => 1 + sizeV v + sizeList vs

def sizeEntries : List (Chars × Value) → Nat
  | [] => 0
  | (_, v) :: es => 1 + sizeV v + sizeEntries es

end

def sizeV_pos (v : Value) : 0 < sizeV v := by
  cases v <;> simp only [sizeV] <;> omega

def sizeList_of_mem {v : Value} {es : List Value} (h : v ∈ es) :
    sizeV v < sizeList es + 1 := by
  induction es with
  | nil => cases h
  | cons e es ih =>
      rcases List.mem_cons.mp h with h | h
      · subst h; simp [sizeList]; omega
      · have := ih h; simp [sizeList]; omega

def sizeEntries_of_mem {kv : Chars × Value} {es : List (Chars × Value)}
    (h : kv ∈ es) : sizeV kv.2 < sizeEntries es + 1 := by
  induction es with
  | nil => cases h
  | cons e es ih =>
      rcases List.mem_cons.mp h with h | h
      · subst h; cases kv; simp [sizeEntries]; omega
      · have := ih h; cases e; simp [sizeEntries]; omega

/-- Structural induction principle for the nested `Value` type. -/
def Value.inductionOn (P : Value → Prop)
    (hnull : P .null) (hbool : ∀ b, P (.bool b)) (hnum : ∀ n, P (.num n))
    (hstr : ∀ s, P (.str s))
    (harr : ∀ es, (∀ v ∈ es, P v) → P (.arr es))
    (hobj : ∀ es, (∀ kv ∈ es, P kv.2) → P (.obj es)) : ∀ v, P v := by
  suffices h : ∀ n v, sizeV v < n → P v from fun v => h (sizeV v + 1) v (Nat.lt_succ_self _)
  intro n
  induction n with
  | zero => intro v hv; omega
  | succ n ih =>
      intro v hv
      cases v with
      | null => exact hnull
      | bool b => exact hbool b
      | num m => exact hnum m
      | str s => exact hstr s
      | arr es =>
          refine harr es (fun v hmem => ih v ?_)
          have := sizeList_of_mem hmem
          simp only [sizeV] at hv; omega
      | obj es =>
          refine hobj es (fun kv hmem => ih kv.2 ?_)
          have := sizeEntries_of_mem hmem
          simp only [sizeV] at hv; omega

mutual

/-- Boolean equality on value trees. -/
def beqV : Value → Value → Bool
  | .null, .null => true
  | .bool a, .bool b => decide (a = b)
  | .num a, .num b => decide (a = b)
  | .str a, .str b => decide (a = b)
  | .arr a, .arr b => beqL a b
  | .obj a, .obj b => beqE a b
  | _, _ => false

def beqL : List Value → List Value → Bool
  | [], [] => true
  | v :: vs, w :: ws => beqV v w && beqL vs ws
  | _, _ => false

def beqE : List (Chars × Value) → List (Chars × Value) → Bool
  | [], [] => true
  | (k, v) :: es, (k', v') :: es' => decide (k = k') && beqV v v' && beqE es es'
  | _, _ => false

end

def beqV_iff : ∀ a b : Value, beqV a b = true ↔ a = b := by
  have main : ∀ a : Value, ∀ b : Value, beqV a b = true ↔ a = b := by
    intro a
    induction a using Value.inductionOn with
    | hnull => intro b; cases b <;> simp [beqV]
    | hbool x => intro b; cases b <;> simp [beqV]
    | hnum x => intro b; cases b <;> simp [beqV]
    | hstr x => intro b; cases b <;> simp [beqV]
    | harr es ih =>
        intro b
        cases b with
        | arr fs =>
            simp only [beqV, Value.arr.injEq]
            induction es generalizing fs with
            | nil => cases fs <;> simp [beqL]
            | cons e es ihl =>
                cases fs with
                | nil => simp [beqL]
                | cons f fs =>
                    have he := ih e (List.mem_cons_self _ _)
                    have hrest := ihl (fun v hv => ih v (List.mem_cons_of_mem _ hv)) fs
                    simp [beqL, he f, hrest]
        | null => simp [beqV]
        | bool x => simp [beqV]
        | num x => simp [beqV]
        | str x => simp [beqV]
        | obj x => simp [beqV]
    | hobj es ih =>
        intro b
        cases b with
        | obj fs =>
            simp only [beqV, Value.obj.injEq]
            induction es generalizing fs with
            | nil => cases fs <;> simp [beqE]
            | cons e es ihl =>
                cases fs with
                | nil => simp [beqE]
                | cons f fs =>
                    obtain ⟨k, v⟩ := e
                    obtain ⟨k', v'⟩ := f
                    have he := ih (k, v) (List.mem_cons_self _ _)
                    have hrest := ihl (fun kv hkv => ih kv (List.mem_cons_of_mem _ hkv)) fs
                    simp only at he
                    simp only [beqE, Bool.and_eq_true, decide_eq_true_eq, he v',
                      hrest, List.cons.injEq, Prod.ext_iff]
        | null => simp [beqV]
        | bool x => simp [beqV]
        | num x => simp [beqV]
        | str x => simp [beqV]
        | arr x => simp [beqV]
  exact main

instance : DecidableEq Value := fun a b => decidable_of_iff _ (beqV_iff a b)

/-! ### Literal grammar: number text -/

/-- The decimal digit character for `n < 10`. -/
def digitChar (n : Nat) : Char := Char.ofNat (48 + n)

/-- Digits of `n`, most significant first (`fuel`-guarded division recursion). -/
def natDigitsAux : Nat → Nat → Chars
  | 0, _ => []
  | fuel + 1, n => if n < 10 then [digitChar n] else natDigitsAux fuel (n / 10) ++ [digitChar (n % 10)]

/-- Decimal digit string of a natural number. -/
def natChars (n : Nat) : Chars := natDigitsAux (n + 1) n

/-- Modelled from the spec: integral numbers "render with no fractional part". -/
def intChars (i : Int) : Chars :=
  if i < 0 then '-' :: natChars i.natAbs else natChars i.natAbs

/-- Modelled from the spec: a fractional value `m / 10^e` renders as minimal
decimal text (digits of `|m|`, zero-padded to at least `e + 1` digits, with a
decimal point before the last `e` digits, and a leading minus sign for
negative `m`); no exponent notation is used. -/
def decChars (m : Int) (e : Nat) : Chars :=
  let ds := natChars m.natAbs
  let pad := List.replicate (e + 1 - ds.length) '0' ++ ds
  let ip := pad.take (pad.length - e)
  let fp := pad.drop (pad.length - e)
  (if m < 0 then ['-'] else []) ++ ip ++ '.' :: fp

/-- Longest digit prefix of a character list, with the remainder. -/
def takeDigits : Chars → Chars × Chars
  | [] => ([], [])
  | c :: rest =>
      if c.isDigit then
        let (ds, r) := takeDigits rest
        (c :: ds, r)
      else ([], c :: rest)

/-- Numeric value of a digit character. -/
def digitVal (c : Char) : Nat := c.toNat - 48

/-- Natural number denoted by a digit string (most significant first). -/
def natFromDigits (ds : Chars) : Nat := ds.foldl (fun a c => 10 * a + digitVal c) 0

/-- Strip an optional leading minus sign. -/
def splitSign : Chars → Bool × Chars
  | [] => (false, [])
  | c :: r => if c = '-' then (true, r) else (false, c :: r)

/-- Negate a finite number. -/
def negNum : JNum → JNum
  | .int i => .int (-i)
  | .dec m e => .dec (-m) e
  | n => n

/-- Unsigned part of the Number grammar: a nonempty digit run, optionally a
dot and a second nonempty digit run, spanning the whole text. -/
def matchNumAbs (s1 : Chars) : Option JNum :=
  let (d1, r1) := takeDigits s1
  if d1 = [] then none
  else
    match r1 with
    | [] => some (.int (natFromDigits d1 : Int))
    | c :: r2 =>
        if c = '.' then
          let (d2, r3) := takeDigits r2
          if d2 = [] ∨ r3 ≠ [] then none
          else some (.dec (natFromDigits (d1 ++ d2) : Int) d2.length)
        else none

/-- Modelled from the spec: the Number grammar shared by encoder and decoder —
an optional minus sign, a nonempty digit run, and an optional fractional part
of a dot followed by a nonempty digit run.  Returns the denoted number when
the whole text matches. -/
def matchNum (s : Chars) : Option JNum :=
  let p := splitSign s
  (matchNumAbs p.2).map (fun n => if p.1 then negNum n else n)

/-! ### Literal grammar: strings -/

/-- Escape expansion of one character inside a quoted string.  Modelled from
the spec: "backslash, double-quote, and newline characters backslash-escaped". -/
def escChar (c : Char) : Chars :=
  if c = '\\' then ['\\', '\\']
  else if c = '"' then ['\\', '"']
  else if c = '\n' then ['\\', 'n']
  else [c]

/-- Escaped body of a quoted string. -/
def escape (s : Chars) : Chars := s.flatMap escChar

/-- Quoted rendering of a string. -/
def quoteStr (s : Chars) : Chars := '"' :: (escape s ++ ['"'])

/-- The reserved literal words. -/
def isReserved (s : Chars) : Bool :=
  decide (s = "null".data) || decide (s = "true".data) || decide (s = "false".data)

/-- Characters that force quoting in any position. -/
def badBareChar (d c : Char) : Bool :=
  decide (c = d) || decide (c = ':') || decide (c = '\n') || decide (c = '"')

/-- An optional boundary character is absent or not whitespace. -/
def notWS? : Option Char → Bool
  | none => true
  | some c => !c.isWhitespace

/-- Modelled from the spec: a string scalar renders bare iff it is nonempty,
contains none of the active delimiter, colon, newline or double-quote, has no
leading or trailing whitespace, and its full text is neither a reserved
literal nor a match for the Number grammar.  (Nonemptiness is required for
the format's round-trip law: a bare empty string would make an empty tabular
row cell line and a root-level empty document ambiguous.) -/
def isBareStr (d : Char) (s : Chars) : Bool :=
  !s.isEmpty &&
  s.all (fun c => !badBareChar d c) &&
  notWS? s.head? &&
  notWS? s.getLast? &&
  !isReserved s &&
  (matchNum s).isNone

/-- String scalar rendering: bare when allowed, quoted otherwise. -/
def renderStr (d : Char) (s : Chars) : Chars :=
  if isBareStr d s then s else quoteStr s

/-- Object keys and tabular field names additionally avoid the bracket
characters, which are structural in entry and header lines.  Modelled from
the spec's shared Literal Grammar for key text. -/
def isBareKey (d : Char) (s : Chars) : Bool :=
  isBareStr d s && s.all (fun c => !(decide (c = '[') || decide (c = ']') || decide (c = '{') || decide (c = '}')))

/-- Key rendering: bare when allowed, quoted otherwise. -/
def renderKey (d : Char) (s : Chars) : Chars :=
  if isBareKey d s then s else quoteStr s

/-- Encode-side failure (non-finite number, per the spec's §7 choice of
rejecting values with no canonical decimal literal). -/
structure EncodeError where
  msg : Chars
deriving DecidableEq, Repr

/-- Scalar test on values. -/
def isScalar : Value → Bool
  | .null | .bool _ | .num _ | .str _ => true
  | .arr _ | .obj _ => false

/-- Modelled from the spec's Literal Grammar rendering rules: `null`,
`true`/`false`, canonical number text, bare-or-quoted strings; non-finite
numbers are rejected with an `EncodeError`. -/
def scalarLit (d : Char) : Value → Except EncodeError Chars
  | .null => .ok "null".data
  | .bool true => .ok "true".data
  | .bool false => .ok "false".data
  | .num (.int i) => .ok (intChars i)
  | .num (.dec m e) => .ok (decChars m e)
  | .num _ => .error ⟨"non-finite number has no canonical literal".data⟩
  | .str s => .ok (renderStr d s)
  | .arr _ => .error ⟨"container in scalar position".data⟩
  | .obj _ => .error ⟨"container in scalar position".data⟩

/-! ### Decode errors and literal parsing -/

/-- Decode error kinds, from the spec's §7. -/
inductive ErrKind where
  | indentation
  | structuralCount
  | literal
  | depthLimit
deriving DecidableEq, Repr

/-- Modelled from the spec: the decode error carries a kind and a message. -/
structure DeepToonDecodeError where
  kind : ErrKind
  msg : Chars
deriving DecidableEq, Repr

/-- Scan the body of a quoted token after its opening quote, unescaping, up to
the closing quote; fails on an unterminated token or invalid escape.  The
Boolean state records a pending backslash. -/
def parseQuotedAux : Chars → Bool → Chars → Except DeepToonDecodeError (Chars × Chars)
  | [], _, _ => .error ⟨.literal, "unterminated quoted string".data⟩
  | c :: rest, esc, acc =>
      if esc then
        if c = '\\' then parseQuotedAux rest false ('\\' :: acc)
        else if c = '"' then parseQuotedAux rest false ('"' :: acc)
        else if c = 'n' then parseQuotedAux rest false ('\n' :: acc)
        else .error ⟨.literal, "invalid escape".data⟩
      else if c = '"' then .ok (acc.reverse, rest)
      else if c = '\\' then parseQuotedAux rest true acc
      else parseQuotedAux rest false (c :: acc)

/-- Modelled from the spec: a bare token is classified, in order, as a
keyword, else as a number when it matches the numeric grammar, else as a
string. -/
def classifyBare (s : Chars) : Value :=
  if s = "null".data then .null
  else if s = "true".data then .bool true
  else if s = "false".data then .bool false
  else
    match matchNum s with
    | some n => .num n
    | none => .str s

/-- Parse a complete scalar text: a quoted token (which must span the whole
text) always yields a string; otherwise the bare classification applies. -/
def parseScalarText (s : Chars) : Except DeepToonDecodeError Value :=
  match s with
  | [] => pure (classifyBare [])
  | c :: rest =>
      if c = '"' then do
        let (t, r) ← parseQuotedAux rest false []
        if r = [] then pure (.str t)
        else .error ⟨.literal, "trailing characters after quoted string".data⟩
      else pure (classifyBare (c :: rest))

/-! ### Value predicates -/

mutual

/-- Well-formed representation: object keys unique, fractional numbers have at
least one fractional digit. -/
def wfV : Value → Bool
  | .null | .bool _ | .str _ => true
  | .num (.dec _ e) => decide (1 ≤ e)
  | .num _ => true
  | .arr es => wfL es
  | .obj es => decide (es.map Prod.fst).Nodup && wfE es

def wfL : List Value → Bool
  | [] => true
  | v :: vs => wfV v && wfL vs

def wfE : List (Chars × Value) → Bool
  | [] => true
  | (_, v) :: es => wfV v && wfE es

end

mutual

/-- All numbers in the tree are finite. -/
def finV : Value → Bool
  | .num .inf | .num .negInf | .num .nan => false
  | .null | .bool _ | .num _ | .str _ => true
  | .arr es => finL es
  | .obj es => finE es

def finL : List Value → Bool
  | [] => true
  | v :: vs => finV v && finL vs

def finE : List (Chars × Value) → Bool
  | [] => true
  | (_, v) :: es => finV v && finE es

end

mutual

/-- Container-nesting depth of a value (scalars are depth 0). -/
def vdepth : Value → Nat
  | .null | .bool _ | .num _ | .str _ => 0
  | .arr es => 1 + depthL es
  | .obj es => 1 + depthE es

def depthL : List Value → Nat
  | [] => 0
  | v :: vs => max (vdepth v) (depthL vs)

def depthE : List (Chars × Value) → Nat
  | [] => 0
  | (_, v) :: es => max (vdepth v) (depthE es)

end

/-! ### Tabular folding eligibility -/

/-- All entry values of an object are scalars. -/
def scalarEntries : List (Chars × Value) → Bool
  | [] => true
  | (_, v) :: es => isScalar v && scalarEntries es

/-- One further element matches the shared ordered key list with scalar
values. -/
def rowMatches (ks : List Chars) : Value → Bool
  | .obj e => decide (e.map Prod.fst = ks) && scalarEntries e
  | _ => false

/-- Modelled from the spec: an array is tabular-eligible iff it is non-empty,
every element is an object, every element has the identical ordered key list,
and every held value is a scalar.  The key list must itself be non-empty (an
empty shared key list would produce empty row lines). -/
def tabularEligible : List Value → Bool
  | [] => false
  | .obj e :: es =>
      !(e.map Prod.fst).isEmpty && scalarEntries e && es.all (rowMatches (e.map Prod.fst))
  | _ :: _ => false

/-- The shared ordered field names of a tabular-eligible array. -/
def tabFields : List Value → List Chars
  | .obj e :: _ => e.map Prod.fst
  | _ => []

/-! ### Encoder -/

/-- One output line: indentation level and content. -/
abbrev Line := Nat × Chars

/-- Join texts with the delimiter between them. -/
def joinDelim (d : Char) : List Chars → Chars
  | [] => []
  | [x] => x
  | x :: xs => x ++ d :: joinDelim d xs

/-- Rendered cells of one tabular row (the row's scalar values in field
order). -/
def encCells (d : Char) : List Value → Except EncodeError (List Chars)
  | [] => .ok []
  | v :: vs =>
      match scalarLit d v with
      | .error e => .error e
      | .ok lit =>
          match encCells d vs with
          | .error e => .error e
          | .ok rest => .ok (lit :: rest)

/-- Rendered row lines of a tabular-eligible array, one line per element.
Modelled from the spec: each row is the element's field values in the shared
field order joined by the delimiter. -/
def encRows (d : Char) (dep : Nat) : List Value → Except EncodeError (List Line)
  | [] => .ok []
  | .obj e :: es =>
      match encCells d (e.map Prod.snd) with
      | .error er => .error er
      | .ok cells =>
          match encRows d dep es with
          | .error er => .error er
          | .ok rest => .ok ((dep, joinDelim d cells) :: rest)
  | _ :: _ => .error ⟨"non-object element in tabular rows".data⟩

/-- Header-line tail for an array (after the key or marker prefix).  Modelled
from the spec: a tabular-eligible array's single header line carries the
declared length and the delimiter-joined field names; any other array carries
just the declared-length marker. -/
def arrHeaderTail (d : Char) (es : List Value) : Chars :=
  if tabularEligible es then
    '[' :: (natChars es.length ++ ']' :: '{' ::
      (joinDelim d ((tabFields es).map (renderKey d)) ++ '}' :: [':']))
  else '[' :: (natChars es.length ++ [']', ':'])

mutual

/-- Lines of an object body: one entry after another.  Modelled from the
spec's Encoder: one line per key in insertion order. -/
def encEntries (d : Char) (dep : Nat) : List (Chars × Value) → Except EncodeError (List Line)
  | [] => .ok []
  | (k, v) :: es =>
      match encEntry d dep k v with
      | .error e => .error e
      | .ok l1 =>
          match encEntries d dep es with
          | .error e => .error e
          | .ok l2 => .ok (l1 ++ l2)

/-- Lines of one object entry.  Modelled from the spec: a scalar value is
inlined as `key: value`; an object value starts an indented block under
`key:`; an array value uses the array header forms. -/
def encEntry (d : Char) (dep : Nat) (k : Chars) (v : Value) : Except EncodeError (List Line) :=
  match v with
  | .obj es =>
      match encEntries d (dep + 1) es with
      | .error e => .error e
      | .ok body => .ok ((dep, renderKey d k ++ [':']) :: body)
  | .arr es =>
      match (if tabularEligible es then encRows d (dep + 1) es else encElems d (dep + 1) es) with
      | .error e => .error e
      | .ok body => .ok ((dep, renderKey d k ++ arrHeaderTail d es) :: body)
  | v =>
      match scalarLit d v with
      | .error e => .error e
      | .ok lit => .ok [(dep, renderKey d k ++ ':' :: ' ' :: lit)]

/-- Lines of one list-fallback element, introduced by a dash marker. -/
def encElem (d : Char) (dep : Nat) (v : Value) : Except EncodeError (List Line) :=
  match v with
  | .obj es =>
      match encEntries d (dep + 1) es with
      | .error e => .error e
      | .ok body => .ok ((dep, ['-', ':']) :: body)
  | .arr es =>
      match (if tabularEligible es then encRows d (dep + 1) es else encElems d (dep + 1) es) with
      | .error e => .error e
      | .ok body => .ok ((dep, '-' :: arrHeaderTail d es) :: body)
  | v =>
      match scalarLit d v with
      | .error e => .error e
      | .ok lit => .ok [(dep, '-' :: ' ' :: lit)]

/-- Lines of the elements of a list-fallback array. -/
def encElems (d : Char) (dep : Nat) : List Value → Except EncodeError (List Line)
  | [] => .ok []
  | v :: vs =>
      match encElem d dep v with
      | .error e => .error e
      | .ok l1 =>
          match encElems d dep vs with
          | .error e => .error e
          | .ok l2 => .ok (l1 ++ l2)

end

/-- Lines of a whole document. -/
def encRoot (d : Char) : Value → Except EncodeError (List Line)
  | .obj es => encEntries d 0 es
  | .arr es =>
      match (if tabularEligible es then encRows d 1 es else encElems d 1 es) with
      | .error e => .error e
      | .ok body => .ok ((0, arrHeaderTail d es) :: body)
  | v =>
      match scalarLit d v with
      | .error e => .error e
      | .ok lit => .ok [(0, lit)]

/-- Indentation prefix: two spaces per level. -/
def indentChars (n : Nat) : Chars := List.replicate (2 * n) ' '

/-- Assemble lines into the final text (newline-separated, indented). -/
def joinLines : List Line → Chars
  | [] => []
  | [l] => indentChars l.1 ++ l.2
  | l :: ls => indentChars l.1 ++ l.2 ++ '\n' :: joinLines ls

/-! ### Decoder: line normalization -/

/-- Split raw text on newline characters. -/
def splitRawAux : Chars → Chars → List Chars
  | [], acc => [acc.reverse]
  | c :: rest, acc =>
      if c = '\n' then acc.reverse :: splitRawAux rest []
      else splitRawAux rest (c :: acc)

/-- Raw lines of the input text. -/
def splitRaw (s : Chars) : List Chars := splitRawAux s []

/-- Drop a trailing carriage return (line-ending normalization). -/
def stripCR (l : Chars) : Chars := if l.getLast? = some '\r' then l.dropLast else l

/-- Count leading spaces. -/
def countIndent : Chars → Nat
  | [] => 0
  | c :: r => if c = ' ' then countIndent r + 1 else 0

/-- Normalize raw lines: strip carriage returns, drop blank lines, convert
leading spaces into an indentation level (two spaces per level; an odd space
count is an indentation error).  Modelled from the spec's Decoder step 1. -/
def toLines : List Chars → Except DeepToonDecodeError (List Line)
  | [] => .ok []
  | l :: ls =>
      let l' := stripCR l
      if l'.all Char.isWhitespace then toLines ls
      else
        let n := countIndent l'
        if n % 2 = 0 then
          match toLines ls with
          | .error e => .error e
          | .ok rest => .ok ((n / 2, l'.drop n) :: rest)
        else .error ⟨.indentation, "odd leading space count".data⟩

/-! ### Decoder: line-shape parsing -/

/-- Syntactic shape of one line after its key or marker. -/
inductive LineShape where
  | scalarTail (lit : Chars)
  | objIntro
  | listHeader (n : Nat)
  | tabHeader (n : Nat) (fields : List Chars)
deriving DecidableEq, Repr

/-- Split at the first character satisfying `p` (prefix, suffix including that
character). -/
def takeUntilP (p : Char → Bool) : Chars → Chars × Chars
  | [] => ([], [])
  | c :: r =>
      if p c then ([], c :: r)
      else
        let (a, b) := takeUntilP p r
        (c :: a, b)

/-- Field-name list inside a tabular header, ending with the closing brace and
colon at end of line. -/
def parseFieldsAux : Nat → Chars → Option (List Chars)
  | 0, _ => none
  | _ + 1, [] => none
  | f + 1, c :: rest =>
      if c = '"' then
        match parseQuotedAux rest false [] with
        | .error _ => none
        | .ok (k, r) =>
            match r with
            | ',' :: r2 => (parseFieldsAux f r2).map (k :: ·)
            | '}' :: r2 => if r2 = [':'] then some [k] else none
            | _ => none
      else
        let (tok, r) := takeUntilP (fun c => decide (c = ',') || decide (c = '}')) (c :: rest)
        if tok = [] then none
        else
          match r with
          | ',' :: r2 => (parseFieldsAux f r2).map (tok :: ·)
          | '}' :: r2 => if r2 = [':'] then some [tok] else none
          | _ => none

/-- Field-name list of a tabular header (text following the opening brace). -/
def parseFieldsTxt (s : Chars) : Option (List Chars) := parseFieldsAux (s.length + 1) s

/-- Array-header shape after the opening bracket: declared length, closing
bracket, then a colon (list fallback) or a braced field list (tabular). -/
def parseArrShape (rest : Chars) : Option LineShape :=
  let (ds, r) := takeDigits rest
  if ds = [] then none
  else
    match r with
    | ']' :: r2 =>
        match r2 with
        | [':'] => some (.listHeader (natFromDigits ds))
        | '{' :: r3 => (parseFieldsTxt r3).map (fun fs => .tabHeader (natFromDigits ds) fs)
        | _ => none
    | _ => none

/-- Shape of the text following a key: `: value`, bare `:` (object child), or
an array header. -/
def parseTail : Chars → Option LineShape
  | [] => none
  | ch :: rest =>
      if ch = ':' then
        match rest with
        | [] => some .objIntro
        | c2 :: lit => if c2 = ' ' then some (.scalarTail lit) else none
      else if ch = '[' then parseArrShape rest
      else none

/-- Parse an object-entry line into its key and shape. -/
def parseEntryLine (c : Chars) : Option (Chars × LineShape) :=
  match c with
  | [] => none
  | ch :: rest =>
      if ch = '"' then
        match parseQuotedAux rest false [] with
        | .error _ => none
        | .ok (k, r) => (parseTail r).map (fun sh => (k, sh))
      else
        let (k, r) := takeUntilP (fun x => decide (x = ':') || decide (x = '[')) (ch :: rest)
        if k = [] then none
        else (parseTail r).map (fun sh => (k, sh))

/-- Parse a list-element line (dash marker then a scalar or container form). -/
def parseElemLine (c : Chars) : Option LineShape :=
  match c with
  | [] => none
  | ch :: rest =>
      if ch = '-' then
        match rest with
        | [] => none
        | c2 :: lit => if c2 = ' ' then some (.scalarTail lit) else parseTail (c2 :: lit)
      else none

/-! ### Decoder: cell parsing -/

/-- Parse the delimiter-separated cells of one tabular row (the decoder's
delimiter is the default comma). -/
def parseCellsAux : Nat → Chars → Except DeepToonDecodeError (List Value)
  | 0, _ => .error ⟨.literal, "row cell scan fuel exhausted".data⟩
  | f + 1, s =>
      if s.head? = some '"' then
        match parseQuotedAux s.tail false [] with
        | .error e => .error e
        | .ok (t, r) =>
            match r with
            | [] => .ok [.str t]
            | c :: r2 =>
                if c = ',' then (parseCellsAux f r2).map (fun vs => .str t :: vs)
                else .error ⟨.literal, "delimiter expected after quoted cell".data⟩
      else
        let (tok, r) := takeUntilP (fun c => decide (c = ',')) s
        match r with
        | [] => .ok [classifyBare tok]
        | _ :: r2 => (parseCellsAux f r2).map (fun vs => classifyBare tok :: vs)

/-- Cells of one row line. -/
def parseCells (s : Chars) : Except DeepToonDecodeError (List Value) :=
  parseCellsAux (s.length + 1) s

/-! ### Decoder: recursive descent -/

/-- Tabular rows: exactly `n` rows at the given depth, each row's cell count
matching the field count; rows become objects in header field order.
Modelled from the spec's Decoder step 4 (a count mismatch is a structural
error, not a silent truncation or padding). -/
def parseRows (dep db : Nat) (fields : List Chars) :
    Nat → List Line → Except DeepToonDecodeError (List Value × List Line)
  | 0, lines =>
      match lines with
      | [] => .ok ([], [])
      | (l, _) :: _ =>
          if l < dep then .ok ([], lines)
          else if l = dep then .error ⟨.structuralCount, "more rows than declared".data⟩
          else .error ⟨.indentation, "unexpected indent after rows".data⟩
  | n + 1, lines =>
      match lines with
      | [] => .error ⟨.structuralCount, "fewer rows than declared".data⟩
      | (l, c) :: rest =>
          if l < dep then .error ⟨.structuralCount, "fewer rows than declared".data⟩
          else if dep < l then .error ⟨.indentation, "unexpected indent in rows".data⟩
          else if db = 0 then .error ⟨.depthLimit, "maximum depth exceeded".data⟩
          else
            match parseCells c with
            | .error e => .error e
            | .ok cells =>
                if cells.length = fields.length then
                  match parseRows dep db fields n rest with
                  | .error e => .error e
                  | .ok (vs, r) => .ok (.obj (fields.zip cells) :: vs, r)
                else .error ⟨.structuralCount, "row cell count does not match field count".data⟩

mutual

/-- Object body at a given depth: consume entry lines while they sit exactly
at that depth.  Modelled from the spec's Decoder step 3. -/
def parseBody : (fuel : Nat) → Nat → Nat → List Line → Except DeepToonDecodeError (List (Chars × Value) × List Line)
  | 0, _, _, _ => .error ⟨.literal, "parser fuel exhausted".data⟩
  | f + 1, dep, db, lines =>
      match lines with
      | [] => .ok ([], [])
      | (l, c) :: rest =>
          if l < dep then .ok ([], (l, c) :: rest)
          else if dep < l then .error ⟨.indentation, "unexpected indent in object body".data⟩
          else
            match parseEntryLine c with
            | none => .error ⟨.literal, "malformed object entry line".data⟩
            | some (k, sh) =>
                match parseShape f dep db sh rest with
                | .error e => .error e
                | .ok (v, r1) =>
                    match parseBody f dep db r1 with
                    | .error e => .error e
                    | .ok (es, r2) => .ok ((k, v) :: es, r2)
  termination_by structural fuel => fuel

/-- List-fallback elements: exactly `n` element blocks at the given depth.
Modelled from the spec's Decoder step 5 (count mismatch is structural). -/
def parseElems : Nat → Nat → Nat → Nat → List Line → Except DeepToonDecodeError (List Value × List Line)
  | 0, _, _, _, _ => .error ⟨.literal, "parser fuel exhausted".data⟩
  | _ + 1, dep, _, 0, lines =>
      match lines with
      | [] => .ok ([], [])
      | (l, _) :: _ =>
          if l < dep then .ok ([], lines)
          else if l = dep then .error ⟨.structuralCount, "more elements than declared".data⟩
          else .error ⟨.indentation, "unexpected indent after elements".data⟩
  | f + 1, dep, db, n + 1, lines =>
      match lines with
      | [] => .error ⟨.structuralCount, "fewer elements than declared".data⟩
      | (l, c) :: rest =>
          if l < dep then .error ⟨.structuralCount, "fewer elements than declared".data⟩
          else if dep < l then .error ⟨.indentation, "unexpected indent in elements".data⟩
          else
            match parseElemLine c with
            | none => .error ⟨.literal, "malformed list element line".data⟩
            | some sh =>
                match parseShape f dep db sh rest with
                | .error e => .error e
                | .ok (v, r1) =>
                    match parseElems f dep db n r1 with
                    | .error e => .error e
                    | .ok (vs, r2) => .ok (v :: vs, r2)
  termination_by structural fuel => fuel

/-- Value introduced by a line of the given shape; container shapes descend
one indentation level and consume one unit of the depth budget (exhausting it
is a depth-limit error, per the spec's Decoder step 6). -/
def parseShape : Nat → Nat → Nat → LineShape → List Line → Except DeepToonDecodeError (Value × List Line)
  | 0, _, _, _, _ => .error ⟨.literal, "parser fuel exhausted".data⟩
  | f + 1, dep, db, sh, lines =>
      match sh with
      | .scalarTail lit =>
          match parseScalarText lit with
          | .error e => .error e
          | .ok v => .ok (v, lines)
      | .objIntro =>
          if db = 0 then .error ⟨.depthLimit, "maximum depth exceeded".data⟩
          else
            match parseBody f (dep + 1) (db - 1) lines with
            | .error e => .error e
            | .ok (es, r) => .ok (.obj es, r)
      | .listHeader n =>
          if db = 0 then .error ⟨.depthLimit, "maximum depth exceeded".data⟩
          else
            match parseElems f (dep + 1) (db - 1) n lines with
            | .error e => .error e
            | .ok (vs, r) => .ok (.arr vs, r)
      | .tabHeader n fs =>
          if db = 0 then .error ⟨.depthLimit, "maximum depth exceeded".data⟩
          else
            match parseRows (dep + 1) (db - 1) fs n lines with
            | .error e => .error e
            | .ok (vs, r) => .ok (.arr vs, r)
  termination_by structural fuel => fuel

end

/-- Whole-document parse.  Modelled from the spec's Decoder: an empty
(normalized) document is the empty object; a document whose first line is an
object entry is an object body; a document whose first line is an array
header is an array; a single line that is neither is a scalar literal. -/
def parseRoot (fuel db : Nat) (lines : List Line) : Except DeepToonDecodeError Value :=
  match lines with
  | [] => .ok (.obj [])
  | (l, c) :: rest =>
      if l ≠ 0 then .error ⟨.indentation, "document must start at depth 0".data⟩
      else
        match parseEntryLine c with
        | some _ =>
            if db = 0 then .error ⟨.depthLimit, "maximum depth exceeded".data⟩
            else
              match parseBody fuel 0 (db - 1) ((l, c) :: rest) with
              | .error e => .error e
              | .ok (es, r) =>
                  match r with
                  | [] => .ok (.obj es)
                  | _ => .error ⟨.indentation, "unparsed trailing lines".data⟩
        | none =>
            match (if c.head? = some '[' then parseArrShape c.tail else none) with
            | some (.listHeader n) =>
                if db = 0 then .error ⟨.depthLimit, "maximum depth exceeded".data⟩
                else
                  match parseElems fuel 1 (db - 1) n rest with
                  | .error e => .error e
                  | .ok (vs, r) =>
                      match r with
                      | [] => .ok (.arr vs)
                      | _ => .error ⟨.indentation, "unparsed trailing lines".data⟩
            | some (.tabHeader n fs) =>
                if db = 0 then .error ⟨.depthLimit, "maximum depth exceeded".data⟩
                else
                  match parseRows 1 (db - 1) fs n rest with
                  | .error e => .error e
                  | .ok (vs, r) =>
                      match r with
                      | [] => .ok (.arr vs)
                      | _ => .error ⟨.indentation, "unparsed trailing lines".data⟩
            | _ =>
                match rest with
                | [] => parseScalarText c
                | _ => .error ⟨.literal, "malformed document line".data⟩

/-- Modelled from the spec: the decoder's configured maximum recursion
depth. -/
def DEFAULT_MAX_DEPTH : Nat := 100

/-! ### JSON baseline serialization (for the smart-encode policy) -/

mutual

/-- Modelled from the spec's Smart-Encode Policy: the "minimal,
separator-tight JSON-equivalent serialization" used as the baseline (comma
and colon separators with no spaces; Python's `json.dumps` renders the
non-finite floats as `Infinity`, `-Infinity` and `NaN`). -/
def jsonV : Value → Chars
  | .null => "null".data
  | .bool true => "true".data
  | .bool false => "false".data
  | .num (.int i) => intChars i
  | .num (.dec m e) => decChars m e
  | .num .inf => "Infinity".data
  | .num .negInf => "-Infinity".data
  | .num .nan => "NaN".data
  | .str s => '"' :: (escape s ++ ['"'])
  | .arr es => '[' :: (jsonL es ++ [']'])
  | .obj es => '{' :: (jsonE es ++ ['}'])

def jsonL : List Value → Chars
  | [] => []
  | [v] => jsonV v
  | v :: vs => jsonV v ++ ',' :: jsonL vs

def jsonE : List (Chars × Value) → Chars
  | [] => []
  | [(k, v)] => '"' :: (escape k ++ '"' :: ':' :: jsonV v)
  | (k, v) :: es => ('"' :: (escape k ++ '"' :: ':' :: jsonV v)) ++ ',' :: jsonE es

end

/-! ### Public API (translated from `deep_toon/__init__.py`) -/

/-- The encoder class; its construction takes the delimiter, defaulting to a
comma. -/
structure DeepToonEncoder where
  delimiter : Char := ','

/-- `DeepToonEncoder.encode`: full document text of a value. -/
def DeepToonEncoder.encode (enc : DeepToonEncoder) (data : Value) : Except EncodeError Chars :=
  (encRoot enc.delimiter data).map joinLines

/-- Modelled from the spec's Smart-Encode Policy: compare the cost of the
compact text against the baseline JSON serialization under the supplied cost
function (a length proxy when none is given); return the compact text iff the
savings ratio reaches the threshold, preferring the baseline when the
baseline cost is zero. -/
def DeepToonEncoder.smart_encode (enc : DeepToonEncoder) (data : Value)
    (threshold : ℚ) (token_counter : Option (Chars → Nat)) : Except EncodeError Chars :=
  match enc.encode data with
  | .error e => .error e
  | .ok compact =>
      let baseline := jsonV data
      let costF := token_counter.getD List.length
      let b := costF baseline
      let c := costF compact
      if b = 0 then .ok baseline
      else if threshold ≤ ((b : ℚ) - (c : ℚ)) / (b : ℚ) then .ok compact
      else .ok baseline

/-- The decoder class; `DeepToonDecoder()` takes no arguments in the public
API, so the depth limit is the configured default. -/
structure DeepToonDecoder where
  maxDepth : Nat := DEFAULT_MAX_DEPTH

/-- `DeepToonDecoder.decode`: parse a document text. -/
def DeepToonDecoder.decode (dec : DeepToonDecoder) (text : Chars) :
    Except DeepToonDecodeError Value :=
  match toLines (splitRaw text) with
  | .error e => .error e
  | .ok lines => parseRoot (2 * lines.length + 2) dec.maxDepth lines

/-- Module-level `encode` (from `__init__.py`): build a `DeepToonEncoder`
with the given delimiter and encode. -/
def encode (data : Value) (delimiter : Char := ',') : Except EncodeError Chars :=
  (DeepToonEncoder.mk delimiter).encode data

/-- Module-level `decode` (from `__init__.py`): `DeepToonDecoder().decode`. -/
def decode (deep_toon_str : Chars) : Except DeepToonDecodeError Value :=
  (DeepToonDecoder.mk DEFAULT_MAX_DEPTH).decode deep_toon_str

/-- Module-level `smart_encode` (from `__init__.py`): note the encoder is
constructed as `DeepToonEncoder()` with no delimiter argument. -/
def smart_encode (data : Value) (threshold : ℚ := (1 : ℚ) / 10)
    (token_counter : Option (Chars → Nat) := none) : Except EncodeError Chars :=
  (DeepToonEncoder.mk ',').smart_encode data threshold token_counter

/-! ### Evaluation-harness API budget (translated from
`evaluation/test_llm_comprehension.py`) -/

/-- `MAX_API_CALLS` from the harness. -/
def MAX_API_CALLS : Nat := 50

/-- `increment_api_calls` followed by `check_api_limit`: increment the global
counter, then raise `APICallLimitExceeded` when the incremented count has
reached the limit.  Returns the new counter and whether the exception was
raised. -/
def increment_api_calls (api_call_count : Nat) : Nat × Bool :=
  (api_call_count + 1, decide (api_call_count + 1 ≥ MAX_API_CALLS))

/-- One `query_llm`-style wrapper call: `increment_api_calls()` runs first;
the remote request is issued only when it did not raise.  State: (counter,
number of remote requests actually issued). -/
def queryWrapperStep (st : Nat × Nat) : Nat × Nat :=
  let (cnt, issued) := st
  let (cnt', raised) := increment_api_calls cnt
  if raised then (cnt', issued) else (cnt', issued + 1)

/-- Run `n` wrapper calls from the initial state (counter 0, no requests),
assuming the caller catches `APICallLimitExceeded` and keeps calling. -/
def runWrappers : Nat → Nat × Nat
  | 0 => (0, 0)
  | n + 1 => queryWrapperStep (runWrappers n)

/-- Entry-line tail text determined by a line shape (what follows the
rendered key on an object-entry line). -/
def tailTextEntry : LineShape → Chars
  | .scalarTail lit => ':' :: ' ' :: lit
  | .objIntro => [':']
  | .listHeader n => '[' :: (natChars n ++ [']', ':'])
  | .tabHeader n fs =>
      '[' :: (natChars n ++ ']' :: '{' :: (joinDelim ',' (fs.map (renderKey ',')) ++ '}' :: [':']))

/-- Element-line tail text (what follows the dash marker). -/
def tailTextElem : LineShape → Chars
  | .scalarTail lit => ' ' :: lit
  | sh => tailTextEntry sh

/-- Shape and child lines of one encoded value (the per-value decomposition
shared by entry, element and root positions). -/
def vShape (d : Char) (dep : Nat) (v : Value) : Except EncodeError (LineShape × List Line) :=
  match v with
  | .obj es =>
      match encEntries d (dep + 1) es with
      | .error e => .error e
      | .ok cls => .ok (.objIntro, cls)
  | .arr es =>
      if tabularEligible es then
        match encRows d (dep + 1) es with
        | .error e => .error e
        | .ok rows => .ok (.tabHeader es.length (tabFields es), rows)
      else
        match encElems d (dep + 1) es with
        | .error e => .error e
        | .ok cls => .ok (.listHeader es.length, cls)
  | v =>
      match scalarLit d v with
      | .error e => .error e
      | .ok lit => .ok (.scalarTail lit, [])

/-- The next line after a block must sit strictly above the given depth. -/
def stopsBelow (dep : Nat) (rest : List Line) : Prop :=
  ∀ l : Line, rest.head? = some l → l.1 < dep

/-- Conditions on an emitted line that make line assembly invertible: a
nonempty content with no raw newline and non-whitespace boundary
characters. -/
def goodLine (l : Line) : Prop :=
  l.2 ≠ [] ∧ (∀ c ∈ l.2, ¬ c = '\n') ∧
  (∀ c, l.2.head? = some c → c.isWhitespace = false) ∧
  (∀ c, l.2.getLast? = some c → c.isWhitespace = false)

/-- Decidable equality on `Except` results. -/
instance {ε α : Type} [DecidableEq ε] [DecidableEq α] : DecidableEq (Except ε α) := fun a b =>
  match a, b with
  | .ok x, .ok y => decidable_of_iff (x = y) (by simp)
  | .error x, .error y => decidable_of_iff (x = y) (by simp)
  | .ok _, .error _ => isFalse (by simp)
  | .error _, .ok _ => isFalse (by simp)

/-- Parse-correctness statement for one encoded value in shape position. -/
def ShapeStmt (v : Value) : Prop :=
  ∀ (dep db f : Nat) (sh : LineShape) (cls rest : List Line),
    wfV v = true → vdepth v ≤ db →
    vShape ',' dep v = .ok (sh, cls) →
    stopsBelow (dep + 1) rest →
    2 * cls.length + 3 ≤ f →
    parseShape f dep db sh (cls ++ rest) = .ok (v, rest)

/-- Goodness statement for the child lines of one encoded value. -/
def GoodStmt (v : Value) : Prop :=
  ∀ (dep : Nat) (sh : LineShape) (cls : List Line),
    vShape ',' dep v = .ok (sh, cls) → ∀ l ∈ cls, goodLine l

/-- Totality statement for one value position. -/
def TotalStmt (v : Value) : Prop :=
  ∀ dep : Nat, (∃ p, vShape ',' dep v = .ok p) ↔ finV v = true

/-- Singleton-nested arrays of the given depth around an integer leaf. -/
def nestArr : Nat → Value
  | 0 => .num (.int 1)
  | k + 1 => .arr [nestArr k]

/-! ### Concrete documents used by the specification claims -/

/-- The `flat_data` example of `evaluation/test_data_questions.py`. -/
def flatData : Value :=
  .obj [("items".data, .arr [
    .obj [("id".data, .num (.int 1)), ("name".data, .str "Alice".data),
          ("age".data, .num (.int 25)), ("active".data, .bool true)],
    .obj [("id".data, .num (.int 2)), ("name".data, .str "Bob".data),
          ("age".data, .num (.int 30)), ("active".data, .bool false)],
    .obj [("id".data, .num (.int 3)), ("name".data, .str "Charlie".data),
          ("age".data, .num (.int 35)), ("active".data, .bool true)]])]

/-- The expected tabular text for `flatData`. -/
def flatText : Chars :=
  ("items[3]{id,name,age,active}:\n  1,Alice,25,true\n  2,Bob,30,false"
    ++ "\n  3,Charlie,35,true").data

/-- The `primitives_data` mixed array of `evaluation/test_data_questions.py`. -/
def mixedData : Value :=
  .arr [.num (.int 1), .str "text".data, .bool true, .null, .num (.dec 314 2)]

/-- The expected list-fallback text for `mixedData`. -/
def mixedText : Chars := "[5]:\n  - 1\n  - text\n  - true\n  - null\n  - 3.14".data

/-- A tabular block declaring three rows but supplying only two. -/
def malformed1 : Chars := "items[3]{id,name}:\n  1,a\n  2,b".data

/-- A tabular block with a row whose cell count differs from the header. -/
def malformed2 : Chars := "items[2]{id,name}:\n  1,a\n  2,b,c".data

theorem encCells_length {d : Char} {vs : List Value} {cells : List Chars}
    (h : encCells d vs = .ok cells) : cells.length = vs.length := by
  induction vs generalizing cells with
  | nil => simp only [encCells, Except.ok.injEq] at h; subst h; rfl
  | cons v vs' ih =>
      simp only [encCells] at h
      cases h1 : scalarLit d v with
      | error er => rw [h1] at h; cases h
      | ok lit =>
          rw [h1] at h
          cases h2 : encCells d vs' with
          | error er => rw [h2] at h; cases h
          | ok rest =>
              rw [h2] at h
              simp only [Except.ok.injEq] at h
              subst h
              simp [ih h2]

/-! ### Number text round-trip -/

theorem digitChar_isDigit {k : Nat} (h : k < 10) : (digitChar k).isDigit = true := by
  interval_cases k <;> decide

theorem digitVal_digitChar {k : Nat} (h : k < 10) : digitVal (digitChar k) = k := by
  interval_cases k <;> decide

theorem natDigitsAux_digits :
    ∀ fuel n, n < fuel → ∀ c ∈ natDigitsAux fuel n, c.isDigit = true := by
  intro fuel
  induction fuel with
  | zero => intro n h; omega
  | succ f ih =>
      intro n h c hc
      simp only [natDigitsAux] at hc
      split at hc
      · rename_i h10
        simp only [List.mem_singleton] at hc
        subst hc; exact digitChar_isDigit h10
      · rename_i h10
        rcases List.mem_append.mp hc with hc | hc
        · exact ih (n / 10) (by omega) c hc
        · simp only [List.mem_singleton] at hc
          subst hc; exact digitChar_isDigit (Nat.mod_lt _ (by omega))

theorem natDigitsAux_ne_nil {fuel n : Nat} (h : 0 < fuel) : natDigitsAux fuel n ≠ [] := by
  cases fuel with
  | zero => omega
  | succ f =>
      simp only [natDigitsAux]
      split <;> simp

theorem natChars_digits (n : Nat) : ∀ c ∈ natChars n, c.isDigit = true :=
  natDigitsAux_digits (n + 1) n (Nat.lt_succ_self _)

theorem natChars_ne_nil (n : Nat) : natChars n ≠ [] :=
  natDigitsAux_ne_nil (Nat.succ_pos _)

theorem natFromDigits_append_single (a : Chars) (c : Char) :
    natFromDigits (a ++ [c]) = 10 * natFromDigits a + digitVal c := by
  simp [natFromDigits, List.foldl_append]

theorem natFromDigits_natDigitsAux :
    ∀ fuel n, n < fuel → natFromDigits (natDigitsAux fuel n) = n := by
  intro fuel
  induction fuel with
  | zero => intro n h; omega
  | succ f ih =>
      intro n h
      simp only [natDigitsAux]
      split
      · rename_i h10
        simp [natFromDigits, digitVal_digitChar h10]
      · rename_i h10
        rw [natFromDigits_append_single, ih (n / 10) (by omega),
          digitVal_digitChar (Nat.mod_lt _ (by omega))]
        omega

theorem natFromDigits_natChars (n : Nat) : natFromDigits (natChars n) = n :=
  natFromDigits_natDigitsAux (n + 1) n (Nat.lt_succ_self _)

theorem natFromDigits_replicate_zero (k : Nat) (ds : Chars) :
    natFromDigits (List.replicate k '0' ++ ds) = natFromDigits ds := by
  induction k with
  | zero => simp
  | succ k ih =>
      have : natFromDigits (List.replicate (k+1) '0' ++ ds)
          = natFromDigits (List.replicate k '0' ++ ds) := by
        simp [natFromDigits, List.replicate_succ, digitVal]
      rw [this, ih]

theorem takeDigits_spec (ds rest : Chars) (hds : ∀ c ∈ ds, c.isDigit = true)
    (hrest : match rest with | [] => True | c :: _ => c.isDigit = false) :
    takeDigits (ds ++ rest) = (ds, rest) := by
  induction ds with
  | nil =>
      cases rest with
      | nil => rfl
      | cons c r => simp only at hrest; simp [takeDigits, hrest]
  | cons c cs ih =>
      have hc : c.isDigit = true := hds c (List.mem_cons_self _ _)
      have := ih (fun x hx => hds x (List.mem_cons_of_mem _ hx))
      simp [takeDigits, hc, this]

theorem splitSign_no_minus {s : Chars} (h : s.head? ≠ some '-') :
    splitSign s = (false, s) := by
  cases s with
  | nil => rfl
  | cons c r =>
      simp only [List.head?_cons, ne_eq, Option.some.injEq] at h
      simp [splitSign, h]

theorem matchNum_eq_abs {s : Chars} (h : s.head? ≠ some '-') :
    matchNum s = matchNumAbs s := by
  cases hm : matchNumAbs s <;> simp [matchNum, splitSign_no_minus h, hm]

theorem matchNum_minus (s : Chars) :
    matchNum ('-' :: s) = (matchNumAbs s).map negNum := by
  cases hm : matchNumAbs s <;> simp [matchNum, splitSign, hm]

theorem matchNumAbs_natChars (n : Nat) : matchNumAbs (natChars n) = some (.int n) := by
  have htake : takeDigits (natChars n ++ []) = (natChars n, []) :=
    takeDigits_spec (natChars n) [] (natChars_digits n) trivial
  rw [List.append_nil] at htake
  unfold matchNumAbs
  rw [htake]
  simp [natChars_ne_nil n, natFromDigits_natChars]

theorem head_not_minus_of_digits {s : Chars} (h : ∀ c ∈ s, c.isDigit = true) :
    s.head? ≠ some '-' := by
  cases s with
  | nil => simp
  | cons c r =>
      have hd := h c (List.mem_cons_self _ _)
      simp only [List.head?_cons, ne_eq, Option.some.injEq]
      intro hc
      subst hc
      simp [Char.isDigit] at hd

theorem matchNum_intChars (i : Int) : matchNum (intChars i) = some (.int i) := by
  by_cases hneg : i < 0
  · have hi : intChars i = '-' :: natChars i.natAbs := by simp [intChars, hneg]
    rw [hi, matchNum_minus, matchNumAbs_natChars]
    have habs : (i.natAbs : Int) = -i := Int.ofNat_natAbs_of_nonpos (le_of_lt hneg)
    simp [negNum, habs]
  · have hi : intChars i = natChars i.natAbs := by simp [intChars, hneg]
    rw [hi, matchNum_eq_abs (head_not_minus_of_digits (natChars_digits _)),
      matchNumAbs_natChars]
    have habs : (i.natAbs : Int) = i := Int.natAbs_of_nonneg (by omega)
    simp [habs]

theorem decChars_shape (m : Int) (e : Nat) (he : 1 ≤ e) :
    ∃ ip fp, decChars m e = (if m < 0 then ['-'] else []) ++ ip ++ '.' :: fp ∧
      ip ≠ [] ∧ fp ≠ [] ∧ (∀ c ∈ ip, c.isDigit = true) ∧ (∀ c ∈ fp, c.isDigit = true) ∧
      fp.length = e ∧ natFromDigits (ip ++ fp) = m.natAbs := by
  classical
  set ds := natChars m.natAbs with hds
  set pad := List.replicate (e + 1 - ds.length) '0' ++ ds with hpad
  have hdsne : ds ≠ [] := natChars_ne_nil _
  have hdslen : 1 ≤ ds.length := by
    cases hd : ds with
    | nil => exact absurd hd hdsne
    | cons a b => simp [hd]
  have hpadlen : e + 1 ≤ pad.length := by
    simp only [hpad, List.length_append, List.length_replicate]
    omega
  have hpaddig : ∀ c ∈ pad, c.isDigit = true := by
    intro c hc
    rcases List.mem_append.mp hc with hc | hc
    · have := List.eq_of_mem_replicate hc
      subst this; decide
    · exact natChars_digits _ c hc
  refine ⟨pad.take (pad.length - e), pad.drop (pad.length - e), rfl, ?_, ?_, ?_, ?_, ?_, ?_⟩
  · have : (pad.take (pad.length - e)).length = pad.length - e := by
      rw [List.length_take]; omega
    intro h
    rw [h] at this
    simp at this
    omega
  · have : (pad.drop (pad.length - e)).length = e := by
      rw [List.length_drop]; omega
    intro h
    rw [h] at this
    simp at this
    omega
  · exact fun c hc => hpaddig c (List.mem_of_mem_take hc)
  · exact fun c hc => hpaddig c (List.mem_of_mem_drop hc)
  · rw [List.length_drop]; omega
  · rw [List.take_append_drop, hpad, natFromDigits_replicate_zero, natFromDigits_natChars]

theorem matchNumAbs_of_parts {ip fp : Chars} (hip : ip ≠ []) (hfp : fp ≠ [])
    (hipd : ∀ c ∈ ip, c.isDigit = true) (hfpd : ∀ c ∈ fp, c.isDigit = true) :
    matchNumAbs (ip ++ '.' :: fp) = some (.dec (natFromDigits (ip ++ fp) : Int) fp.length) := by
  have htakefp : takeDigits (fp ++ []) = (fp, []) := takeDigits_spec fp [] hfpd trivial
  rw [List.append_nil] at htakefp
  have htakeip : takeDigits (ip ++ '.' :: fp) = (ip, '.' :: fp) :=
    takeDigits_spec ip ('.' :: fp) hipd (by simp)
  unfold matchNumAbs
  rw [htakeip]
  simp only [hip, if_neg, htakefp]
  simp [hip, hfp]

theorem matchNum_decChars (m : Int) (e : Nat) (he : 1 ≤ e) :
    matchNum (decChars m e) = some (.dec m e) := by
  obtain ⟨ip, fp, hshape, hip, hfp, hipd, hfpd, hfplen, hval⟩ := decChars_shape m e he
  have habs := matchNumAbs_of_parts hip hfp hipd hfpd
  by_cases hneg : m < 0
  · have hm : (m.natAbs : Int) = -m := Int.ofNat_natAbs_of_nonpos (le_of_lt hneg)
    rw [hshape, if_pos hneg]
    rw [show ['-'] ++ ip ++ '.' :: fp = '-' :: (ip ++ '.' :: fp) by simp]
    rw [matchNum_minus, habs, hval, hfplen]
    simp [negNum, hm]
  · have hm : (m.natAbs : Int) = m := Int.natAbs_of_nonneg (by omega)
    have hhead : (ip ++ '.' :: fp).head? ≠ some '-' := by
      rcases List.exists_cons_of_ne_nil hip with ⟨c, r, hipr⟩
      have hc : c.isDigit = true := hipd c (by rw [hipr]; exact List.mem_cons_self _ _)
      rw [hipr]
      simp only [List.cons_append, List.head?_cons, ne_eq, Option.some.injEq]
      intro h
      subst h
      simp [Char.isDigit] at hc
    rw [hshape, if_neg hneg, List.nil_append]
    rw [matchNum_eq_abs hhead, habs, hval, hfplen, hm]

/-! ### Quoted string round-trip -/

theorem escape_cons (c : Char) (cs : Chars) :
    escape (c :: cs) = escChar c ++ escape cs := by
  simp [escape]

theorem parseQuotedAux_escape (s : Chars) :
    ∀ acc rest,
      parseQuotedAux (escape s ++ '"' :: rest) false acc = .ok (acc.reverse ++ s, rest) := by
  induction s with
  | nil =>
      intro acc rest
      rw [show escape [] ++ '"' :: rest = '"' :: rest from rfl]
      simp [parseQuotedAux]
  | cons c cs ih =>
      intro acc rest
      rw [escape_cons]
      by_cases h1 : c = '\\'
      · subst h1
        rw [show (escChar '\\' ++ escape cs) ++ '"' :: rest
            = '\\' :: '\\' :: (escape cs ++ '"' :: rest) by simp [escChar]]
        rw [show parseQuotedAux ('\\' :: '\\' :: (escape cs ++ '"' :: rest)) false acc
            = parseQuotedAux (escape cs ++ '"' :: rest) false ('\\' :: acc) by
          simp [parseQuotedAux]]
        rw [ih ('\\' :: acc) rest]
        simp
      · by_cases h2 : c = '"'
        · subst h2
          rw [show (escChar '"' ++ escape cs) ++ '"' :: rest
              = '\\' :: '"' :: (escape cs ++ '"' :: rest) by simp [escChar]]
          rw [show parseQuotedAux ('\\' :: '"' :: (escape cs ++ '"' :: rest)) false acc
              = parseQuotedAux (escape cs ++ '"' :: rest) false ('"' :: acc) by
            simp [parseQuotedAux]]
          rw [ih ('"' :: acc) rest]
          simp
        · by_cases h3 : c = '\n'
          · subst h3
            rw [show (escChar '\n' ++ escape cs) ++ '"' :: rest
                = '\\' :: 'n' :: (escape cs ++ '"' :: rest) by simp [escChar]]
            rw [show parseQuotedAux ('\\' :: 'n' :: (escape cs ++ '"' :: rest)) false acc
                = parseQuotedAux (escape cs ++ '"' :: rest) false ('\n' :: acc) by
              simp [parseQuotedAux]]
            rw [ih ('\n' :: acc) rest]
            simp
          · rw [show (escChar c ++ escape cs) ++ '"' :: rest
                = c :: (escape cs ++ '"' :: rest) by simp [escChar, h1, h2, h3]]
            rw [show parseQuotedAux (c :: (escape cs ++ '"' :: rest)) false acc
                = parseQuotedAux (escape cs ++ '"' :: rest) false (c :: acc) by
              simp [parseQuotedAux, h1, h2]]
            rw [ih (c :: acc) rest]
            simp

theorem parseQuotedAux_quoteStr (s rest : Chars) :
    parseQuotedAux (escape s ++ '"' :: rest) false [] = .ok (s, rest) := by
  simpa using parseQuotedAux_escape s [] rest

theorem escChar_no_newline (c : Char) : ∀ x ∈ escChar c, ¬ x = '\n' := by
  unfold escChar
  split_ifs with h1 h2 h3
  · decide
  · decide
  · decide
  · intro x hx
    simp only [List.mem_singleton] at hx
    subst hx
    exact h3

/-- No raw newline appears in an escaped string body. -/
theorem escape_no_newline (s : Chars) : ∀ c ∈ escape s, ¬ c = '\n' := by
  intro x hx
  unfold escape at hx
  rw [List.mem_flatMap] at hx
  obtain ⟨c, _, hc⟩ := hx
  exact escChar_no_newline c x hc


/-! ### Character-class facts -/

theorem isDigit_not_ws {c : Char} (h : c.isDigit = true) : c.isWhitespace = false := by
  simp only [Char.isDigit, Char.isWhitespace, Bool.and_eq_true, decide_eq_true_eq,
    Bool.or_eq_false_iff, decide_eq_false_iff_not] at *
  obtain ⟨h1, h2⟩ := h
  refine ⟨⟨⟨?_, ?_⟩, ?_⟩, ?_⟩ <;> intro hc <;> subst hc <;> revert h1 h2 <;> decide

theorem isDigit_ne {c x : Char} (h : c.isDigit = true) (hx : x.isDigit = false) : ¬ c = x := by
  intro hc
  subst hc
  rw [h] at hx
  cases hx

/-- Take-until splitter on a prefix free of the predicate, stopping exactly at
a satisfying head. -/
theorem takeUntilP_spec (p : Char → Bool) (pre rest : Chars)
    (hpre : ∀ c ∈ pre, p c = false)
    (hrest : ∀ c, rest.head? = some c → p c = true) :
    takeUntilP p (pre ++ rest) = (pre, rest) := by
  induction pre with
  | nil =>
      cases rest with
      | nil => rfl
      | cons c r =>
          have := hrest c rfl
          simp [takeUntilP, this]
  | cons c cs ih =>
      have hc := hpre c (List.mem_cons_self _ _)
      have := ih (fun x hx => hpre x (List.mem_cons_of_mem _ hx))
      simp [takeUntilP, hc, this]

theorem intChars_chars (i : Int) : ∀ c ∈ intChars i, c = '-' ∨ c.isDigit = true := by
  intro c hc
  unfold intChars at hc
  split at hc
  · rcases List.mem_cons.mp hc with h | h
    · exact Or.inl h
    · exact Or.inr (natChars_digits _ c h)
  · exact Or.inr (natChars_digits _ c hc)

theorem intChars_ne_nil (i : Int) : intChars i ≠ [] := by
  unfold intChars
  split
  · simp
  · exact natChars_ne_nil _

theorem intChars_head (i : Int) : ∀ c, (intChars i).head? = some c → c = '-' ∨ c.isDigit = true := by
  intro c hc
  have : c ∈ intChars i := by
    cases hl : intChars i with
    | nil => rw [hl] at hc; cases hc
    | cons a r =>
        rw [hl] at hc
        simp only [List.head?_cons, Option.some.injEq] at hc
        subst hc
        exact List.mem_cons_self _ _
  exact intChars_chars i c this

/-- Shape facts about `decChars` that hold for every `e` (also `e = 0`). -/
theorem decChars_parts (m : Int) (e : Nat) :
    ∃ ip fp, decChars m e = (if m < 0 then ['-'] else []) ++ ip ++ '.' :: fp ∧
      ip ≠ [] ∧ (∀ c ∈ ip, c.isDigit = true) ∧ (∀ c ∈ fp, c.isDigit = true) := by
  classical
  set ds := natChars m.natAbs with hds
  set pad := List.replicate (e + 1 - ds.length) '0' ++ ds with hpad
  have hdsne : ds ≠ [] := natChars_ne_nil _
  have hdslen : 1 ≤ ds.length := by
    cases hd : ds with
    | nil => exact absurd hd hdsne
    | cons a b => simp [hd]
  have hpadlen : 1 ≤ pad.length ∧ e + 1 ≤ pad.length := by
    constructor <;>
      · simp only [hpad, List.length_append, List.length_replicate]
        omega
  have hpaddig : ∀ c ∈ pad, c.isDigit = true := by
    intro c hc
    rcases List.mem_append.mp hc with hc | hc
    · have := List.eq_of_mem_replicate hc
      subst this; decide
    · exact natChars_digits _ c hc
  refine ⟨pad.take (pad.length - e), pad.drop (pad.length - e), rfl, ?_, ?_, ?_⟩
  · have hlen : (pad.take (pad.length - e)).length = pad.length - e := by
      rw [List.length_take]; omega
    intro h
    rw [h] at hlen
    simp at hlen
    omega
  · exact fun c hc => hpaddig c (List.mem_of_mem_take hc)
  · exact fun c hc => hpaddig c (List.mem_of_mem_drop hc)

theorem decChars_chars (m : Int) (e : Nat) (he : 1 ≤ e) :
    ∀ c ∈ decChars m e, c = '-' ∨ c = '.' ∨ c.isDigit = true := by
  obtain ⟨ip, fp, hshape, _, _, hipd, hfpd, _, _⟩ := decChars_shape m e he
  intro c hc
  rw [hshape] at hc
  rcases List.mem_append.mp hc with hc | hc
  · rcases List.mem_append.mp hc with hc | hc
    · split at hc
      · simp only [List.mem_singleton] at hc; exact Or.inl hc
      · cases hc
    · exact Or.inr (Or.inr (hipd c hc))
  · rcases List.mem_cons.mp hc with hc | hc
    · exact Or.inr (Or.inl hc)
    · exact Or.inr (Or.inr (hfpd c hc))

theorem decChars_ne_nil (m : Int) (e : Nat) (he : 1 ≤ e) : decChars m e ≠ [] := by
  obtain ⟨ip, fp, hshape, hip, _, _, _, _, _⟩ := decChars_shape m e he
  rw [hshape]
  rcases List.exists_cons_of_ne_nil hip with ⟨c, r, hipr⟩
  rw [hipr]
  split <;> simp

theorem decChars_head (m : Int) (e : Nat) (he : 1 ≤ e) :
    ∀ c, (decChars m e).head? = some c → c = '-' ∨ c.isDigit = true := by
  obtain ⟨ip, fp, hshape, hip, _, hipd, _, _, _⟩ := decChars_shape m e he
  intro c hc
  rw [hshape] at hc
  rcases List.exists_cons_of_ne_nil hip with ⟨a, r, hipr⟩
  rw [hipr] at hc
  split at hc
  · simp only [List.cons_append, List.singleton_append, List.head?_cons,
      Option.some.injEq] at hc
    subst hc
    exact Or.inl rfl
  · simp only [List.nil_append, List.cons_append, List.head?_cons, Option.some.injEq] at hc
    subst hc
    exact Or.inr (hipd a (by rw [hipr]; exact List.mem_cons_self _ _))

/-! ### Bare-string and literal facts -/

theorem notWS?_spec {o : Option Char} (h : notWS? o = true) :
    ∀ c, o = some c → c.isWhitespace = false := by
  intro c hc
  subst hc
  simpa [notWS?] using h

theorem isBareStr_props {d : Char} {s : Chars} (h : isBareStr d s = true) :
    s ≠ [] ∧ (∀ c ∈ s, badBareChar d c = false) ∧
    (∀ c, s.head? = some c → c.isWhitespace = false) ∧
    (∀ c, s.getLast? = some c → c.isWhitespace = false) ∧
    isReserved s = false ∧ matchNum s = none := by
  unfold isBareStr at h
  simp only [Bool.and_eq_true, Bool.not_eq_true', List.all_eq_true,
    Option.isNone_iff_eq_none] at h
  obtain ⟨⟨⟨⟨⟨hne, hall⟩, hhead⟩, hlast⟩, hres⟩, hmn⟩ := h
  refine ⟨?_, ?_, notWS?_spec hhead, notWS?_spec hlast, hres, hmn⟩
  · intro he
    subst he
    simp at hne
  · intro c hc
    simpa using hall c hc

theorem badBareChar_props {d c : Char} (h : badBareChar d c = false) :
    ¬ c = d ∧ ¬ c = ':' ∧ ¬ c = '\n' ∧ ¬ c = '"' := by
  unfold badBareChar at h
  simp only [Bool.or_eq_false_iff, decide_eq_false_iff_not] at h
  exact ⟨h.1.1.1, h.1.1.2, h.1.2, h.2⟩

/-- All facts about a successfully rendered scalar literal that line assembly
and root classification rely on. -/
theorem scalarLit_facts {d : Char} {v : Value} {t : Chars} (h : scalarLit d v = .ok t) :
    t ≠ [] ∧ (∀ c ∈ t, ¬ c = '\n') ∧
    (∀ c, t.head? = some c → c.isWhitespace = false) ∧
    (∀ c, t.getLast? = some c → c.isWhitespace = false) ∧
    (t.head? = some '"' ∨ ∀ c ∈ t, ¬ c = ':') := by
  cases v with
  | null =>
      simp only [scalarLit, Except.ok.injEq] at h
      subst h
      refine ⟨by decide, by decide, by decide, by decide, Or.inr (by decide)⟩
  | bool b =>
      cases b <;>
        · simp only [scalarLit, Except.ok.injEq] at h
          subst h
          refine ⟨by decide, by decide, by decide, by decide, Or.inr (by decide)⟩
  | num n =>
      cases n with
      | int i =>
          simp only [scalarLit, Except.ok.injEq] at h
          subst h
          have hch := intChars_chars i
          have hmem : ∀ x (c : Char), x.isDigit = false → x ≠ '-' → c ∈ intChars i → ¬ c = x := by
            intro x c hx hxm hc he
            subst he
            rcases hch c hc with h | h
            · exact hxm h
            · rw [h] at hx; cases hx
          refine ⟨intChars_ne_nil i, fun c hc => hmem '\n' c (by decide) (by decide) hc, ?_, ?_,
            Or.inr (fun c hc => hmem ':' c (by decide) (by decide) hc)⟩
          · intro c hc
            rcases intChars_head i c hc with h | h
            · subst h; decide
            · exact isDigit_not_ws h
          · intro c hc
            have hcm : c ∈ intChars i := List.mem_of_mem_getLast? (Option.mem_def.mpr hc)
            rcases hch c hcm with h | h
            · subst h; decide
            · exact isDigit_not_ws h
      | dec m e =>
          simp only [scalarLit, Except.ok.injEq] at h
          subst h
          obtain ⟨ip, fp, hshape, hip, hipd, hfpd⟩ := decChars_parts m e
          have hch : ∀ c ∈ decChars m e, c = '-' ∨ c = '.' ∨ c.isDigit = true := by
            intro c hc
            rw [hshape] at hc
            rcases List.mem_append.mp hc with hc | hc
            · rcases List.mem_append.mp hc with hc | hc
              · split at hc
                · simp only [List.mem_singleton] at hc; exact Or.inl hc
                · cases hc
              · exact Or.inr (Or.inr (hipd c hc))
            · rcases List.mem_cons.mp hc with hc | hc
              · exact Or.inr (Or.inl hc)
              · exact Or.inr (Or.inr (hfpd c hc))
          have hmem : ∀ x (c : Char), x.isDigit = false → x ≠ '-' → x ≠ '.' →
              c ∈ decChars m e → ¬ c = x := by
            intro x c hx hxm hxd hc he'
            subst he'
            rcases hch c hc with h | h | h
            · exact hxm h
            · exact hxd h
            · rw [h] at hx; cases hx
          have hne : decChars m e ≠ [] := by
            rw [hshape]
            rcases List.exists_cons_of_ne_nil hip with ⟨a, r, hipr⟩
            rw [hipr]
            split <;> simp
          refine ⟨hne, fun c hc => hmem '\n' c (by decide) (by decide) (by decide) hc, ?_, ?_,
            Or.inr (fun c hc => hmem ':' c (by decide) (by decide) (by decide) hc)⟩
          · intro c hc
            rcases List.exists_cons_of_ne_nil hip with ⟨a, r, hipr⟩
            rw [hshape, hipr] at hc
            split at hc
            · simp only [List.cons_append, List.singleton_append, List.head?_cons,
                Option.some.injEq] at hc
              subst hc; decide
            · simp only [List.nil_append, List.cons_append, List.head?_cons,
                Option.some.injEq] at hc
              subst hc
              exact isDigit_not_ws (hipd a (by rw [hipr]; exact List.mem_cons_self _ _))
          · intro c hc
            obtain ⟨pre, hpre⟩ : ∃ pre, decChars m e = pre ++ '.' :: fp :=
              ⟨(if m < 0 then ['-'] else []) ++ ip, by rw [hshape]⟩
            cases hfp : fp with
            | nil =>
                subst hfp
                rw [hpre, show pre ++ '.' :: ([] : Chars) = pre ++ ['.'] from rfl,
                  List.getLast?_concat] at hc
                simp only [Option.some.injEq] at hc
                subst hc; decide
            | cons a r =>
                subst hfp
                rw [hpre, show pre ++ '.' :: a :: r = (pre ++ ['.']) ++ (a :: r) by simp,
                  List.getLast?_append_of_ne_nil _ (by simp)] at hc
                have hcm : c ∈ a :: r :=
                  List.mem_of_mem_getLast? (Option.mem_def.mpr hc)
                exact isDigit_not_ws (hfpd c hcm)
      | inf => simp [scalarLit] at h
      | negInf => simp [scalarLit] at h
      | nan => simp [scalarLit] at h
  | str s =>
      simp only [scalarLit, Except.ok.injEq] at h
      subst h
      unfold renderStr
      split
      · rename_i hb
        obtain ⟨hne, hbad, hhead, hlast, _, _⟩ := isBareStr_props hb
        exact ⟨hne, fun c hc => (badBareChar_props (hbad c hc)).2.2.1, hhead, hlast,
          Or.inr (fun c hc => (badBareChar_props (hbad c hc)).2.1)⟩
      · refine ⟨by simp [quoteStr], ?_, ?_, ?_, Or.inl (by simp [quoteStr])⟩
        · intro c hc
          simp only [quoteStr, List.mem_cons, List.mem_append, List.mem_singleton,
            List.not_mem_nil, or_false] at hc
          rcases hc with h | h | h
          · subst h; decide
          · exact escape_no_newline s c h
          · subst h; decide
        · intro c hc
          simp only [quoteStr, List.head?_cons, Option.some.injEq] at hc
          subst hc
          decide
        · intro c hc
          rw [show quoteStr s = ('"' :: escape s) ++ ['"'] by simp [quoteStr],
            List.getLast?_concat] at hc
          simp only [Option.some.injEq] at hc
          subst hc
          decide
  | arr es => simp [scalarLit] at h
  | obj es => simp [scalarLit] at h

theorem classifyBare_num {s : Chars} {n : JNum} (hm : matchNum s = some n)
    (hh : ∀ c, s.head? = some c → c = '-' ∨ c.isDigit = true) :
    classifyBare s = .num n := by
  have h1 : ¬ s = "null".data := by
    intro h
    subst h
    rcases hh 'n' rfl with h | h
    · cases h
    · cases h
  have h2 : ¬ s = "true".data := by
    intro h
    subst h
    rcases hh 't' rfl with h | h
    · cases h
    · cases h
  have h3 : ¬ s = "false".data := by
    intro h
    subst h
    rcases hh 'f' rfl with h | h
    · cases h
    · cases h
  unfold classifyBare
  rw [if_neg h1, if_neg h2, if_neg h3, hm]

theorem classifyBare_str {s : Chars} (hr : isReserved s = false) (hm : matchNum s = none) :
    classifyBare s = .str s := by
  unfold isReserved at hr
  simp only [Bool.or_eq_false_iff, decide_eq_false_iff_not] at hr
  unfold classifyBare
  rw [if_neg hr.1.1, if_neg hr.1.2, if_neg hr.2, hm]

/-- The decoder's literal parser inverts the encoder's scalar rendering for
every well-formed scalar. -/
theorem scalarLit_parse {d : Char} {v : Value} {t : Chars}
    (hwf : wfV v = true) (h : scalarLit d v = .ok t) :
    parseScalarText t = .ok v := by
  cases v with
  | null =>
      simp only [scalarLit, Except.ok.injEq] at h
      subst h
      decide
  | bool b =>
      cases b <;>
        · simp only [scalarLit, Except.ok.injEq] at h
          subst h
          decide
  | num n =>
      cases n with
      | int i =>
          simp only [scalarLit, Except.ok.injEq] at h
          subst h
          cases hl : intChars i with
          | nil => exact absurd hl (intChars_ne_nil i)
          | cons c r =>
              have hc : c = '-' ∨ c.isDigit = true := intChars_head i c (by rw [hl]; rfl)
              have hcq : ¬ c = '"' := by
                rcases hc with h | h
                · subst h; decide
                · exact isDigit_ne h (by decide)
              have hcl : classifyBare (intChars i) = .num (.int i) :=
                classifyBare_num (matchNum_intChars i) (intChars_head i)
              rw [hl] at hcl
              simp [parseScalarText, hcq, hcl, pure, Except.pure]
      | dec m e =>
          simp only [scalarLit, Except.ok.injEq] at h
          subst h
          have he : 1 ≤ e := by
            simpa [wfV] using hwf
          cases hl : decChars m e with
          | nil => exact absurd hl (decChars_ne_nil m e he)
          | cons c r =>
              have hc : c = '-' ∨ c.isDigit = true := decChars_head m e he c (by rw [hl]; rfl)
              have hcq : ¬ c = '"' := by
                rcases hc with h | h
                · subst h; decide
                · exact isDigit_ne h (by decide)
              have hcl : classifyBare (decChars m e) = .num (.dec m e) :=
                classifyBare_num (matchNum_decChars m e he) (decChars_head m e he)
              rw [hl] at hcl
              simp [parseScalarText, hcq, hcl, pure, Except.pure]
      | inf => simp [scalarLit] at h
      | negInf => simp [scalarLit] at h
      | nan => simp [scalarLit] at h
  | str s =>
      simp only [scalarLit, Except.ok.injEq] at h
      subst h
      unfold renderStr
      split
      · rename_i hb
        obtain ⟨hne, hbad, _, _, hres, hmn⟩ := isBareStr_props hb
        have hcl : classifyBare s = .str s := classifyBare_str hres hmn
        cases hl : s with
        | nil => exact absurd hl hne
        | cons c r =>
            have hcq : ¬ c = '"' :=
              (badBareChar_props (hbad c (by rw [hl]; exact List.mem_cons_self _ _))).2.2.2
            rw [hl] at hcl
            simp [parseScalarText, hcq, hcl, pure, Except.pure]
      · have hq : parseQuotedAux (escape s ++ '"' :: []) false [] = .ok (s, []) :=
          parseQuotedAux_quoteStr s []
        simp only [quoteStr]
        rw [show '"' :: (escape s ++ ['"']) = '"' :: (escape s ++ '"' :: []) from rfl]
        simp only [parseScalarText, if_pos rfl, hq]
        rfl
  | arr es => simp [scalarLit] at h
  | obj es => simp [scalarLit] at h

/-! ### Key, tail and header line parsing -/

theorem isBareKey_props {d : Char} {s : Chars} (h : isBareKey d s = true) :
    isBareStr d s = true ∧ ∀ c ∈ s, ¬ c = '[' ∧ ¬ c = ']' ∧ ¬ c = '{' ∧ ¬ c = '}' := by
  unfold isBareKey at h
  simp only [Bool.and_eq_true, List.all_eq_true, Bool.not_eq_true',
    Bool.or_eq_false_iff, decide_eq_false_iff_not] at h
  exact ⟨h.1, fun c hc => ⟨(h.2 c hc).1.1.1, (h.2 c hc).1.1.2, (h.2 c hc).1.2, (h.2 c hc).2⟩⟩

theorem renderKey_facts (d : Char) (k : Chars) :
    renderKey d k ≠ [] ∧ (∀ c ∈ renderKey d k, ¬ c = '\n') ∧
    (∀ c, (renderKey d k).head? = some c → c.isWhitespace = false) := by
  unfold renderKey
  split
  · rename_i hb
    obtain ⟨hne, hbad, hhead, _, _, _⟩ := isBareStr_props (isBareKey_props hb).1
    exact ⟨hne, fun c hc => (badBareChar_props (hbad c hc)).2.2.1, hhead⟩
  · refine ⟨by simp [quoteStr], ?_, ?_⟩
    · intro c hc
      simp only [quoteStr, List.mem_cons, List.mem_append, List.mem_singleton,
        List.not_mem_nil, or_false] at hc
      rcases hc with h | h | h
      · subst h; decide
      · exact escape_no_newline k c h
      · subst h; decide
    · intro c hc
      simp only [quoteStr, List.head?_cons, Option.some.injEq] at hc
      subst hc
      decide

/-- Parsing the rendered key plus any tail starting with a colon or bracket
recovers the key and defers to the tail parser. -/
theorem parseEntryLine_render (k tail : Chars)
    (htail : tail.head? = some ':' ∨ tail.head? = some '[') :
    parseEntryLine (renderKey ',' k ++ tail) = (parseTail tail).map (fun sh => (k, sh)) := by
  unfold renderKey
  split
  · rename_i hb
    obtain ⟨hstr, hbr⟩ := isBareKey_props hb
    obtain ⟨hne, hbad, _, _, _, _⟩ := isBareStr_props hstr
    have htake : takeUntilP (fun x => decide (x = ':') || decide (x = '[')) (k ++ tail)
        = (k, tail) := by
      refine takeUntilP_spec _ k tail ?_ ?_
      · intro c hc
        have h1 := (badBareChar_props (hbad c hc)).2.1
        have h2 := (hbr c hc).1
        simp [h1, h2]
      · intro c hc
        rcases htail with h | h <;> rw [h] at hc <;>
          simp only [Option.some.injEq] at hc <;> subst hc <;> decide
    cases hl : k with
    | nil => exact absurd hl hne
    | cons c r =>
        have hcq : ¬ c = '"' :=
          (badBareChar_props (hbad c (by rw [hl]; exact List.mem_cons_self _ _))).2.2.2
        rw [hl] at htake
        have htake' : takeUntilP (fun x => decide (x = ':') || decide (x = '[')) (c :: (r ++ tail))
            = (c :: r, tail) := by
          simpa using htake
        simp [parseEntryLine, hcq, htake']
  · rw [show quoteStr k ++ tail = '"' :: (escape k ++ '"' :: tail) by simp [quoteStr]]
    simp [parseEntryLine, parseQuotedAux_quoteStr k tail]

theorem parseTail_scalar (lit : Chars) : parseTail (':' :: ' ' :: lit) = some (.scalarTail lit) := by
  simp [parseTail]

theorem parseTail_objIntro : parseTail [':'] = some .objIntro := by
  simp [parseTail]

theorem parseArrShape_render_list (n : Nat) :
    parseArrShape (natChars n ++ [']', ':']) = some (.listHeader n) := by
  have ht : takeDigits (natChars n ++ (']' :: [':'])) = (natChars n, ']' :: [':']) :=
    takeDigits_spec _ _ (natChars_digits n) (by trivial)
  unfold parseArrShape
  rw [show (natChars n ++ [']', ':']) = natChars n ++ (']' :: [':']) from rfl, ht]
  simp [natChars_ne_nil n, natFromDigits_natChars]

theorem parseTail_listHeader (n : Nat) :
    parseTail ('[' :: (natChars n ++ [']', ':'])) = some (.listHeader n) := by
  simp [parseTail, parseArrShape_render_list]

/-! ### Field lists -/

theorem parseFieldsAux_step_comma (k : Chars) (rest : Chars) (f : Nat) :
    parseFieldsAux (f + 1) (renderKey ',' k ++ ',' :: rest)
      = (parseFieldsAux f rest).map (fun fs => k :: fs) := by
  unfold renderKey
  split
  · rename_i hb
    obtain ⟨hstr, hbr⟩ := isBareKey_props hb
    obtain ⟨hne, hbad, _, _, _, _⟩ := isBareStr_props hstr
    have htake : takeUntilP (fun x => decide (x = ',') || decide (x = '}')) (k ++ ',' :: rest)
        = (k, ',' :: rest) := by
      refine takeUntilP_spec _ k (',' :: rest) ?_ ?_
      · intro c hc
        have h1 := (badBareChar_props (hbad c hc)).1
        have h2 := (hbr c hc).2.2.2
        simp [h1, h2]
      · intro c hc
        simp only [List.head?_cons, Option.some.injEq] at hc
        subst hc
        decide
    cases hl : k with
    | nil => exact absurd hl hne
    | cons c r =>
        have hcq : ¬ c = '"' :=
          (badBareChar_props (hbad c (by rw [hl]; exact List.mem_cons_self _ _))).2.2.2
        rw [hl] at htake
        have htake' : takeUntilP (fun x => decide (x = ',') || decide (x = '}'))
            (c :: (r ++ ',' :: rest)) = (c :: r, ',' :: rest) := by
          simpa using htake
        simp [parseFieldsAux, hcq, htake']
  · rw [show quoteStr k ++ ',' :: rest = '"' :: (escape k ++ '"' :: (',' :: rest)) by
      simp [quoteStr]]
    simp [parseFieldsAux, parseQuotedAux_quoteStr k (',' :: rest)]

theorem parseFieldsAux_step_close (k : Chars) (f : Nat) :
    parseFieldsAux (f + 1) (renderKey ',' k ++ '}' :: [':']) = some [k] := by
  unfold renderKey
  split
  · rename_i hb
    obtain ⟨hstr, hbr⟩ := isBareKey_props hb
    obtain ⟨hne, hbad, _, _, _, _⟩ := isBareStr_props hstr
    have htake : takeUntilP (fun x => decide (x = ',') || decide (x = '}')) (k ++ '}' :: [':'])
        = (k, '}' :: [':']) := by
      refine takeUntilP_spec _ k ('}' :: [':']) ?_ ?_
      · intro c hc
        have h1 := (badBareChar_props (hbad c hc)).1
        have h2 := (hbr c hc).2.2.2
        simp [h1, h2]
      · intro c hc
        simp only [List.head?_cons, Option.some.injEq] at hc
        subst hc
        decide
    cases hl : k with
    | nil => exact absurd hl hne
    | cons c r =>
        have hcq : ¬ c = '"' :=
          (badBareChar_props (hbad c (by rw [hl]; exact List.mem_cons_self _ _))).2.2.2
        rw [hl] at htake
        have htake' : takeUntilP (fun x => decide (x = ',') || decide (x = '}'))
            (c :: (r ++ '}' :: [':'])) = (c :: r, '}' :: [':']) := by
          simpa using htake
        simp [parseFieldsAux, hcq, htake']
  · rw [show quoteStr k ++ '}' :: [':'] = '"' :: (escape k ++ '"' :: ('}' :: [':'])) by
      simp [quoteStr]]
    simp [parseFieldsAux, parseQuotedAux_quoteStr k ('}' :: [':'])]

theorem parseFieldsAux_render :
    ∀ (fs : List Chars), fs ≠ [] → ∀ (f : Nat) (s : Chars),
      s = joinDelim ',' (fs.map (renderKey ',')) ++ '}' :: [':'] →
      s.length < f → parseFieldsAux f s = some fs := by
  intro fs
  induction fs with
  | nil => intro h; exact absurd rfl h
  | cons k ks ih =>
      intro _ f s hs hf
      cases ks with
      | nil =>
          subst hs
          simp only [List.map_cons, List.map_nil, joinDelim] at *
          cases f with
          | zero => omega
          | succ f' => exact parseFieldsAux_step_close k f'
      | cons k2 ks' =>
          subst hs
          cases f with
          | zero => simp at hf
          | succ f' =>
              have hdecomp : joinDelim ',' ((k :: k2 :: ks').map (renderKey ',')) ++ '}' :: [':']
                  = renderKey ',' k ++ ',' ::
                    (joinDelim ',' ((k2 :: ks').map (renderKey ',')) ++ '}' :: [':']) := by
                simp [joinDelim]
              rw [hdecomp] at hf ⊢
              rw [parseFieldsAux_step_comma]
              rw [ih (by simp) f' _ rfl (by
                simp only [List.length_append, List.length_cons] at hf ⊢
                omega)]
              rfl

theorem parseFieldsTxt_render (fs : List Chars) (hne : fs ≠ []) :
    parseFieldsTxt (joinDelim ',' (fs.map (renderKey ',')) ++ '}' :: [':']) = some fs :=
  parseFieldsAux_render fs hne _ _ rfl (Nat.lt_succ_self _)

theorem parseArrShape_render_tab (n : Nat) (fs : List Chars) (hne : fs ≠ []) :
    parseArrShape (natChars n ++ ']' :: '{' ::
      (joinDelim ',' (fs.map (renderKey ',')) ++ '}' :: [':'])) = some (.tabHeader n fs) := by
  have ht : takeDigits (natChars n ++ (']' :: '{' ::
      (joinDelim ',' (fs.map (renderKey ',')) ++ '}' :: [':'])))
      = (natChars n, ']' :: '{' :: (joinDelim ',' (fs.map (renderKey ',')) ++ '}' :: [':'])) :=
    takeDigits_spec _ _ (natChars_digits n) (by trivial)
  unfold parseArrShape
  rw [ht]
  simp [natChars_ne_nil n, natFromDigits_natChars, parseFieldsTxt_render fs hne]

theorem parseTail_tabHeader (n : Nat) (fs : List Chars) (hne : fs ≠ []) :
    parseTail ('[' :: (natChars n ++ ']' :: '{' ::
      (joinDelim ',' (fs.map (renderKey ',')) ++ '}' :: [':']))) = some (.tabHeader n fs) := by
  simp [parseTail, parseArrShape_render_tab n fs hne]

/-! ### Row cells -/

/-- A rendered cell is either a quoted string or a comma- and quote-free bare
token whose classification recovers the value. -/
theorem scalarLit_cell {v : Value} {t : Chars} (hwf : wfV v = true)
    (h : scalarLit ',' v = .ok t) :
    (∃ s, v = .str s ∧ t = quoteStr s) ∨
    ((∀ c ∈ t, ¬ c = ',' ∧ ¬ c = '"') ∧ classifyBare t = v ∧ t.head? ≠ some '"') := by
  cases v with
  | null =>
      simp only [scalarLit, Except.ok.injEq] at h
      subst h
      exact Or.inr ⟨by decide, by decide, by decide⟩
  | bool b =>
      cases b <;>
        · simp only [scalarLit, Except.ok.injEq] at h
          subst h
          exact Or.inr ⟨by decide, by decide, by decide⟩
  | num n =>
      cases n with
      | int i =>
          simp only [scalarLit, Except.ok.injEq] at h
          subst h
          refine Or.inr ⟨?_, classifyBare_num (matchNum_intChars i) (intChars_head i), ?_⟩
          · intro c hc
            rcases intChars_chars i c hc with h | h
            · subst h; exact ⟨by decide, by decide⟩
            · exact ⟨isDigit_ne h (by decide), isDigit_ne h (by decide)⟩
          · intro hh
            rcases intChars_head i '"' hh with h | h
            · cases h
            · cases h
      | dec m e =>
          simp only [scalarLit, Except.ok.injEq] at h
          subst h
          have he : 1 ≤ e := by simpa [wfV] using hwf
          refine Or.inr ⟨?_, classifyBare_num (matchNum_decChars m e he) (decChars_head m e he), ?_⟩
          · intro c hc
            rcases decChars_chars m e he c hc with h | h | h
            · subst h; exact ⟨by decide, by decide⟩
            · subst h; exact ⟨by decide, by decide⟩
            · exact ⟨isDigit_ne h (by decide), isDigit_ne h (by decide)⟩
          · intro hh
            rcases decChars_head m e he '"' hh with h | h
            · cases h
            · cases h
      | inf => simp [scalarLit] at h
      | negInf => simp [scalarLit] at h
      | nan => simp [scalarLit] at h
  | str s =>
      simp only [scalarLit, Except.ok.injEq] at h
      subst h
      unfold renderStr
      split
      · rename_i hb
        obtain ⟨hne, hbad, _, _, hres, hmn⟩ := isBareStr_props hb
        refine Or.inr ⟨?_, classifyBare_str hres hmn, ?_⟩
        · intro c hc
          exact ⟨(badBareChar_props (hbad c hc)).1, (badBareChar_props (hbad c hc)).2.2.2⟩
        · intro hh
          cases hl : s with
          | nil => exact hne hl
          | cons c r =>
              rw [hl] at hh
              simp only [List.head?_cons, Option.some.injEq] at hh
              subst hh
              exact (badBareChar_props (hbad '"'
                (by rw [hl]; exact List.mem_cons_self _ _))).2.2.2 rfl
      · exact Or.inl ⟨s, rfl, rfl⟩
  | arr es => simp [scalarLit] at h
  | obj es => simp [scalarLit] at h

theorem parseCellsAux_step_comma {v : Value} {t : Chars} (hwf : wfV v = true)
    (h : scalarLit ',' v = .ok t) (f : Nat) (rest : Chars) :
    parseCellsAux (f + 1) (t ++ ',' :: rest) = (parseCellsAux f rest).map (fun vs => v :: vs) := by
  rcases scalarLit_cell hwf h with ⟨s, hv, ht⟩ | ⟨hfree, hcl, hq⟩
  · subst hv
    subst ht
    rw [show quoteStr s ++ ',' :: rest = '"' :: (escape s ++ '"' :: (',' :: rest)) by
      simp [quoteStr]]
    cases hr : parseCellsAux f rest <;>
      simp [parseCellsAux, parseQuotedAux_quoteStr s (',' :: rest), hr,
        Except.map, Except.bind, pure, Except.pure]
  · have hq' : (t ++ ',' :: rest).head? ≠ some '"' := by
      cases ht : t with
      | nil =>
          simp only [ht, List.nil_append, List.head?_cons]
          intro hh
          simp only [Option.some.injEq] at hh
          cases hh
      | cons c r =>
          rw [ht] at hq
          simp only [List.cons_append, List.head?_cons] at hq ⊢
          exact hq
    have htake : takeUntilP (fun c => decide (c = ',')) (t ++ ',' :: rest) = (t, ',' :: rest) := by
      refine takeUntilP_spec _ t (',' :: rest) ?_ ?_
      · intro c hc
        simp [(hfree c hc).1]
      · intro c hc
        simp only [List.head?_cons, Option.some.injEq] at hc
        subst hc
        decide
    simp only [parseCellsAux]
    rw [if_neg hq']
    simp only [htake, hcl]

theorem parseCellsAux_last {v : Value} {t : Chars} (hwf : wfV v = true)
    (h : scalarLit ',' v = .ok t) (f : Nat) :
    parseCellsAux (f + 1) t = .ok [v] := by
  rcases scalarLit_cell hwf h with ⟨s, hv, ht⟩ | ⟨hfree, hcl, hq⟩
  · subst hv
    subst ht
    rw [show quoteStr s = '"' :: (escape s ++ '"' :: []) by simp [quoteStr]]
    simp [parseCellsAux, parseQuotedAux_quoteStr s []]
  · have htake : takeUntilP (fun c => decide (c = ',')) (t ++ []) = (t, []) := by
      refine takeUntilP_spec _ t [] ?_ ?_
      · intro c hc
        simp [(hfree c hc).1]
      · intro c hc
        cases hc
    rw [List.append_nil] at htake
    simp [parseCellsAux, hq, htake, hcl]

/-! ### Encoder line decomposition -/

theorem encEntry_vShape (dep : Nat) (k : Chars) (v : Value) :
    encEntry ',' dep k v =
      match vShape ',' dep v with
      | .error e => .error e
      | .ok (sh, cls) => .ok ((dep, renderKey ',' k ++ tailTextEntry sh) :: cls) := by
  cases v with
  | obj es =>
      simp only [encEntry, vShape]
      cases encEntries ',' (dep + 1) es <;> simp [tailTextEntry]
  | arr es =>
      simp only [encEntry, vShape, arrHeaderTail]
      by_cases ht : tabularEligible es = true
      · rw [if_pos ht, if_pos ht, if_pos ht]
        cases encRows ',' (dep + 1) es <;> simp [tailTextEntry]
      · rw [if_neg ht, if_neg ht, if_neg ht]
        cases encElems ',' (dep + 1) es <;> simp [tailTextEntry]
  | null =>
      simp only [encEntry, vShape, scalarLit]
      simp [tailTextEntry]
  | bool b =>
      cases b <;>
        · simp only [encEntry, vShape, scalarLit]
          simp [tailTextEntry]
  | num n =>
      simp only [encEntry, vShape]
      cases scalarLit ',' (.num n) <;> simp [tailTextEntry]
  | str s =>
      simp only [encEntry, vShape]
      cases scalarLit ',' (.str s) <;> simp [tailTextEntry]

theorem encElem_vShape (dep : Nat) (v : Value) :
    encElem ',' dep v =
      match vShape ',' dep v with
      | .error e => .error e
      | .ok (sh, cls) => .ok ((dep, '-' :: tailTextElem sh) :: cls) := by
  cases v with
  | obj es =>
      simp only [encElem, vShape]
      cases encEntries ',' (dep + 1) es <;> simp [tailTextElem, tailTextEntry]
  | arr es =>
      simp only [encElem, vShape, arrHeaderTail]
      by_cases ht : tabularEligible es = true
      · rw [if_pos ht, if_pos ht, if_pos ht]
        cases encRows ',' (dep + 1) es <;> simp [tailTextElem, tailTextEntry]
      · rw [if_neg ht, if_neg ht, if_neg ht]
        cases encElems ',' (dep + 1) es <;> simp [tailTextElem, tailTextEntry]
  | null =>
      simp only [encElem, vShape, scalarLit]
      simp [tailTextElem]
  | bool b =>
      cases b <;>
        · simp only [encElem, vShape, scalarLit]
          simp [tailTextElem]
  | num n =>
      simp only [encElem, vShape]
      cases scalarLit ',' (.num n) <;> simp [tailTextElem]
  | str s =>
      simp only [encElem, vShape]
      cases scalarLit ',' (.str s) <;> simp [tailTextElem]

theorem tabularEligible_shape {es : List Value} (h : tabularEligible es = true) :
    ∃ entries es', es = .obj entries :: es' ∧ entries ≠ [] ∧
      scalarEntries entries = true ∧
      es'.all (rowMatches (entries.map Prod.fst)) = true ∧
      tabFields es = entries.map Prod.fst := by
  cases es with
  | nil => simp [tabularEligible] at h
  | cons e es' =>
      cases e with
      | obj entries =>
          simp only [tabularEligible, Bool.and_eq_true, Bool.not_eq_true'] at h
          refine ⟨entries, es', rfl, ?_, h.1.2, h.2, rfl⟩
          intro hemp
          subst hemp
          simp at h
      | null => simp [tabularEligible] at h
      | bool b => simp [tabularEligible] at h
      | num n => simp [tabularEligible] at h
      | str s => simp [tabularEligible] at h
      | arr a => simp [tabularEligible] at h

theorem tabularEligible_fields {es : List Value} (h : tabularEligible es = true) :
    tabFields es ≠ [] := by
  obtain ⟨entries, es', hes, hne, _, _, hf⟩ := tabularEligible_shape h
  rw [hf]
  simp [hne]

/-- Inversion: a tabular shape only arises from a tabular-eligible array. -/
theorem vShape_tab {d : Char} {dep : Nat} {v : Value} {n : Nat} {fs : List Chars}
    {cls : List Line} (h : vShape d dep v = .ok (.tabHeader n fs, cls)) :
    ∃ es, v = .arr es ∧ tabularEligible es = true ∧ n = es.length ∧ fs = tabFields es ∧
      encRows d (dep + 1) es = .ok cls := by
  cases v with
  | arr es =>
      simp only [vShape] at h
      split at h
      · rename_i ht
        cases hr : encRows d (dep + 1) es with
        | error e => rw [hr] at h; cases h
        | ok rows =>
            rw [hr] at h
            simp only [Except.ok.injEq, Prod.mk.injEq, LineShape.tabHeader.injEq] at h
            exact ⟨es, rfl, ht, h.1.1.symm, h.1.2.symm, by rw [hr, h.2]⟩
      · cases hr : encElems d (dep + 1) es with
        | error e => rw [hr] at h; cases h
        | ok cls' => rw [hr] at h; simp at h
  | obj es =>
      simp only [vShape] at h
      cases hr : encEntries d (dep + 1) es with
      | error e => rw [hr] at h; cases h
      | ok cls' => rw [hr] at h; simp at h
  | null => simp [vShape, scalarLit] at h
  | bool b => cases b <;> simp [vShape, scalarLit] at h
  | num m =>
      simp only [vShape] at h
      cases hr : scalarLit d (.num m) with
      | error e => rw [hr] at h; cases h
      | ok lit => rw [hr] at h; simp at h
  | str s =>
      simp only [vShape] at h
      cases hr : scalarLit d (.str s) with
      | error e => rw [hr] at h; cases h
      | ok lit => rw [hr] at h; simp at h

theorem vShape_goodShape {d : Char} {dep : Nat} {v : Value} {sh : LineShape} {cls : List Line}
    (h : vShape d dep v = .ok (sh, cls)) :
    ∀ n fs, sh = .tabHeader n fs → fs ≠ [] := by
  intro n fs hsh
  subst hsh
  obtain ⟨es, _, ht, _, hfs, _⟩ := vShape_tab h
  rw [hfs]
  exact tabularEligible_fields ht

theorem tailTextEntry_head (sh : LineShape) :
    (tailTextEntry sh).head? = some ':' ∨ (tailTextEntry sh).head? = some '[' := by
  cases sh <;> simp [tailTextEntry]

theorem parseTail_tailTextEntry (sh : LineShape)
    (hfs : ∀ n fs, sh = .tabHeader n fs → fs ≠ []) :
    parseTail (tailTextEntry sh) = some sh := by
  cases sh with
  | scalarTail lit => exact parseTail_scalar lit
  | objIntro => exact parseTail_objIntro
  | listHeader n => exact parseTail_listHeader n
  | tabHeader n fs => exact parseTail_tabHeader n fs (hfs n fs rfl)

theorem parseElemLine_render (sh : LineShape)
    (hfs : ∀ n fs, sh = .tabHeader n fs → fs ≠ []) :
    parseElemLine ('-' :: tailTextElem sh) = some sh := by
  cases sh with
  | scalarTail lit => simp [parseElemLine, tailTextElem]
  | objIntro =>
      simp [parseElemLine, tailTextElem, tailTextEntry, parseTail]
  | listHeader n =>
      have := parseTail_listHeader n
      simp only [tailTextElem, tailTextEntry, parseElemLine]
      simp [this]
  | tabHeader n fs =>
      have := parseTail_tabHeader n fs (hfs n fs rfl)
      simp only [tailTextElem, tailTextEntry, parseElemLine]
      simp [this]

/-! ### Well-formedness and depth decomposition -/

theorem wfL_mem {es : List Value} (h : wfL es = true) : ∀ v ∈ es, wfV v = true := by
  induction es with
  | nil => intro v hv; cases hv
  | cons e es ih =>
      simp only [wfL, Bool.and_eq_true] at h
      intro v hv
      rcases List.mem_cons.mp hv with hv | hv
      · subst hv; exact h.1
      · exact ih h.2 v hv

theorem wfE_mem {es : List (Chars × Value)} (h : wfE es = true) :
    ∀ kv ∈ es, wfV kv.2 = true := by
  induction es with
  | nil => intro kv hkv; cases hkv
  | cons e es ih =>
      obtain ⟨k, v⟩ := e
      simp only [wfE, Bool.and_eq_true] at h
      intro kv hkv
      rcases List.mem_cons.mp hkv with hkv | hkv
      · subst hkv; exact h.1
      · exact ih h.2 kv hkv

theorem vdepth_le_depthL {v : Value} {es : List Value} (h : v ∈ es) :
    vdepth v ≤ depthL es := by
  induction es with
  | nil => cases h
  | cons e es ih =>
      rcases List.mem_cons.mp h with h | h
      · subst h; simp [depthL]
      · have := ih h
        simp only [depthL]
        omega

theorem vdepth_le_depthE {kv : Chars × Value} {es : List (Chars × Value)} (h : kv ∈ es) :
    vdepth kv.2 ≤ depthE es := by
  induction es with
  | nil => cases h
  | cons e es ih =>
      obtain ⟨k, v⟩ := e
      rcases List.mem_cons.mp h with h | h
      · subst h; simp [depthE]
      · have := ih h
        simp only [depthE]
        omega

theorem scalarEntries_wf {es : List (Chars × Value)} (hwf : wfE es = true)
    (hs : scalarEntries es = true) : ∀ v ∈ es.map Prod.snd, wfV v = true := by
  intro v hv
  rw [List.mem_map] at hv
  obtain ⟨kv, hkv, hv⟩ := hv
  subst hv
  exact wfE_mem hwf kv hkv

/-! ### First-line position of encoded blocks -/

theorem encEntry_head {dep : Nat} {k : Chars} {v : Value} {ls : List Line}
    (h : encEntry ',' dep k v = .ok ls) : ∃ c cls, ls = (dep, c) :: cls := by
  rw [encEntry_vShape] at h
  cases hv : vShape ',' dep v with
  | error e => rw [hv] at h; cases h
  | ok p =>
      obtain ⟨sh, cls⟩ := p
      rw [hv] at h
      simp only [Except.ok.injEq] at h
      exact ⟨_, _, h.symm⟩

theorem encEntries_head {dep : Nat} {es : List (Chars × Value)} {ls : List Line}
    (h : encEntries ',' dep es = .ok ls) : ∀ l : Line, ls.head? = some l → l.1 = dep := by
  cases es with
  | nil =>
      simp only [encEntries, Except.ok.injEq] at h
      subst h
      intro l hl
      cases hl
  | cons kv es =>
      obtain ⟨k, v⟩ := kv
      simp only [encEntries] at h
      cases h1 : encEntry ',' dep k v with
      | error e => rw [h1] at h; cases h
      | ok l1 =>
          rw [h1] at h
          cases h2 : encEntries ',' dep es with
          | error e => rw [h2] at h; cases h
          | ok l2 =>
              rw [h2] at h
              simp only [Except.ok.injEq] at h
              subst h
              obtain ⟨c, cls, hl1⟩ := encEntry_head h1
              subst hl1
              intro l hl
              simp only [List.cons_append, List.head?_cons, Option.some.injEq] at hl
              subst hl
              rfl

theorem encElem_head {dep : Nat} {v : Value} {ls : List Line}
    (h : encElem ',' dep v = .ok ls) : ∃ c cls, ls = (dep, c) :: cls := by
  rw [encElem_vShape] at h
  cases hv : vShape ',' dep v with
  | error e => rw [hv] at h; cases h
  | ok p =>
      obtain ⟨sh, cls⟩ := p
      rw [hv] at h
      simp only [Except.ok.injEq] at h
      exact ⟨_, _, h.symm⟩

theorem encElems_head {dep : Nat} {es : List Value} {ls : List Line}
    (h : encElems ',' dep es = .ok ls) : ∀ l : Line, ls.head? = some l → l.1 = dep := by
  cases es with
  | nil =>
      simp only [encElems, Except.ok.injEq] at h
      subst h
      intro l hl
      cases hl
  | cons v es =>
      simp only [encElems] at h
      cases h1 : encElem ',' dep v with
      | error e => rw [h1] at h; cases h
      | ok l1 =>
          rw [h1] at h
          cases h2 : encElems ',' dep es with
          | error e => rw [h2] at h; cases h
          | ok l2 =>
              rw [h2] at h
              simp only [Except.ok.injEq] at h
              subst h
              obtain ⟨c, cls, hl1⟩ := encElem_head h1
              subst hl1
              intro l hl
              simp only [List.cons_append, List.head?_cons, Option.some.injEq] at hl
              subst hl
              rfl

theorem encRows_head {d : Char} {dep : Nat} {es : List Value} {ls : List Line}
    (h : encRows d dep es = .ok ls) : ∀ l : Line, ls.head? = some l → l.1 = dep := by
  cases es with
  | nil =>
      simp only [encRows, Except.ok.injEq] at h
      subst h
      intro l hl
      cases hl
  | cons v es =>
      cases v with
      | obj e =>
          simp only [encRows] at h
          cases h1 : encCells d (e.map Prod.snd) with
          | error er => rw [h1] at h; cases h
          | ok cells =>
              rw [h1] at h
              cases h2 : encRows d dep es with
              | error er => rw [h2] at h; cases h
              | ok rest =>
                  rw [h2] at h
                  simp only [Except.ok.injEq] at h
                  subst h
                  intro l hl
                  simp only [List.head?_cons, Option.some.injEq] at hl
                  subst hl
                  rfl
      | null => simp [encRows] at h
      | bool b => simp [encRows] at h
      | num n => simp [encRows] at h
      | str s => simp [encRows] at h
      | arr a => simp [encRows] at h

/-! ### Line assembly round-trip -/

theorem splitRawAux_no_nl (x : Chars) (hx : ∀ c ∈ x, ¬ c = '\n') :
    ∀ acc, splitRawAux x acc = [acc.reverse ++ x] := by
  induction x with
  | nil => intro acc; simp [splitRawAux]
  | cons c cs ih =>
      intro acc
      have hc := hx c (List.mem_cons_self _ _)
      rw [show splitRawAux (c :: cs) acc = splitRawAux cs (c :: acc) by
        simp [splitRawAux, hc]]
      rw [ih (fun x hx' => hx x (List.mem_cons_of_mem _ hx')) (c :: acc)]
      simp

theorem splitRawAux_break (x y : Chars) (hx : ∀ c ∈ x, ¬ c = '\n') :
    ∀ acc, splitRawAux (x ++ '\n' :: y) acc = (acc.reverse ++ x) :: splitRawAux y [] := by
  induction x with
  | nil =>
      intro acc
      simp [splitRawAux]
  | cons c cs ih =>
      intro acc
      have hc := hx c (List.mem_cons_self _ _)
      rw [show splitRawAux ((c :: cs) ++ '\n' :: y) acc
          = splitRawAux (cs ++ '\n' :: y) (c :: acc) by simp [splitRawAux, hc]]
      rw [ih (fun x hx' => hx x (List.mem_cons_of_mem _ hx')) (c :: acc)]
      simp

theorem countIndent_replicate (n : Nat) (s : Chars) :
    countIndent (List.replicate n ' ' ++ s) = n + countIndent s := by
  induction n with
  | zero => simp
  | succ n ih => simp [List.replicate_succ, countIndent, ih]; omega

theorem countIndent_head {s : Chars}
    (h : ∀ c, s.head? = some c → c.isWhitespace = false) : countIndent s = 0 := by
  cases s with
  | nil => rfl
  | cons c r =>
      have hc := h c rfl
      have : ¬ c = ' ' := by
        intro hc'
        subst hc'
        cases hc
      simp [countIndent, this]

theorem stripCR_good {l : Line} (hg : goodLine l) :
    stripCR (indentChars l.1 ++ l.2) = indentChars l.1 ++ l.2 := by
  obtain ⟨hne, _, _, hlast⟩ := hg
  unfold stripCR
  rw [if_neg]
  intro hcr
  rw [List.getLast?_append_of_ne_nil _ hne] at hcr
  have := hlast '\r' hcr
  cases this

theorem toLines_good_cons (dep : Nat) (content : Chars) (rawrest : List Chars)
    (hg : goodLine (dep, content)) :
    toLines ((indentChars dep ++ content) :: rawrest)
      = match toLines rawrest with
        | .error e => .error e
        | .ok rest => .ok ((dep, content) :: rest) := by
  obtain ⟨hne, hnl, hhead, hlast⟩ := hg
  have hstrip := stripCR_good (l := (dep, content)) ⟨hne, hnl, hhead, hlast⟩
  have hnotblank : (indentChars dep ++ content).all Char.isWhitespace = false := by
    cases hc : content with
    | nil => exact absurd hc hne
    | cons c r =>
        have hcw := hhead c (by rw [hc]; rfl)
        rw [List.all_eq_false]
        exact ⟨c, by simp [hc], by simp [hcw]⟩
  have hcount : countIndent (indentChars dep ++ content) = 2 * dep := by
    rw [show indentChars dep = List.replicate (2 * dep) ' ' from rfl,
      countIndent_replicate, countIndent_head hhead]
    omega
  have hdrop : (indentChars dep ++ content).drop (2 * dep) = content := by
    have h := List.drop_left (List.replicate (2 * dep) ' ') content
    rw [List.length_replicate] at h
    exact h
  simp only [toLines, hstrip, hnotblank, hcount, hdrop]
  rw [if_neg (by simp), if_pos (by omega), show 2 * dep / 2 = dep by omega]

/-- Assembled good lines split and normalize back to themselves. -/
theorem toLines_joinLines (ls : List Line) (hg : ∀ l ∈ ls, goodLine l) :
    toLines (splitRaw (joinLines ls)) = .ok ls := by
  induction ls with
  | nil =>
      show toLines (splitRawAux [] []) = .ok []
      simp [splitRawAux, toLines, stripCR]
  | cons l ls' ih =>
      obtain ⟨dep, content⟩ := l
      have hgl := hg (dep, content) (List.mem_cons_self _ _)
      have hnl : ∀ c ∈ indentChars dep ++ content, ¬ c = '\n' := by
        intro c hc
        rcases List.mem_append.mp hc with hc | hc
        · have := List.eq_of_mem_replicate hc
          subst this
          decide
        · exact hgl.2.1 c hc
      cases ls' with
      | nil =>
          rw [show joinLines [(dep, content)] = indentChars dep ++ content from rfl]
          unfold splitRaw
          rw [splitRawAux_no_nl _ hnl []]
          simp only [List.reverse_nil, List.nil_append]
          rw [toLines_good_cons dep content [] hgl]
          simp [toLines]
      | cons l2 ls'' =>
          rw [show joinLines ((dep, content) :: l2 :: ls'')
              = indentChars dep ++ content ++ '\n' :: joinLines (l2 :: ls'') from rfl]
          unfold splitRaw
          rw [show indentChars dep ++ content ++ '\n' :: joinLines (l2 :: ls'')
              = (indentChars dep ++ content) ++ '\n' :: joinLines (l2 :: ls'') by simp]
          rw [splitRawAux_break _ _ hnl []]
          simp only [List.reverse_nil, List.nil_append]
          rw [toLines_good_cons dep content _ hgl]
          rw [show splitRawAux (joinLines (l2 :: ls'')) [] = splitRaw (joinLines (l2 :: ls''))
              from rfl]
          rw [ih (fun x hx => hg x (List.mem_cons_of_mem _ hx))]

/-- Cells of an encoded row parse back to the row's scalar values. -/
theorem parseCells_render {vs : List Value} {lits : List Chars}
    (hwf : ∀ v ∈ vs, wfV v = true) (henc : encCells ',' vs = .ok lits) (hne : vs ≠ []) :
    parseCells (joinDelim ',' lits) = .ok vs := by
  suffices h : ∀ f, (joinDelim ',' lits).length < f →
      parseCellsAux f (joinDelim ',' lits) = .ok vs from
    h _ (Nat.lt_succ_self _)
  induction vs generalizing lits with
  | nil => exact absurd rfl hne
  | cons v vs' ih =>
      intro f hf
      simp only [encCells] at henc
      cases hv : scalarLit ',' v with
      | error e => rw [hv] at henc; simp [Except.bind] at henc
      | ok lit =>
          rw [hv] at henc
          cases hrest : encCells ',' vs' with
          | error e => rw [hrest] at henc; simp [Except.bind] at henc
          | ok lits' =>
              rw [hrest] at henc
              simp only [Except.bind, Except.ok.injEq] at henc
              subst henc
              have hwfv := hwf v (List.mem_cons_self _ _)
              cases vs' with
              | nil =>
                  cases hl' : lits' with
                  | cons a b => rw [hl'] at hrest; simp [encCells] at hrest
                  | nil =>
                      subst hl'
                      simp only [joinDelim] at hf ⊢
                      cases f with
                      | zero => omega
                      | succ f' => exact parseCellsAux_last hwfv hv f'
              | cons v2 vs'' =>
                  have hlits' : lits' ≠ [] := by
                    intro hl'
                    rw [hl'] at hrest
                    simp only [encCells] at hrest
                    cases h2 : scalarLit ',' v2 with
                    | error e => rw [h2] at hrest; simp [Except.bind] at hrest
                    | ok l2 =>
                        rw [h2] at hrest
                        cases h3 : encCells ',' vs'' with
                        | error e => rw [h3] at hrest; simp [Except.bind] at hrest
                        | ok l3 => rw [h3] at hrest; simp [Except.bind] at hrest
                  rcases List.exists_cons_of_ne_nil hlits' with ⟨l2, ls2, hl2⟩
                  subst hl2
                  have hjoin : joinDelim ',' (lit :: l2 :: ls2)
                      = lit ++ ',' :: joinDelim ',' (l2 :: ls2) := rfl
                  rw [hjoin] at hf ⊢
                  cases f with
                  | zero => omega
                  | succ f' =>
                      rw [parseCellsAux_step_comma hwfv hv f' _]
                      rw [ih (fun x hx => hwf x (List.mem_cons_of_mem _ hx)) hrest
                        (by simp) f' (by
                          simp only [List.length_append, List.length_cons] at hf
                          omega)]
                      rfl

/-! ### Main parse correctness of encoded blocks -/

/-- Tabular rows of an encoded eligible array parse back to its elements. -/
theorem parseRows_encRows (fields : List Chars) (hfne : fields ≠ []) :
    ∀ (es : List Value), (∀ v ∈ es, rowMatches fields v = true) → wfL es = true →
    ∀ (dep db : Nat) (ls rest : List Line),
      1 ≤ db →
      encRows ',' dep es = .ok ls →
      stopsBelow dep rest →
      parseRows dep db fields es.length (ls ++ rest) = .ok (es, rest) := by
  intro es
  induction es with
  | nil =>
      intro _ _ dep db ls rest hdb henc hrest
      simp only [encRows, Except.ok.injEq] at henc
      subst henc
      simp only [List.length_nil, List.nil_append]
      cases rest with
      | nil => rfl
      | cons l rs =>
          obtain ⟨l1, l2⟩ := l
          have := hrest (l1, l2) rfl
          simp only [parseRows]
          rw [if_pos this]
  | cons v es' ih =>
      intro hall hwf dep db ls rest hdb henc hrest
      have hrm := hall v (List.mem_cons_self _ _)
      cases v with
      | obj e =>
          simp only [rowMatches, Bool.and_eq_true, decide_eq_true_eq] at hrm
          obtain ⟨hkeys, hscal⟩ := hrm
          simp only [encRows] at henc
          cases h1 : encCells ',' (e.map Prod.snd) with
          | error er => rw [h1] at henc; cases henc
          | ok cells =>
              rw [h1] at henc
              cases h2 : encRows ',' dep es' with
              | error er => rw [h2] at henc; cases henc
              | ok ls' =>
                  rw [h2] at henc
                  simp only [Except.ok.injEq] at henc
                  subst henc
                  simp only [wfL, Bool.and_eq_true] at hwf
                  have hene : e ≠ [] := by
                    intro hemp
                    subst hemp
                    simp at hkeys
                    exact hfne hkeys
                  have hvne : e.map Prod.snd ≠ [] := by
                    simpa using hene
                  have hwfvals : ∀ x ∈ e.map Prod.snd, wfV x = true :=
                    scalarEntries_wf (by
                      have hov : wfV (.obj e) = true := hwf.1
                      simp only [wfV, Bool.and_eq_true] at hov
                      exact hov.2) hscal
                  have hcells : parseCells (joinDelim ',' cells) = .ok (e.map Prod.snd) :=
                    parseCells_render hwfvals h1 hvne
                  have hcellslen : (e.map Prod.snd).length = fields.length := by
                    rw [← hkeys]
                    simp
                  have hzip : fields.zip (e.map Prod.snd) = e := by
                    rw [← hkeys]
                    exact Eq.symm (List.zip_of_prod rfl rfl)
                  simp only [List.length_cons, List.cons_append, parseRows]
                  rw [if_neg (by omega), if_neg (by omega), if_neg (by omega)]
                  simp only [hcells]
                  rw [if_pos hcellslen]
                  simp only [ih (fun x hx => hall x (List.mem_cons_of_mem _ hx)) hwf.2
                    dep db ls' rest hdb h2 hrest]
                  rw [hzip]
      | null => simp [rowMatches] at hrm
      | bool b => simp [rowMatches] at hrm
      | num n => simp [rowMatches] at hrm
      | str s => simp [rowMatches] at hrm
      | arr a => simp [rowMatches] at hrm

/-- Entry lines of an encoded object body parse back to its entries. -/
theorem parseBody_encEntries :
    ∀ (es : List (Chars × Value)), (∀ kv ∈ es, ShapeStmt kv.2) →
    ∀ (dep db f : Nat) (ls rest : List Line),
      wfE es = true → depthE es ≤ db →
      encEntries ',' dep es = .ok ls →
      stopsBelow dep rest →
      2 * ls.length + 2 ≤ f →
      parseBody f dep db (ls ++ rest) = .ok (es, rest) := by
  intro es
  induction es with
  | nil =>
      intro _ dep db f ls rest _ _ henc hrest hf
      simp only [encEntries, Except.ok.injEq] at henc
      subst henc
      simp only [List.nil_append]
      cases f with
      | zero => simp at hf
      | succ f' =>
          cases rest with
          | nil => rfl
          | cons l rs =>
              obtain ⟨l1, l2⟩ := l
              have := hrest (l1, l2) rfl
              simp only [parseBody]
              rw [if_pos this]
  | cons kv es' ih =>
      obtain ⟨k, v⟩ := kv
      intro hP dep db f ls rest hwf hdep henc hrest hf
      simp only [encEntries] at henc
      cases h1 : encEntry ',' dep k v with
      | error e => rw [h1] at henc; cases henc
      | ok l1 =>
          rw [h1] at henc
          cases h2 : encEntries ',' dep es' with
          | error e => rw [h2] at henc; cases henc
          | ok l2 =>
              rw [h2] at henc
              simp only [Except.ok.injEq] at henc
              subst henc
              rw [encEntry_vShape] at h1
              cases hv : vShape ',' dep v with
              | error e => rw [hv] at h1; cases h1
              | ok p =>
                  obtain ⟨sh, cls⟩ := p
                  rw [hv] at h1
                  simp only [Except.ok.injEq] at h1
                  subst h1
                  simp only [wfE, Bool.and_eq_true] at hwf
                  simp only [depthE, Nat.max_le] at hdep
                  simp only [List.length_append, List.length_cons] at hf
                  cases f with
                  | zero => omega
                  | succ f' =>
                      simp only [List.cons_append, List.append_assoc, parseBody]
                      rw [if_neg (by omega), if_neg (by omega)]
                      rw [parseEntryLine_render k (tailTextEntry sh) (tailTextEntry_head sh)]
                      rw [parseTail_tailTextEntry sh (vShape_goodShape hv)]
                      have hsb : stopsBelow (dep + 1) (l2 ++ rest) := by
                        intro l hl
                        cases l2 with
                        | nil =>
                            simp only [List.nil_append] at hl
                            have := hrest l hl
                            omega
                        | cons a l2' =>
                            simp only [List.cons_append, List.head?_cons,
                              Option.some.injEq] at hl
                            subst hl
                            have := encEntries_head h2 a rfl
                            omega
                      have hshape := hP (k, v) (List.mem_cons_self _ _) dep db f' sh cls
                        (l2 ++ rest) hwf.1 hdep.1 hv hsb (by omega)
                      simp only [Option.map_some', hshape]
                      rw [ih (fun x hx => hP x (List.mem_cons_of_mem _ hx)) dep db f' l2 rest
                        hwf.2 hdep.2 h2 hrest (by omega)]

/-- Element lines of an encoded list-fallback array parse back to its
elements. -/
theorem parseElems_encElems :
    ∀ (es : List Value), (∀ v ∈ es, ShapeStmt v) →
    ∀ (dep db f : Nat) (ls rest : List Line),
      wfL es = true → depthL es ≤ db →
      encElems ',' dep es = .ok ls →
      stopsBelow dep rest →
      2 * ls.length + 2 ≤ f →
      parseElems f dep db es.length (ls ++ rest) = .ok (es, rest) := by
  intro es
  induction es with
  | nil =>
      intro _ dep db f ls rest _ _ henc hrest hf
      simp only [encElems, Except.ok.injEq] at henc
      subst henc
      simp only [List.nil_append, List.length_nil]
      cases f with
      | zero => simp at hf
      | succ f' =>
          cases rest with
          | nil => rfl
          | cons l rs =>
              obtain ⟨l1, l2⟩ := l
              have := hrest (l1, l2) rfl
              simp only [parseElems]
              rw [if_pos this]
  | cons v es' ih =>
      intro hP dep db f ls rest hwf hdep henc hrest hf
      simp only [encElems] at henc
      cases h1 : encElem ',' dep v with
      | error e => rw [h1] at henc; cases henc
      | ok l1 =>
          rw [h1] at henc
          cases h2 : encElems ',' dep es' with
          | error e => rw [h2] at henc; cases henc
          | ok l2 =>
              rw [h2] at henc
              simp only [Except.ok.injEq] at henc
              subst henc
              rw [encElem_vShape] at h1
              cases hv : vShape ',' dep v with
              | error e => rw [hv] at h1; cases h1
              | ok p =>
                  obtain ⟨sh, cls⟩ := p
                  rw [hv] at h1
                  simp only [Except.ok.injEq] at h1
                  subst h1
                  simp only [wfL, Bool.and_eq_true] at hwf
                  simp only [depthL, Nat.max_le] at hdep
                  simp only [List.length_append, List.length_cons] at hf
                  cases f with
                  | zero => omega
                  | succ f' =>
                      simp only [List.cons_append, List.append_assoc, List.length_cons,
                        parseElems]
                      rw [if_neg (by omega), if_neg (by omega)]
                      rw [parseElemLine_render sh (vShape_goodShape hv)]
                      have hsb : stopsBelow (dep + 1) (l2 ++ rest) := by
                        intro l hl
                        cases l2 with
                        | nil =>
                            simp only [List.nil_append] at hl
                            have := hrest l hl
                            omega
                        | cons a l2' =>
                            simp only [List.cons_append, List.head?_cons,
                              Option.some.injEq] at hl
                            subst hl
                            have := encElems_head h2 a rfl
                            omega
                      have hshape := hP v (List.mem_cons_self _ _) dep db f' sh cls
                        (l2 ++ rest) hwf.1 hdep.1 hv hsb (by omega)
                      simp only [hshape]
                      rw [ih (fun x hx => hP x (List.mem_cons_of_mem _ hx)) dep db f' l2 rest
                        hwf.2 hdep.2 h2 hrest (by omega)]

/-- Scalar values satisfy the parse-correctness statement. -/
theorem shapeStmt_scalar {v : Value}
    (h : ∀ dep : Nat, vShape ',' dep v =
      match scalarLit ',' v with
      | .error e => .error e
      | .ok lit => .ok (.scalarTail lit, [])) : ShapeStmt v := by
  intro dep db f sh cls rest hwf _ hv hsb hf
  rw [h dep] at hv
  cases hl : scalarLit ',' v with
  | error e => rw [hl] at hv; cases hv
  | ok lit =>
      rw [hl] at hv
      simp only [Except.ok.injEq, Prod.mk.injEq] at hv
      obtain ⟨hsh, hcls⟩ := hv
      subst hsh
      subst hcls
      cases f with
      | zero => omega
      | succ f' =>
          simp only [List.nil_append, parseShape]
          simp only [scalarLit_parse hwf hl]

/-- Every well-formed value within the depth budget parses back from its
encoded shape. -/
theorem shapeStmt_all : ∀ v : Value, ShapeStmt v := by
  refine Value.inductionOn ShapeStmt ?_ ?_ ?_ ?_ ?_ ?_
  · exact shapeStmt_scalar fun dep => rfl
  · intro b; exact shapeStmt_scalar fun dep => rfl
  · intro n; exact shapeStmt_scalar fun dep => rfl
  · intro s; exact shapeStmt_scalar fun dep => rfl
  · intro es ihP
    intro dep db f sh cls rest hwf hdep hv hsb hf
    simp only [vShape] at hv
    by_cases ht : tabularEligible es = true
    · rw [if_pos ht] at hv
      cases he : encRows ',' (dep + 1) es with
      | error e => rw [he] at hv; cases hv
      | ok rows =>
          rw [he] at hv
          simp only [Except.ok.injEq, Prod.mk.injEq] at hv
          obtain ⟨hsh, hcls⟩ := hv
          subst hsh
          subst hcls
          cases f with
          | zero => omega
          | succ f' =>
              simp only [parseShape]
              have hdb : ¬ db = 0 := by
                simp only [vdepth] at hdep
                omega
              rw [if_neg hdb]
              obtain ⟨entries, es', hes, hene, hscal, hall', hfields⟩ :=
                tabularEligible_shape ht
              have hfne : tabFields es ≠ [] := tabularEligible_fields ht
              have hall : ∀ w ∈ es, rowMatches (tabFields es) w = true := by
                rw [hes]
                intro w hw
                rcases List.mem_cons.mp hw with hw | hw
                · subst hw
                  rw [hes] at hfields
                  rw [hfields]
                  simp [rowMatches, hscal]
                · rw [hes] at hfields
                  rw [hfields]
                  exact List.all_eq_true.mp hall' w hw
              have h2db : 2 ≤ db := by
                have hmem : Value.obj entries ∈ es := by
                  rw [hes]
                  exact List.mem_cons_self _ _
                have hle := vdepth_le_depthL hmem
                simp only [vdepth] at hdep hle
                omega
              simp only [wfV] at hwf
              simp only [parseRows_encRows (tabFields es) hfne es hall hwf (dep + 1)
                (db - 1) rows rest (by omega) he hsb]
    · rw [if_neg ht] at hv
      cases he : encElems ',' (dep + 1) es with
      | error e => rw [he] at hv; cases hv
      | ok cls' =>
          rw [he] at hv
          simp only [Except.ok.injEq, Prod.mk.injEq] at hv
          obtain ⟨hsh, hcls⟩ := hv
          subst hsh
          subst hcls
          cases f with
          | zero => omega
          | succ f' =>
              simp only [parseShape]
              have hdb : ¬ db = 0 := by
                simp only [vdepth] at hdep
                omega
              rw [if_neg hdb]
              simp only [wfV] at hwf
              have hdL : depthL es ≤ db - 1 := by
                simp only [vdepth] at hdep
                omega
              simp only [parseElems_encElems es ihP (dep + 1) (db - 1) f' cls' rest
                hwf hdL he hsb (by omega)]
  · intro es ihP
    intro dep db f sh cls rest hwf hdep hv hsb hf
    simp only [vShape] at hv
    cases he : encEntries ',' (dep + 1) es with
    | error e => rw [he] at hv; cases hv
    | ok cls' =>
        rw [he] at hv
        simp only [Except.ok.injEq, Prod.mk.injEq] at hv
        obtain ⟨hsh, hcls⟩ := hv
        subst hsh
        subst hcls
        cases f with
        | zero => omega
        | succ f' =>
            simp only [parseShape]
            have hdb : ¬ db = 0 := by
              simp only [vdepth] at hdep
              omega
            rw [if_neg hdb]
            simp only [wfV, Bool.and_eq_true] at hwf
            have hdE : depthE es ≤ db - 1 := by
              simp only [vdepth] at hdep
              omega
            simp only [parseBody_encEntries es ihP (dep + 1) (db - 1) f' cls' rest
              hwf.2 hdE he hsb (by omega)]

/-! ### Scalar-root classification: a colon-free line is no entry or header -/

theorem takeUntilP_snd_subset (p : Char → Bool) :
    ∀ s : Chars, ∀ c ∈ (takeUntilP p s).2, c ∈ s := by
  intro s
  induction s with
  | nil => intro c hc; simp [takeUntilP] at hc
  | cons a r ih =>
      intro c hc
      simp only [takeUntilP] at hc
      by_cases hp : p a = true
      · rw [if_pos hp] at hc
        exact hc
      · rw [if_neg hp] at hc
        cases htk : takeUntilP p r with
        | mk x y =>
            rw [htk] at hc
            simp only at hc
            refine List.mem_cons_of_mem _ (ih c ?_)
            rw [htk]
            exact hc

theorem takeDigits_snd_subset : ∀ s : Chars, ∀ c ∈ (takeDigits s).2, c ∈ s := by
  intro s
  induction s with
  | nil => intro c hc; simp [takeDigits] at hc
  | cons a r ih =>
      intro c hc
      simp only [takeDigits] at hc
      by_cases hd : a.isDigit = true
      · rw [if_pos hd] at hc
        cases htk : takeDigits r with
        | mk x y =>
            rw [htk] at hc
            simp only at hc
            refine List.mem_cons_of_mem _ (ih c ?_)
            rw [htk]
            exact hc
      · rw [if_neg hd] at hc
        exact hc

theorem parseQuotedAux_rest_subset :
    ∀ (s : Chars) (esc : Bool) (acc k r : Chars),
      parseQuotedAux s esc acc = .ok (k, r) → ∀ c ∈ r, c ∈ s := by
  intro s
  induction s with
  | nil => intro esc acc k r h; cases h
  | cons a s' ih =>
      intro esc acc k r h
      simp only [parseQuotedAux] at h
      split_ifs at h <;>
        first
          | exact fun c hc => List.mem_cons_of_mem _ (ih _ _ _ _ h c hc)
          | (simp only [Except.ok.injEq, Prod.mk.injEq] at h
             intro c hc
             rw [← h.2] at hc
             exact List.mem_cons_of_mem _ hc)
          | exact fun c hc => List.mem_cons_of_mem _ hc
          | simp at h

theorem parseFieldsAux_no_colon :
    ∀ (f : Nat) (s : Chars), (∀ c ∈ s, ¬ c = ':') → parseFieldsAux f s = none := by
  intro f
  induction f with
  | zero => intro s _; rfl
  | succ f ih =>
      intro s hnc
      cases s with
      | nil => rfl
      | cons a r =>
          simp only [parseFieldsAux]
          by_cases ha : a = '"'
          · rw [if_pos ha]
            cases hq : parseQuotedAux r false [] with
            | error e => rfl
            | ok p =>
                obtain ⟨k, rr⟩ := p
                have hsub := parseQuotedAux_rest_subset r false [] k rr hq
                simp only
                split
                · rename_i r2
                  have : parseFieldsAux f r2 = none := ih r2 (fun c hc =>
                    hnc c (List.mem_cons_of_mem _
                      (hsub c (List.mem_cons_of_mem _ hc))))
                  simp [this]
                · rename_i r2
                  have hne : ¬ r2 = [':'] := by
                    intro he
                    subst he
                    exact hnc ':' (List.mem_cons_of_mem _
                      (hsub ':' (List.mem_cons_of_mem _ (List.mem_cons_self _ _)))) rfl
                  simp [hne]
                · rfl
          · rw [if_neg ha]
            cases htk : takeUntilP (fun c => decide (c = ',') || decide (c = '}')) (a :: r) with
            | mk tok rr =>
                have hsub : ∀ c ∈ rr, c ∈ a :: r := by
                  intro c hc
                  refine takeUntilP_snd_subset
                    (fun c => decide (c = ',') || decide (c = '\x7d')) (a :: r) c ?_
                  rw [htk]
                  exact hc
                simp only
                by_cases htok : tok = []
                · simp [htok]
                · rw [if_neg htok]
                  split
                  · rename_i r2
                    have : parseFieldsAux f r2 = none := ih r2 (fun c hc =>
                      hnc c (hsub c (List.mem_cons_of_mem _ hc)))
                    simp [this]
                  · rename_i r2
                    have hne : ¬ r2 = [':'] := by
                      intro he
                      subst he
                      exact hnc ':' (hsub ':'
                        (List.mem_cons_of_mem _ (List.mem_cons_self _ _))) rfl
                    simp [hne]
                  · rfl

theorem parseArrShape_no_colon {s : Chars} (hnc : ∀ c ∈ s, ¬ c = ':') :
    parseArrShape s = none := by
  unfold parseArrShape
  cases htk : takeDigits s with
  | mk ds rr =>
      have hsub : ∀ c ∈ rr, c ∈ s := by
        intro c hc
        refine takeDigits_snd_subset s c ?_
        rw [htk]
        exact hc
      simp only
      by_cases hds : ds = []
      · simp [hds]
      · rw [if_neg hds]
        split
        · rename_i r2
          split
          · exact absurd rfl (hnc ':' (hsub ':' (by simp)))
          · rename_i r3
            have : parseFieldsTxt r3 = none := by
              unfold parseFieldsTxt
              exact parseFieldsAux_no_colon _ r3 (fun c hc =>
                hnc c (hsub c (by simp [hc])))
            simp [this]
          · rfl
        · rfl

theorem parseTail_no_colon {s : Chars} (hnc : ∀ c ∈ s, ¬ c = ':') :
    parseTail s = none := by
  cases s with
  | nil => rfl
  | cons a r =>
      have ha : ¬ a = ':' := hnc a (List.mem_cons_self _ _)
      simp only [parseTail]
      rw [if_neg ha]
      by_cases hb : a = '['
      · rw [if_pos hb]
        exact parseArrShape_no_colon (fun c hc => hnc c (List.mem_cons_of_mem _ hc))
      · rw [if_neg hb]

/-- A colon-free nonempty line whose head is not a quote never reads as an
object-entry line. -/
theorem parseEntryLine_bare_none {a : Char} {r : Chars}
    (ha : ¬ a = '"') (hnc : ∀ c ∈ a :: r, ¬ c = ':') :
    parseEntryLine (a :: r) = none := by
  simp only [parseEntryLine]
  rw [if_neg ha]
  cases htk : takeUntilP (fun x => decide (x = ':') || decide (x = '[')) (a :: r) with
  | mk k rr =>
      simp only
      by_cases hk : k = []
      · simp [hk]
      · rw [if_neg hk]
        have : parseTail rr = none :=
          parseTail_no_colon (fun c hc => hnc c (by
            refine takeUntilP_snd_subset
              (fun x => decide (x = ':') || decide (x = '[')) (a :: r) c ?_
            rw [htk]
            exact hc))
        simp [this]

/-- A rendered scalar literal never reads as an object-entry line. -/
theorem parseEntryLine_scalarLit_none {v : Value} {t : Chars}
    (hwf : wfV v = true) (h : scalarLit ',' v = .ok t) : parseEntryLine t = none := by
  cases v with
  | null =>
      simp only [scalarLit, Except.ok.injEq] at h
      subst h
      decide
  | bool b =>
      cases b <;>
        · simp only [scalarLit, Except.ok.injEq] at h
          subst h
          decide
  | num n =>
      obtain ⟨hne, _, _, _, hcol⟩ := scalarLit_facts h
      have hnq : ¬ t.head? = some '"' := by
        intro hq
        cases n with
        | int i =>
            simp only [scalarLit, Except.ok.injEq] at h
            subst h
            rcases intChars_head i '"' hq with h1 | h1
            · exact absurd h1 (by decide)
            · exact absurd h1 (by decide)
        | dec m e =>
            simp only [scalarLit, Except.ok.injEq] at h
            subst h
            simp only [wfV, decide_eq_true_eq] at hwf
            rcases decChars_head m e hwf '"' hq with h1 | h1
            · exact absurd h1 (by decide)
            · exact absurd h1 (by decide)
        | inf => simp [scalarLit] at h
        | negInf => simp [scalarLit] at h
        | nan => simp [scalarLit] at h
      have hnc : ∀ c ∈ t, ¬ c = ':' := hcol.resolve_left hnq
      obtain ⟨a, r, rfl⟩ := List.exists_cons_of_ne_nil hne
      have ha : ¬ a = '"' := fun he => hnq (by rw [he]; rfl)
      exact parseEntryLine_bare_none ha hnc
  | str s =>
      simp only [scalarLit, Except.ok.injEq] at h
      subst h
      unfold renderStr
      by_cases hb : isBareStr ',' s = true
      · rw [if_pos hb]
        obtain ⟨hne, hbad, _, _, _, _⟩ := isBareStr_props hb
        have hnc : ∀ c ∈ s, ¬ c = ':' := fun c hc => (badBareChar_props (hbad c hc)).2.1
        have hnq : ∀ c ∈ s, ¬ c = '"' := fun c hc => (badBareChar_props (hbad c hc)).2.2.2
        obtain ⟨a, r, rfl⟩ := List.exists_cons_of_ne_nil hne
        exact parseEntryLine_bare_none (hnq a (List.mem_cons_self _ _)) hnc
      · rw [if_neg hb]
        simp only [quoteStr, parseEntryLine]
        simp only [if_true]
        rw [show escape s ++ ['"'] = escape s ++ '"' :: [] from rfl]
        rw [parseQuotedAux_quoteStr s []]
        rfl
  | arr es => simp [scalarLit] at h
  | obj es => simp [scalarLit] at h

/-- An array-header line never reads as an object-entry line. -/
theorem parseEntryLine_bracket (r : Chars) : parseEntryLine ('[' :: r) = none := by
  simp [parseEntryLine, takeUntilP]

/-! ### Goodness of emitted lines -/

theorem joinDelim_mem {d : Char} :
    ∀ {xs : List Chars} {c : Char}, c ∈ joinDelim d xs → c = d ∨ ∃ x ∈ xs, c ∈ x := by
  intro xs
  induction xs with
  | nil => intro c hc; simp [joinDelim] at hc
  | cons x xs ih =>
      intro c hc
      cases xs with
      | nil =>
          exact Or.inr ⟨x, List.mem_cons_self _ _, hc⟩
      | cons y ys =>
          simp only [joinDelim] at hc
          rw [List.mem_append] at hc
          rcases hc with hc | hc
          · exact Or.inr ⟨x, List.mem_cons_self _ _, hc⟩
          · rcases List.mem_cons.mp hc with hc | hc
            · exact Or.inl hc
            · rcases ih hc with h | ⟨z, hz, hcz⟩
              · exact Or.inl h
              · exact Or.inr ⟨z, List.mem_cons_of_mem _ hz, hcz⟩

theorem joinDelim_ne_nil {d : Char} {x : Chars} {xs : List Chars} (hx : x ≠ []) :
    joinDelim d (x :: xs) ≠ [] := by
  cases xs with
  | nil => exact hx
  | cons y ys =>
      show x ++ d :: joinDelim d (y :: ys) ≠ []
      simp

theorem joinDelim_head?_fst {d : Char} {x : Chars} {xs : List Chars} (hx : x ≠ []) :
    (joinDelim d (x :: xs)).head? = x.head? := by
  cases xs with
  | nil => rfl
  | cons y ys =>
      show (x ++ d :: joinDelim d (y :: ys)).head? = x.head?
      obtain ⟨a, r, rfl⟩ := List.exists_cons_of_ne_nil hx
      rfl

theorem joinDelim_getLast?_mem {d : Char} :
    ∀ {xs : List Chars}, xs ≠ [] → (∀ x ∈ xs, x ≠ []) →
    ∃ x ∈ xs, (joinDelim d xs).getLast? = x.getLast? := by
  intro xs
  induction xs with
  | nil => intro h _; exact absurd rfl h
  | cons x xs ih =>
      intro _ hne
      cases xs with
      | nil => exact ⟨x, List.mem_cons_self _ _, rfl⟩
      | cons y ys =>
          obtain ⟨z, hz, hlast⟩ := ih (by simp)
            (fun a ha => hne a (List.mem_cons_of_mem _ ha))
          refine ⟨z, List.mem_cons_of_mem _ hz, ?_⟩
          show (x ++ d :: joinDelim d (y :: ys)).getLast? = z.getLast?
          rw [List.getLast?_append_of_ne_nil _ (by simp)]
          have hjne : joinDelim d (y :: ys) ≠ [] :=
            joinDelim_ne_nil (hne y (by simp))
          rw [show (d :: joinDelim d (y :: ys)) = [d] ++ joinDelim d (y :: ys) from rfl]
          rw [List.getLast?_append_of_ne_nil _ hjne]
          exact hlast

theorem encCells_mem {d : Char} {vs : List Value} {cells : List Chars}
    (h : encCells d vs = .ok cells) :
    ∀ cell ∈ cells, ∃ v ∈ vs, scalarLit d v = .ok cell := by
  induction vs generalizing cells with
  | nil =>
      simp only [encCells, Except.ok.injEq] at h
      subst h
      intro cell hc
      cases hc
  | cons v vs' ih =>
      simp only [encCells] at h
      cases h1 : scalarLit d v with
      | error er => rw [h1] at h; cases h
      | ok lit =>
          rw [h1] at h
          cases h2 : encCells d vs' with
          | error er => rw [h2] at h; cases h
          | ok rest =>
              rw [h2] at h
              simp only [Except.ok.injEq] at h
              subst h
              intro cell hc
              rcases List.mem_cons.mp hc with hc | hc
              · subst hc
                exact ⟨v, List.mem_cons_self _ _, h1⟩
              · obtain ⟨w, hw, hwl⟩ := ih h2 cell hc
                exact ⟨w, List.mem_cons_of_mem _ hw, hwl⟩

/-- A delimiter-joined row of rendered scalar cells is a good line. -/
theorem rowLine_good {dep : Nat} {vs : List Value} {cells : List Chars}
    (henc : encCells ',' vs = .ok cells) (hne : cells ≠ []) :
    goodLine (dep, joinDelim ',' cells) := by
  have hmem := encCells_mem henc
  have hcne : ∀ cell ∈ cells, cell ≠ [] := by
    intro cell hc
    obtain ⟨v, _, hl⟩ := hmem cell hc
    exact (scalarLit_facts hl).1
  obtain ⟨c0, cs, rfl⟩ := List.exists_cons_of_ne_nil hne
  have hc0 : c0 ≠ [] := hcne c0 (List.mem_cons_self _ _)
  refine ⟨joinDelim_ne_nil hc0, ?_, ?_, ?_⟩
  · intro c hc
    rcases joinDelim_mem hc with h | ⟨x, hx, hcx⟩
    · subst h; decide
    · obtain ⟨v, _, hl⟩ := hmem x hx
      exact (scalarLit_facts hl).2.1 c hcx
  · intro c hc
    rw [joinDelim_head?_fst hc0] at hc
    obtain ⟨v, _, hl⟩ := hmem c0 (List.mem_cons_self _ _)
    exact (scalarLit_facts hl).2.2.1 c hc
  · intro c hc
    obtain ⟨x, hx, hlast⟩ := joinDelim_getLast?_mem (by simp) hcne
    rw [hlast] at hc
    obtain ⟨v, _, hl⟩ := hmem x hx
    exact (scalarLit_facts hl).2.2.2.1 c hc

/-- Inversion: a scalar-tail shape only arises from a rendered scalar. -/
theorem vShape_scalar {d : Char} {dep : Nat} {v : Value} {lit : Chars} {cls : List Line}
    (h : vShape d dep v = .ok (.scalarTail lit, cls)) :
    scalarLit d v = .ok lit ∧ cls = [] := by
  cases v with
  | obj es =>
      simp only [vShape] at h
      cases he : encEntries d (dep + 1) es with
      | error e => rw [he] at h; cases h
      | ok c => rw [he] at h; simp at h
  | arr es =>
      simp only [vShape] at h
      by_cases ht : tabularEligible es = true
      · rw [if_pos ht] at h
        cases he : encRows d (dep + 1) es with
        | error e => rw [he] at h; cases h
        | ok c => rw [he] at h; simp at h
      · rw [if_neg ht] at h
        cases he : encElems d (dep + 1) es with
        | error e => rw [he] at h; cases h
        | ok c => rw [he] at h; simp at h
  | null =>
      simp only [vShape] at h
      cases hl : scalarLit d Value.null with
      | error e => rw [hl] at h; cases h
      | ok t =>
          rw [hl] at h
          simp only [Except.ok.injEq, Prod.mk.injEq, LineShape.scalarTail.injEq] at h
          refine ⟨?_, h.2.symm⟩
          rw [← h.1]
  | bool b =>
      simp only [vShape] at h
      cases hl : scalarLit d (Value.bool b) with
      | error e => rw [hl] at h; cases h
      | ok t =>
          rw [hl] at h
          simp only [Except.ok.injEq, Prod.mk.injEq, LineShape.scalarTail.injEq] at h
          refine ⟨?_, h.2.symm⟩
          rw [← h.1]
  | num n =>
      simp only [vShape] at h
      cases hl : scalarLit d (Value.num n) with
      | error e => rw [hl] at h; cases h
      | ok t =>
          rw [hl] at h
          simp only [Except.ok.injEq, Prod.mk.injEq, LineShape.scalarTail.injEq] at h
          refine ⟨?_, h.2.symm⟩
          rw [← h.1]
  | str s =>
      simp only [vShape] at h
      cases hl : scalarLit d (Value.str s) with
      | error e => rw [hl] at h; cases h
      | ok t =>
          rw [hl] at h
          simp only [Except.ok.injEq, Prod.mk.injEq, LineShape.scalarTail.injEq] at h
          refine ⟨?_, h.2.symm⟩
          rw [← h.1]

/-- Tail-text facts of a shape produced by the encoder. -/
theorem tailTextEntry_good {dep : Nat} {v : Value} {sh : LineShape} {cls : List Line}
    (hv : vShape ',' dep v = .ok (sh, cls)) :
    tailTextEntry sh ≠ [] ∧ (∀ c ∈ tailTextEntry sh, ¬ c = '\n') ∧
    (∀ c, (tailTextEntry sh).getLast? = some c → c.isWhitespace = false) := by
  cases sh with
  | scalarTail lit =>
      obtain ⟨hl, _⟩ := vShape_scalar hv
      obtain ⟨hne, hnl, _, hlast, _⟩ := scalarLit_facts hl
      refine ⟨by simp [tailTextEntry], ?_, ?_⟩
      · intro c hc
        simp only [tailTextEntry, List.mem_cons] at hc
        rcases hc with h | h | h
        · subst h; decide
        · subst h; decide
        · exact hnl c h
      · intro c hc
        simp only [tailTextEntry] at hc
        rw [show (':' :: ' ' :: lit) = [':', ' '] ++ lit from rfl] at hc
        rw [List.getLast?_append_of_ne_nil _ hne] at hc
        exact hlast c hc
  | objIntro =>
      refine ⟨by simp [tailTextEntry], ?_, ?_⟩
      · intro c hc
        simp only [tailTextEntry, List.mem_singleton] at hc
        subst hc
        decide
      · intro c hc
        simp only [tailTextEntry, List.getLast?_singleton, Option.some.injEq] at hc
        subst hc
        decide
  | listHeader n =>
      refine ⟨by simp [tailTextEntry], ?_, ?_⟩
      · intro c hc
        simp only [tailTextEntry, List.mem_cons, List.mem_append, List.mem_singleton,
          List.not_mem_nil, or_false] at hc
        rcases hc with rfl | h | rfl | rfl
        · decide
        · exact isDigit_ne (natChars_digits n c h) (by decide)
        · decide
        · decide
      · intro c hc
        simp only [tailTextEntry] at hc
        rw [show ('[' :: (natChars n ++ [']', ':']))
            = (('[' :: natChars n) ++ [']']) ++ [':'] by simp] at hc
        rw [List.getLast?_concat] at hc
        simp only [Option.some.injEq] at hc
        subst hc
        decide
  | tabHeader n fs =>
      refine ⟨by simp [tailTextEntry], ?_, ?_⟩
      · intro c hc
        simp only [tailTextEntry, List.mem_cons, List.mem_append, List.mem_singleton,
          List.not_mem_nil, or_false] at hc
        rcases hc with rfl | h | rfl | rfl | h | rfl | rfl
        · decide
        · exact isDigit_ne (natChars_digits n c h) (by decide)
        · decide
        · decide
        · rcases joinDelim_mem h with rfl | ⟨x, hx, hcx⟩
          · decide
          · obtain ⟨g, _, rfl⟩ := List.mem_map.mp hx
            exact (renderKey_facts ',' g).2.1 c hcx
        · decide
        · decide
      · intro c hc
        simp only [tailTextEntry] at hc
        rw [show ('[' :: (natChars n ++ ']' :: '{' ::
              (joinDelim ',' (fs.map (renderKey ',')) ++ '}' :: [':'])))
            = ('[' :: (natChars n ++ ']' :: '{' ::
              (joinDelim ',' (fs.map (renderKey ',')) ++ ['}']))) ++ [':'] by simp] at hc
        rw [List.getLast?_concat] at hc
        simp only [Option.some.injEq] at hc
        subst hc
        decide

/-- Element tail-text facts. -/
theorem tailTextElem_good {dep : Nat} {v : Value} {sh : LineShape} {cls : List Line}
    (hv : vShape ',' dep v = .ok (sh, cls)) :
    tailTextElem sh ≠ [] ∧ (∀ c ∈ tailTextElem sh, ¬ c = '\n') ∧
    (∀ c, (tailTextElem sh).getLast? = some c → c.isWhitespace = false) := by
  cases sh with
  | scalarTail lit =>
      obtain ⟨hl, _⟩ := vShape_scalar hv
      obtain ⟨hne, hnl, _, hlast, _⟩ := scalarLit_facts hl
      refine ⟨by simp [tailTextElem], ?_, ?_⟩
      · intro c hc
        simp only [tailTextElem, List.mem_cons] at hc
        rcases hc with h | h
        · subst h; decide
        · exact hnl c h
      · intro c hc
        simp only [tailTextElem] at hc
        rw [show (' ' :: lit) = [' '] ++ lit from rfl] at hc
        rw [List.getLast?_append_of_ne_nil _ hne] at hc
        exact hlast c hc
  | objIntro => simpa only [tailTextElem] using tailTextEntry_good hv
  | listHeader n => simpa only [tailTextElem] using tailTextEntry_good hv
  | tabHeader n fs => simpa only [tailTextElem] using tailTextEntry_good hv

/-- A rendered object-entry line is good. -/
theorem entryLine_good {dep : Nat} {k : Chars} {v : Value} {sh : LineShape} {cls : List Line}
    (hv : vShape ',' dep v = .ok (sh, cls)) :
    goodLine (dep, renderKey ',' k ++ tailTextEntry sh) := by
  obtain ⟨hkne, hknl, hkhead⟩ := renderKey_facts ',' k
  obtain ⟨htne, htnl, htlast⟩ := tailTextEntry_good hv
  refine ⟨?_, ?_, ?_, ?_⟩
  · intro h
    exact hkne (List.append_eq_nil.mp h).1
  · intro c hc
    rcases List.mem_append.mp hc with h | h
    · exact hknl c h
    · exact htnl c h
  · intro c hc
    obtain ⟨a, r, hk⟩ := List.exists_cons_of_ne_nil hkne
    rw [hk] at hc
    simp only [List.cons_append, List.head?_cons, Option.some.injEq] at hc
    refine hkhead c ?_
    rw [hk, ← hc]
    rfl
  · intro c hc
    rw [List.getLast?_append_of_ne_nil _ htne] at hc
    exact htlast c hc

/-- A rendered list-element line is good. -/
theorem elemLine_good {dep : Nat} {v : Value} {sh : LineShape} {cls : List Line}
    (hv : vShape ',' dep v = .ok (sh, cls)) :
    goodLine (dep, '-' :: tailTextElem sh) := by
  obtain ⟨htne, htnl, htlast⟩ := tailTextElem_good hv
  refine ⟨by simp, ?_, ?_, ?_⟩
  · intro c hc
    rcases List.mem_cons.mp hc with h | h
    · subst h; decide
    · exact htnl c h
  · intro c hc
    simp only [List.head?_cons, Option.some.injEq] at hc
    subst hc
    decide
  · intro c hc
    rw [show ('-' :: tailTextElem sh) = ['-'] ++ tailTextElem sh from rfl] at hc
    rw [List.getLast?_append_of_ne_nil _ htne] at hc
    exact htlast c hc

theorem encRows_good {dep : Nat} :
    ∀ {es : List Value} {ls : List Line}, encRows ',' dep es = .ok ls →
      (∀ v ∈ es, ∃ e, v = .obj e ∧ e ≠ []) → ∀ l ∈ ls, goodLine l := by
  intro es
  induction es with
  | nil =>
      intro ls h _
      simp only [encRows, Except.ok.injEq] at h
      subst h
      intro l hl
      cases hl
  | cons v es' ih =>
      intro ls h hshape
      obtain ⟨e, rfl, hene⟩ := hshape v (List.mem_cons_self _ _)
      simp only [encRows] at h
      cases h1 : encCells ',' (e.map Prod.snd) with
      | error er => rw [h1] at h; cases h
      | ok cells =>
          rw [h1] at h
          cases h2 : encRows ',' dep es' with
          | error er => rw [h2] at h; cases h
          | ok rest =>
              rw [h2] at h
              simp only [Except.ok.injEq] at h
              subst h
              intro l hl
              rcases List.mem_cons.mp hl with hl | hl
              · subst hl
                refine rowLine_good h1 ?_
                intro hemp
                rw [hemp] at h1
                have := encCells_length h1
                simp only [List.length_nil, List.length_map] at this
                exact hene (List.eq_nil_of_length_eq_zero this.symm)
              · exact ih h2 (fun w hw => hshape w (List.mem_cons_of_mem _ hw)) l hl

theorem encEntries_good :
    ∀ (es : List (Chars × Value)), (∀ kv ∈ es, GoodStmt kv.2) →
    ∀ {dep : Nat} {ls : List Line}, encEntries ',' dep es = .ok ls →
      ∀ l ∈ ls, goodLine l := by
  intro es
  induction es with
  | nil =>
      intro _ dep ls h
      simp only [encEntries, Except.ok.injEq] at h
      subst h
      intro l hl
      cases hl
  | cons kv es' ih =>
      obtain ⟨k, v⟩ := kv
      intro hG dep ls h
      simp only [encEntries] at h
      cases h1 : encEntry ',' dep k v with
      | error e => rw [h1] at h; cases h
      | ok l1 =>
          rw [h1] at h
          cases h2 : encEntries ',' dep es' with
          | error e => rw [h2] at h; cases h
          | ok l2 =>
              rw [h2] at h
              simp only [Except.ok.injEq] at h
              subst h
              rw [encEntry_vShape] at h1
              cases hv : vShape ',' dep v with
              | error e => rw [hv] at h1; cases h1
              | ok p =>
                  obtain ⟨sh, cls⟩ := p
                  rw [hv] at h1
                  simp only [Except.ok.injEq] at h1
                  subst h1
                  intro l hl
                  rcases List.mem_append.mp hl with hl | hl
                  · rcases List.mem_cons.mp hl with hl | hl
                    · subst hl
                      exact entryLine_good hv
                    · exact hG (k, v) (List.mem_cons_self _ _) dep sh cls hv l hl
                  · exact ih (fun x hx => hG x (List.mem_cons_of_mem _ hx)) h2 l hl

theorem encElems_good :
    ∀ (es : List Value), (∀ v ∈ es, GoodStmt v) →
    ∀ {dep : Nat} {ls : List Line}, encElems ',' dep es = .ok ls →
      ∀ l ∈ ls, goodLine l := by
  intro es
  induction es with
  | nil =>
      intro _ dep ls h
      simp only [encElems, Except.ok.injEq] at h
      subst h
      intro l hl
      cases hl
  | cons v es' ih =>
      intro hG dep ls h
      simp only [encElems] at h
      cases h1 : encElem ',' dep v with
      | error e => rw [h1] at h; cases h
      | ok l1 =>
          rw [h1] at h
          cases h2 : encElems ',' dep es' with
          | error e => rw [h2] at h; cases h
          | ok l2 =>
              rw [h2] at h
              simp only [Except.ok.injEq] at h
              subst h
              rw [encElem_vShape] at h1
              cases hv : vShape ',' dep v with
              | error e => rw [hv] at h1; cases h1
              | ok p =>
                  obtain ⟨sh, cls⟩ := p
                  rw [hv] at h1
                  simp only [Except.ok.injEq] at h1
                  subst h1
                  intro l hl
                  rcases List.mem_append.mp hl with hl | hl
                  · rcases List.mem_cons.mp hl with hl | hl
                    · subst hl
                      exact elemLine_good hv
                    · exact hG v (List.mem_cons_self _ _) dep sh cls hv l hl
                  · exact ih (fun x hx => hG x (List.mem_cons_of_mem _ hx)) h2 l hl

/-- Eligible arrays consist of nonempty objects (shape needed for row
goodness). -/
theorem tabularEligible_rows {es : List Value} (ht : tabularEligible es = true) :
    ∀ v ∈ es, ∃ e, v = .obj e ∧ e ≠ [] := by
  obtain ⟨entries, es', rfl, hne, hscal, hall, hf⟩ := tabularEligible_shape ht
  intro v hv
  rcases List.mem_cons.mp hv with hv | hv
  · exact ⟨entries, hv, hne⟩
  · have hrm := List.all_eq_true.mp hall v hv
    cases v with
    | obj e =>
        refine ⟨e, rfl, ?_⟩
        simp only [rowMatches, Bool.and_eq_true, decide_eq_true_eq] at hrm
        intro hemp
        subst hemp
        simp only [List.map_nil] at hrm
        exact hne (by
          have := hrm.1
          cases hk : entries with
          | nil => rfl
          | cons a b =>
              rw [hk] at this
              simp at this)
    | null => simp [rowMatches] at hrm
    | bool b => simp [rowMatches] at hrm
    | num n => simp [rowMatches] at hrm
    | str s => simp [rowMatches] at hrm
    | arr a => simp [rowMatches] at hrm

/-- All child lines of every encoded value are good. -/
theorem goodStmt_all : ∀ v : Value, GoodStmt v := by
  refine Value.inductionOn GoodStmt ?_ ?_ ?_ ?_ ?_ ?_
  · intro dep sh cls hv l hl
    simp only [vShape] at hv
    cases hsl : scalarLit ',' Value.null with
    | error e => rw [hsl] at hv; cases hv
    | ok t =>
        rw [hsl] at hv
        simp only [Except.ok.injEq, Prod.mk.injEq] at hv
        rw [← hv.2] at hl
        cases hl
  · intro b dep sh cls hv l hl
    simp only [vShape] at hv
    cases hsl : scalarLit ',' (Value.bool b) with
    | error e => rw [hsl] at hv; cases hv
    | ok t =>
        rw [hsl] at hv
        simp only [Except.ok.injEq, Prod.mk.injEq] at hv
        rw [← hv.2] at hl
        cases hl
  · intro n dep sh cls hv l hl
    simp only [vShape] at hv
    cases hsl : scalarLit ',' (Value.num n) with
    | error e => rw [hsl] at hv; cases hv
    | ok t =>
        rw [hsl] at hv
        simp only [Except.ok.injEq, Prod.mk.injEq] at hv
        rw [← hv.2] at hl
        cases hl
  · intro s dep sh cls hv l hl
    simp only [vShape] at hv
    cases hsl : scalarLit ',' (Value.str s) with
    | error e => rw [hsl] at hv; cases hv
    | ok t =>
        rw [hsl] at hv
        simp only [Except.ok.injEq, Prod.mk.injEq] at hv
        rw [← hv.2] at hl
        cases hl
  · intro es ihG dep sh cls hv l hl
    simp only [vShape] at hv
    by_cases ht : tabularEligible es = true
    · rw [if_pos ht] at hv
      cases he : encRows ',' (dep + 1) es with
      | error e => rw [he] at hv; cases hv
      | ok rows =>
          rw [he] at hv
          simp only [Except.ok.injEq, Prod.mk.injEq] at hv
          rw [← hv.2] at hl
          exact encRows_good he (tabularEligible_rows ht) l hl
    · rw [if_neg ht] at hv
      cases he : encElems ',' (dep + 1) es with
      | error e => rw [he] at hv; cases hv
      | ok cls' =>
          rw [he] at hv
          simp only [Except.ok.injEq, Prod.mk.injEq] at hv
          rw [← hv.2] at hl
          exact encElems_good es ihG he l hl
  · intro es ihG dep sh cls hv l hl
    simp only [vShape] at hv
    cases he : encEntries ',' (dep + 1) es with
    | error e => rw [he] at hv; cases hv
    | ok cls' =>
        rw [he] at hv
        simp only [Except.ok.injEq, Prod.mk.injEq] at hv
        rw [← hv.2] at hl
        exact encEntries_good es ihG he l hl

/-- Every line of a whole encoded document is good. -/
theorem encRoot_good {v : Value} {ls : List Line}
    (h : encRoot ',' v = .ok ls) : ∀ l ∈ ls, goodLine l := by
  cases v with
  | obj es =>
      exact encEntries_good es (fun kv _ => goodStmt_all kv.2) h
  | arr es =>
      simp only [encRoot] at h
      by_cases ht : tabularEligible es = true
      · rw [if_pos ht] at h
        cases he : encRows ',' 1 es with
        | error e => rw [he] at h; cases h
        | ok body =>
            rw [he] at h
            simp only [Except.ok.injEq] at h
            subst h
            intro l hl
            rcases List.mem_cons.mp hl with hl | hl
            · subst hl
              have hv : vShape ',' 0 (.arr es) = .ok (.tabHeader es.length (tabFields es),
                  body) := by
                simp only [vShape]
                rw [if_pos ht, he]
              have harr : arrHeaderTail ',' es
                  = tailTextEntry (.tabHeader es.length (tabFields es)) := by
                simp [arrHeaderTail, tailTextEntry, ht]
              have hgood := tailTextEntry_good hv
              refine ⟨?_, ?_, ?_, ?_⟩
              · show arrHeaderTail ',' es ≠ []
                rw [harr]
                exact hgood.1
              · intro c hc
                rw [show ((0 : Nat), arrHeaderTail ',' es).2
                    = arrHeaderTail ',' es from rfl, harr] at hc
                exact hgood.2.1 c hc
              · intro c hc
                rw [show ((0 : Nat), arrHeaderTail ',' es).2
                    = arrHeaderTail ',' es from rfl, harr] at hc
                simp only [tailTextEntry, List.head?_cons, Option.some.injEq] at hc
                subst hc
                decide
              · intro c hc
                rw [show ((0 : Nat), arrHeaderTail ',' es).2
                    = arrHeaderTail ',' es from rfl, harr] at hc
                exact hgood.2.2 c hc
            · exact encRows_good he (tabularEligible_rows ht) l hl
      · rw [if_neg ht] at h
        cases he : encElems ',' 1 es with
        | error e => rw [he] at h; cases h
        | ok body =>
            rw [he] at h
            simp only [Except.ok.injEq] at h
            subst h
            intro l hl
            rcases List.mem_cons.mp hl with hl | hl
            · subst hl
              have hv : vShape ',' 0 (.arr es) = .ok (.listHeader es.length, body) := by
                simp only [vShape]
                rw [if_neg ht, he]
              have := tailTextEntry_good hv
              refine ⟨?_, ?_, ?_, ?_⟩
              · simp [arrHeaderTail, ht]
              · intro c hc
                simp only [arrHeaderTail] at hc
                rw [if_neg ht] at hc
                exact this.2.1 c (by simpa [tailTextEntry] using hc)
              · intro c hc
                simp only [arrHeaderTail] at hc
                rw [if_neg ht] at hc
                simp only [List.head?_cons, Option.some.injEq] at hc
                subst hc
                decide
              · intro c hc
                simp only [arrHeaderTail] at hc
                rw [if_neg ht] at hc
                exact this.2.2 c (by simpa [tailTextEntry] using hc)
            · exact encElems_good es (fun w _ => goodStmt_all w) he l hl
  | null =>
      simp only [encRoot] at h
      cases hl : scalarLit ',' Value.null with
      | error e => rw [hl] at h; cases h
      | ok lit =>
          rw [hl] at h
          simp only [Except.ok.injEq] at h
          subst h
          intro l hml
          rcases List.mem_singleton.mp hml with rfl
          obtain ⟨h1, h2, h3, h4, _⟩ := scalarLit_facts hl
          exact ⟨h1, h2, h3, h4⟩
  | bool b =>
      simp only [encRoot] at h
      cases hl : scalarLit ',' (Value.bool b) with
      | error e => rw [hl] at h; cases h
      | ok lit =>
          rw [hl] at h
          simp only [Except.ok.injEq] at h
          subst h
          intro l hml
          rcases List.mem_singleton.mp hml with rfl
          obtain ⟨h1, h2, h3, h4, _⟩ := scalarLit_facts hl
          exact ⟨h1, h2, h3, h4⟩
  | num n =>
      simp only [encRoot] at h
      cases hl : scalarLit ',' (Value.num n) with
      | error e => rw [hl] at h; cases h
      | ok lit =>
          rw [hl] at h
          simp only [Except.ok.injEq] at h
          subst h
          intro l hml
          rcases List.mem_singleton.mp hml with rfl
          obtain ⟨h1, h2, h3, h4, _⟩ := scalarLit_facts hl
          exact ⟨h1, h2, h3, h4⟩
  | str s =>
      simp only [encRoot] at h
      cases hl : scalarLit ',' (Value.str s) with
      | error e => rw [hl] at h; cases h
      | ok lit =>
          rw [hl] at h
          simp only [Except.ok.injEq] at h
          subst h
          intro l hml
          rcases List.mem_singleton.mp hml with rfl
          obtain ⟨h1, h2, h3, h4, _⟩ := scalarLit_facts hl
          exact ⟨h1, h2, h3, h4⟩

/-! ### Root round-trip -/

theorem tabularEligible_all_rowMatches {es : List Value} (ht : tabularEligible es = true) :
    ∀ w ∈ es, rowMatches (tabFields es) w = true := by
  obtain ⟨entries, es', hes, hene, hscal, hall', hfields⟩ := tabularEligible_shape ht
  rw [hes]
  intro w hw
  rcases List.mem_cons.mp hw with hw | hw
  · subst hw
    rw [hes] at hfields
    rw [hfields]
    simp [rowMatches, hscal]
  · rw [hes] at hfields
    rw [hfields]
    exact List.all_eq_true.mp hall' w hw

/-- A root scalar document parses back to its value. -/
theorem parseRoot_scalar {v : Value} {lit : Chars}
    (hwf : wfV v = true) (hsl : scalarLit ',' v = .ok lit) :
    parseRoot (2 * 1 + 2) DEFAULT_MAX_DEPTH [(0, lit)] = .ok v := by
  have hne := (scalarLit_facts hsl).1
  simp only [parseRoot]
  rw [if_neg (by simp)]
  rw [parseEntryLine_scalarLit_none hwf hsl]
  have harr : (if lit.head? = some '[' then parseArrShape lit.tail else none) = none := by
    by_cases hq : lit.head? = some '['
    · rw [if_pos hq]
      obtain ⟨a, r, rfl⟩ := List.exists_cons_of_ne_nil hne
      simp only [List.head?_cons, Option.some.injEq] at hq
      subst hq
      apply parseArrShape_no_colon
      rcases (scalarLit_facts hsl).2.2.2.2 with hq2 | hnc
      · simp only [List.head?_cons, Option.some.injEq] at hq2
        exact absurd hq2 (by decide)
      · exact fun c hc => hnc c (List.mem_cons_of_mem _ hc)
    · rw [if_neg hq]
  rw [harr]
  exact scalarLit_parse hwf hsl

/-- The decoder root parse inverts the encoder root rendering, for
well-formed values within the default depth budget. -/
theorem parseRoot_encRoot {v : Value} {ls : List Line}
    (hwf : wfV v = true) (hdep : vdepth v ≤ DEFAULT_MAX_DEPTH)
    (henc : encRoot ',' v = .ok ls) :
    parseRoot (2 * ls.length + 2) DEFAULT_MAX_DEPTH ls = .ok v := by
  cases v with
  | obj es =>
      simp only [encRoot] at henc
      cases es with
      | nil =>
          simp only [encEntries, Except.ok.injEq] at henc
          subst henc
          rfl
      | cons kv es' =>
          obtain ⟨k, v0⟩ := kv
          have hbody := parseBody_encEntries ((k, v0) :: es')
            (fun x _ => shapeStmt_all x.2) 0 (DEFAULT_MAX_DEPTH - 1)
            (2 * ls.length + 2) ls []
            (by
              simp only [wfV, Bool.and_eq_true] at hwf
              exact hwf.2)
            (by
              simp only [vdepth, DEFAULT_MAX_DEPTH] at hdep ⊢
              omega)
            henc (fun l hl => nomatch hl) (le_refl _)
          rw [List.append_nil] at hbody
          simp only [encEntries] at henc
          cases h1 : encEntry ',' 0 k v0 with
          | error e => rw [h1] at henc; cases henc
          | ok l1 =>
              rw [h1] at henc
              cases h2 : encEntries ',' 0 es' with
              | error e => rw [h2] at henc; cases henc
              | ok l2 =>
                  rw [h2] at henc
                  simp only [Except.ok.injEq] at henc
                  rw [encEntry_vShape] at h1
                  cases hv : vShape ',' 0 v0 with
                  | error e => rw [hv] at h1; cases h1
                  | ok p =>
                      obtain ⟨sh, cls⟩ := p
                      rw [hv] at h1
                      simp only [Except.ok.injEq] at h1
                      subst h1
                      subst henc
                      simp only [List.cons_append, parseRoot]
                      rw [if_neg (by simp)]
                      rw [parseEntryLine_render k _ (tailTextEntry_head sh)]
                      rw [parseTail_tailTextEntry sh (vShape_goodShape hv)]
                      simp only [Option.map_some']
                      rw [if_neg (by decide)]
                      simp only [List.cons_append] at hbody
                      simp only [hbody]
  | arr es =>
      simp only [encRoot] at henc
      by_cases ht : tabularEligible es = true
      · rw [if_pos ht] at henc
        cases he : encRows ',' 1 es with
        | error e => rw [he] at henc; cases henc
        | ok body =>
            rw [he] at henc
            simp only [Except.ok.injEq] at henc
            subst henc
            have harr : arrHeaderTail ',' es = '[' :: (natChars es.length ++ ']' :: '{' ::
                (joinDelim ',' ((tabFields es).map (renderKey ',')) ++ '}' :: [':'])) := by
              simp [arrHeaderTail, ht]
            simp only [parseRoot, harr]
            rw [if_neg (by simp)]
            rw [parseEntryLine_bracket]
            have hif : (if ('[' :: (natChars es.length ++ ']' :: '{' ::
                  (joinDelim ',' ((tabFields es).map (renderKey ',')) ++ '}' :: [':']))).head?
                  = some '[' then
                parseArrShape ('[' :: (natChars es.length ++ ']' :: '{' ::
                  (joinDelim ',' ((tabFields es).map (renderKey ',')) ++ '}' :: [':']))).tail
              else none) = some (.tabHeader es.length (tabFields es)) := by
              have hcond : ('[' :: (natChars es.length ++ ']' :: '{' ::
                  (joinDelim ',' ((tabFields es).map (renderKey ',')) ++ '}' :: [':']))).head?
                  = some '[' := rfl
              rw [if_pos hcond]
              exact parseArrShape_render_tab es.length (tabFields es)
                (tabularEligible_fields ht)
            have hrows := parseRows_encRows (tabFields es) (tabularEligible_fields ht) es
              (tabularEligible_all_rowMatches ht)
              (by simpa [wfV] using hwf) 1 (DEFAULT_MAX_DEPTH - 1) body []
              (by decide) he (fun l hl => nomatch hl)
            rw [List.append_nil] at hrows
            simp only [hif, hrows]
            rw [if_neg (by decide)]
      · rw [if_neg ht] at henc
        cases he : encElems ',' 1 es with
        | error e => rw [he] at henc; cases henc
        | ok body =>
            rw [he] at henc
            simp only [Except.ok.injEq] at henc
            subst henc
            have harr : arrHeaderTail ',' es
                = '[' :: (natChars es.length ++ [']', ':']) := by
              simp [arrHeaderTail, ht]
            simp only [parseRoot, harr]
            rw [if_neg (by simp)]
            rw [parseEntryLine_bracket]
            have hif : (if ('[' :: (natChars es.length ++ [']', ':'])).head? = some '[' then
                parseArrShape ('[' :: (natChars es.length ++ [']', ':'])).tail
              else none) = some (.listHeader es.length) := by
              have hcond : ('[' :: (natChars es.length ++ [']', ':'])).head? = some '[' := rfl
              rw [if_pos hcond]
              exact parseArrShape_render_list es.length
            have helems := parseElems_encElems es (fun w _ => shapeStmt_all w)
              1 (DEFAULT_MAX_DEPTH - 1)
              (2 * ((0, '[' :: (natChars es.length ++ [']', ':'])) :: body).length + 2)
              body []
              (by simpa [wfV] using hwf)
              (by
                simp only [vdepth, DEFAULT_MAX_DEPTH] at hdep ⊢
                omega)
              he (fun l hl => nomatch hl)
              (by simp only [List.length_cons]; omega)
            rw [List.append_nil] at helems
            simp only [hif, helems]
            rw [if_neg (by decide)]
  | null =>
      simp only [encRoot] at henc
      cases hl : scalarLit ',' Value.null with
      | error e => rw [hl] at henc; cases henc
      | ok lit =>
          rw [hl] at henc
          simp only [Except.ok.injEq] at henc
          subst henc
          exact parseRoot_scalar hwf hl
  | bool b =>
      simp only [encRoot] at henc
      cases hl : scalarLit ',' (Value.bool b) with
      | error e => rw [hl] at henc; cases henc
      | ok lit =>
          rw [hl] at henc
          simp only [Except.ok.injEq] at henc
          subst henc
          exact parseRoot_scalar hwf hl
  | num n =>
      simp only [encRoot] at henc
      cases hl : scalarLit ',' (Value.num n) with
      | error e => rw [hl] at henc; cases henc
      | ok lit =>
          rw [hl] at henc
          simp only [Except.ok.injEq] at henc
          subst henc
          exact parseRoot_scalar hwf hl
  | str s =>
      simp only [encRoot] at henc
      cases hl : scalarLit ',' (Value.str s) with
      | error e => rw [hl] at henc; cases henc
      | ok lit =>
          rw [hl] at henc
          simp only [Except.ok.injEq] at henc
          subst henc
          exact parseRoot_scalar hwf hl

/-- Full round trip: decoding an encoded well-formed value within the depth
budget returns the value. -/
theorem decode_encode_ok {v : Value} {t : Chars}
    (hwf : wfV v = true) (hdep : vdepth v ≤ DEFAULT_MAX_DEPTH)
    (henc : encode v = .ok t) : decode t = .ok v := by
  simp only [encode, DeepToonEncoder.encode] at henc
  cases hr : encRoot ',' v with
  | error e => rw [hr] at henc; cases henc
  | ok ls =>
      rw [hr] at henc
      simp only [Except.map, Except.ok.injEq] at henc
      subst henc
      simp only [decode, DeepToonDecoder.decode,
        toLines_joinLines ls (encRoot_good hr)]
      exact parseRoot_encRoot hwf hdep hr

/-! ### Encoder totality over finite values -/

theorem scalarLit_ok_iff {d : Char} {v : Value} (hs : isScalar v = true) :
    (∃ t, scalarLit d v = .ok t) ↔ finV v = true := by
  cases v with
  | null => simp [scalarLit, finV]
  | bool b => cases b <;> simp [scalarLit, finV]
  | num n => cases n <;> simp [scalarLit, finV]
  | str s => simp [scalarLit, finV]
  | arr es => simp [isScalar] at hs
  | obj es => simp [isScalar] at hs

theorem encCells_ok_iff {d : Char} :
    ∀ {e : List (Chars × Value)}, scalarEntries e = true →
      ((∃ cs, encCells d (e.map Prod.snd) = .ok cs) ↔ finE e = true) := by
  intro e
  induction e with
  | nil => intro _; simp [encCells, finE]
  | cons kv e' ih =>
      obtain ⟨k, v⟩ := kv
      intro hs
      simp only [scalarEntries, Bool.and_eq_true] at hs
      constructor
      · rintro ⟨cs, hcs⟩
        simp only [List.map_cons, encCells] at hcs
        cases h1 : scalarLit d v with
        | error er => rw [h1] at hcs; cases hcs
        | ok lit =>
            rw [h1] at hcs
            cases h2 : encCells d (e'.map Prod.snd) with
            | error er => rw [h2] at hcs; cases hcs
            | ok rest =>
                simp only [finE, Bool.and_eq_true]
                refine ⟨(scalarLit_ok_iff hs.1).mp ⟨lit, h1⟩, ?_⟩
                exact (ih hs.2).mp ⟨rest, h2⟩
      · intro hfin
        simp only [finE, Bool.and_eq_true] at hfin
        obtain ⟨lit, h1⟩ := (scalarLit_ok_iff (d := d) hs.1).mpr hfin.1
        obtain ⟨rest, h2⟩ := (ih hs.2).mpr hfin.2
        exact ⟨lit :: rest, by simp [encCells, h1, h2]⟩

theorem encRows_ok_iff {dep : Nat} :
    ∀ {es : List Value}, (∀ v ∈ es, ∃ e, v = .obj e ∧ scalarEntries e = true) →
      ((∃ ls, encRows ',' dep es = .ok ls) ↔ finL es = true) := by
  intro es
  induction es with
  | nil => intro _; simp [encRows, finL]
  | cons v es' ih =>
      intro hsh
      obtain ⟨e, rfl, hse⟩ := hsh v (List.mem_cons_self _ _)
      have ih' := ih (fun w hw => hsh w (List.mem_cons_of_mem _ hw))
      constructor
      · rintro ⟨ls, hls⟩
        simp only [encRows] at hls
        cases h1 : encCells ',' (e.map Prod.snd) with
        | error er => rw [h1] at hls; cases hls
        | ok cells =>
            rw [h1] at hls
            cases h2 : encRows ',' dep es' with
            | error er => rw [h2] at hls; cases hls
            | ok rest =>
                simp only [finL, finV, Bool.and_eq_true]
                exact ⟨(encCells_ok_iff hse).mp ⟨cells, h1⟩, ih'.mp ⟨rest, h2⟩⟩
      · intro hfin
        simp only [finL, finV, Bool.and_eq_true] at hfin
        obtain ⟨cells, h1⟩ := (encCells_ok_iff (d := ',') hse).mpr hfin.1
        obtain ⟨rest, h2⟩ := ih'.mpr hfin.2
        exact ⟨(dep, joinDelim ',' cells) :: rest, by simp [encRows, h1, h2]⟩

theorem encEntries_ok_iff :
    ∀ (es : List (Chars × Value)), (∀ kv ∈ es, TotalStmt kv.2) →
    ∀ dep : Nat, (∃ ls, encEntries ',' dep es = .ok ls) ↔ finE es = true := by
  intro es
  induction es with
  | nil => intro _ dep; simp [encEntries, finE]
  | cons kv es' ih =>
      obtain ⟨k, v⟩ := kv
      intro hT dep
      have hv := hT (k, v) (List.mem_cons_self _ _)
      have ih' := ih (fun x hx => hT x (List.mem_cons_of_mem _ hx)) dep
      constructor
      · rintro ⟨ls, hls⟩
        simp only [encEntries] at hls
        cases h1 : encEntry ',' dep k v with
        | error er => rw [h1] at hls; cases hls
        | ok l1 =>
            rw [h1] at hls
            cases h2 : encEntries ',' dep es' with
            | error er => rw [h2] at hls; cases hls
            | ok l2 =>
                simp only [finE, Bool.and_eq_true]
                refine ⟨?_, ih'.mp ⟨l2, h2⟩⟩
                rw [encEntry_vShape] at h1
                cases hsh : vShape ',' dep v with
                | error er => rw [hsh] at h1; cases h1
                | ok p => exact (hv dep).mp ⟨p, hsh⟩
      · intro hfin
        simp only [finE, Bool.and_eq_true] at hfin
        obtain ⟨⟨sh, cls⟩, hsh⟩ := (hv dep).mpr hfin.1
        obtain ⟨l2, h2⟩ := ih'.mpr hfin.2
        refine ⟨((dep, renderKey ',' k ++ tailTextEntry sh) :: cls) ++ l2, ?_⟩
        simp [encEntries, encEntry_vShape, hsh, h2]

theorem encElems_ok_iff :
    ∀ (es : List Value), (∀ v ∈ es, TotalStmt v) →
    ∀ dep : Nat, (∃ ls, encElems ',' dep es = .ok ls) ↔ finL es = true := by
  intro es
  induction es with
  | nil => intro _ dep; simp [encElems, finL]
  | cons v es' ih =>
      intro hT dep
      have hv := hT v (List.mem_cons_self _ _)
      have ih' := ih (fun x hx => hT x (List.mem_cons_of_mem _ hx)) dep
      constructor
      · rintro ⟨ls, hls⟩
        simp only [encElems] at hls
        cases h1 : encElem ',' dep v with
        | error er => rw [h1] at hls; cases hls
        | ok l1 =>
            rw [h1] at hls
            cases h2 : encElems ',' dep es' with
            | error er => rw [h2] at hls; cases hls
            | ok l2 =>
                simp only [finL, Bool.and_eq_true]
                refine ⟨?_, ih'.mp ⟨l2, h2⟩⟩
                rw [encElem_vShape] at h1
                cases hsh : vShape ',' dep v with
                | error er => rw [hsh] at h1; cases h1
                | ok p => exact (hv dep).mp ⟨p, hsh⟩
      · intro hfin
        simp only [finL, Bool.and_eq_true] at hfin
        obtain ⟨⟨sh, cls⟩, hsh⟩ := (hv dep).mpr hfin.1
        obtain ⟨l2, h2⟩ := ih'.mpr hfin.2
        refine ⟨((dep, '-' :: tailTextElem sh) :: cls) ++ l2, ?_⟩
        simp [encElems, encElem_vShape, hsh, h2]

theorem tabularEligible_scalarShapes {es : List Value} (ht : tabularEligible es = true) :
    ∀ v ∈ es, ∃ e, v = .obj e ∧ scalarEntries e = true := by
  intro v hv
  have hrm := tabularEligible_all_rowMatches ht v hv
  cases v with
  | obj e =>
      simp only [rowMatches, Bool.and_eq_true] at hrm
      exact ⟨e, rfl, hrm.2⟩
  | null => simp [rowMatches] at hrm
  | bool b => simp [rowMatches] at hrm
  | num n => simp [rowMatches] at hrm
  | str s => simp [rowMatches] at hrm
  | arr a => simp [rowMatches] at hrm

theorem totalStmt_all : ∀ v : Value, TotalStmt v := by
  refine Value.inductionOn TotalStmt ?_ ?_ ?_ ?_ ?_ ?_
  · intro dep
    simp [vShape, scalarLit, finV]
  · intro b dep
    cases b <;> simp [vShape, scalarLit, finV]
  · intro n dep
    cases n <;> simp [vShape, scalarLit, finV]
  · intro s dep
    simp [vShape, scalarLit, finV]
  · intro es ihT dep
    simp only [vShape, finV]
    by_cases ht : tabularEligible es = true
    · rw [if_pos ht]
      have := @encRows_ok_iff (dep + 1) es (tabularEligible_scalarShapes ht)
      constructor
      · rintro ⟨p, hp⟩
        cases he : encRows ',' (dep + 1) es with
        | error e => rw [he] at hp; cases hp
        | ok rows => exact this.mp ⟨rows, he⟩
      · intro hfin
        obtain ⟨rows, he⟩ := this.mpr hfin
        exact ⟨_, by rw [he]⟩
    · rw [if_neg ht]
      have := encElems_ok_iff es ihT (dep + 1)
      constructor
      · rintro ⟨p, hp⟩
        cases he : encElems ',' (dep + 1) es with
        | error e => rw [he] at hp; cases hp
        | ok cls => exact this.mp ⟨cls, he⟩
      · intro hfin
        obtain ⟨cls, he⟩ := this.mpr hfin
        exact ⟨_, by rw [he]⟩
  · intro es ihT dep
    simp only [vShape, finV]
    have := encEntries_ok_iff es ihT (dep + 1)
    constructor
    · rintro ⟨p, hp⟩
      cases he : encEntries ',' (dep + 1) es with
      | error e => rw [he] at hp; cases hp
      | ok cls => exact this.mp ⟨cls, he⟩
    · intro hfin
      obtain ⟨cls, he⟩ := this.mpr hfin
      exact ⟨_, by rw [he]⟩

/-- Root-level totality of the encoder. -/
theorem encRoot_ok_iff (v : Value) :
    (∃ ls, encRoot ',' v = .ok ls) ↔ finV v = true := by
  cases v with
  | obj es =>
      simpa [encRoot, finV] using encEntries_ok_iff es (fun kv _ => totalStmt_all kv.2) 0
  | arr es =>
      simp only [encRoot, finV]
      by_cases ht : tabularEligible es = true
      · rw [if_pos ht]
        have := @encRows_ok_iff 1 es (tabularEligible_scalarShapes ht)
        constructor
        · rintro ⟨ls, hls⟩
          cases he : encRows ',' 1 es with
          | error e => rw [he] at hls; cases hls
          | ok rows => exact this.mp ⟨rows, he⟩
        · intro hfin
          obtain ⟨rows, he⟩ := this.mpr hfin
          exact ⟨_, by rw [he]⟩
      · rw [if_neg ht]
        have := encElems_ok_iff es (fun w _ => totalStmt_all w) 1
        constructor
        · rintro ⟨ls, hls⟩
          cases he : encElems ',' 1 es with
          | error e => rw [he] at hls; cases hls
          | ok cls => exact this.mp ⟨cls, he⟩
        · intro hfin
          obtain ⟨cls, he⟩ := this.mpr hfin
          exact ⟨_, by rw [he]⟩
  | null => simp [encRoot, scalarLit, finV]
  | bool b => cases b <;> simp [encRoot, scalarLit, finV]
  | num n => cases n <;> simp [encRoot, scalarLit, finV]
  | str s => simp [encRoot, scalarLit, finV]

theorem encode_ok_iff (v : Value) :
    (∃ t, encode v = .ok t) ↔ finV v = true := by
  simp only [encode, DeepToonEncoder.encode]
  constructor
  · rintro ⟨t, ht⟩
    cases hr : encRoot ',' v with
    | error e => rw [hr] at ht; cases ht
    | ok ls => exact (encRoot_ok_iff v).mp ⟨ls, hr⟩
  · intro hfin
    obtain ⟨ls, hr⟩ := (encRoot_ok_iff v).mpr hfin
    exact ⟨joinLines ls, by rw [hr]; rfl⟩

/-! ### Depth-limit behaviour on deep nesting -/

theorem tabularEligible_nest (k : Nat) : tabularEligible [nestArr k] = false := by
  cases k <;> rfl

theorem encElems_nestArr_succ {k dep : Nat} {ls : List Line}
    (h : encElems ',' dep [nestArr (k + 1)] = .ok ls) :
    ∃ body, encElems ',' (dep + 1) [nestArr k] = .ok body ∧
      ls = (dep, '-' :: ('[' :: (natChars 1 ++ [']', ':']))) :: body := by
  rw [show encElems ',' dep [nestArr (k + 1)]
      = (match encElem ',' dep (.arr [nestArr k]) with
         | .error e => .error e
         | .ok l1 => .ok (l1 ++ [])) from rfl] at h
  cases hel : encElem ',' dep (.arr [nestArr k]) with
  | error e => rw [hel] at h; cases h
  | ok l1 =>
      rw [hel] at h
      simp only [Except.ok.injEq, List.append_nil] at h
      rw [show encElem ',' dep (.arr [nestArr k])
          = (match (if tabularEligible [nestArr k] then encRows ',' (dep + 1) [nestArr k]
                else encElems ',' (dep + 1) [nestArr k]) with
             | .error e => .error e
             | .ok body => .ok ((dep, '-' :: arrHeaderTail ',' [nestArr k]) :: body))
          from rfl] at hel
      rw [tabularEligible_nest k] at hel
      simp only [Bool.false_eq_true, if_false] at hel
      cases hb : encElems ',' (dep + 1) [nestArr k] with
      | error e => rw [hb] at hel; cases hel
      | ok body =>
          rw [hb] at hel
          simp only [Except.ok.injEq] at hel
          refine ⟨body, rfl, ?_⟩
          rw [← h, ← hel]
          simp [arrHeaderTail, tabularEligible_nest k]

theorem encElems_nestArr_length :
    ∀ (k dep : Nat) (ls : List Line),
      encElems ',' dep [nestArr k] = .ok ls → ls.length = k + 1 := by
  intro k
  induction k with
  | zero =>
      intro dep ls h
      simp only [encElems, nestArr, encElem, scalarLit, intChars] at h
      simp only [Except.ok.injEq] at h
      rw [← h]
      rfl
  | succ k ih =>
      intro dep ls h
      obtain ⟨body, hb, rfl⟩ := encElems_nestArr_succ h
      simp [ih (dep + 1) body hb]

/-- Parsing a singleton-nested element list under an insufficient depth
budget fails with the depth-limit error. -/
theorem parseElems_nestArr_depth :
    ∀ (db k dep f : Nat) (ls : List Line),
      db < k → 2 * db + 3 ≤ f →
      encElems ',' dep [nestArr k] = .ok ls →
      parseElems f dep db 1 ls = .error ⟨.depthLimit, "maximum depth exceeded".data⟩ := by
  intro db
  induction db with
  | zero =>
      intro k dep f ls hk hf henc
      obtain ⟨k', rfl⟩ : ∃ k', k = k' + 1 := ⟨k - 1, by omega⟩
      obtain ⟨body, hb, rfl⟩ := encElems_nestArr_succ henc
      obtain ⟨f1, rfl⟩ : ∃ f1, f = f1 + 1 := ⟨f - 1, by omega⟩
      obtain ⟨f2, rfl⟩ : ∃ f2, f1 = f2 + 1 := ⟨f1 - 1, by omega⟩
      simp only [parseElems]
      rw [if_neg (by omega), if_neg (by omega)]
      rw [show ('-' :: ('[' :: (natChars 1 ++ [']', ':'])))
          = '-' :: tailTextElem (.listHeader 1) from rfl]
      rw [parseElemLine_render (.listHeader 1) (by intro n fs h; cases h)]
      rfl
  | succ db ih =>
      intro k dep f ls hk hf henc
      obtain ⟨k', rfl⟩ : ∃ k', k = k' + 1 := ⟨k - 1, by omega⟩
      obtain ⟨body, hb, rfl⟩ := encElems_nestArr_succ henc
      obtain ⟨f1, rfl⟩ : ∃ f1, f = f1 + 1 := ⟨f - 1, by omega⟩
      obtain ⟨f2, rfl⟩ : ∃ f2, f1 = f2 + 1 := ⟨f1 - 1, by omega⟩
      simp only [parseElems]
      rw [if_neg (by omega), if_neg (by omega)]
      rw [show ('-' :: ('[' :: (natChars 1 ++ [']', ':'])))
          = '-' :: tailTextElem (.listHeader 1) from rfl]
      rw [parseElemLine_render (.listHeader 1) (by intro n fs h; cases h)]
      have hrec := ih k' (dep + 1) f2 body (by omega) (by omega) hb
      simp only [parseShape]
      rw [if_neg (by omega)]
      simp only [Nat.add_sub_cancel, hrec]

/-- Decoding the encoded document of an over-deep nest fails with the
depth-limit error. -/
theorem decode_nestArr_depth {k : Nat} (hk : DEFAULT_MAX_DEPTH < k) {t : Chars}
    (henc : encode (nestArr k) = .ok t) :
    decode t = .error ⟨.depthLimit, "maximum depth exceeded".data⟩ := by
  simp only [encode, DeepToonEncoder.encode] at henc
  cases hr : encRoot ',' (nestArr k) with
  | error e => rw [hr] at henc; cases henc
  | ok ls =>
      rw [hr] at henc
      simp only [Except.map, Except.ok.injEq] at henc
      subst henc
      simp only [decode, DeepToonDecoder.decode,
        toLines_joinLines ls (encRoot_good hr)]
      obtain ⟨k', rfl⟩ : ∃ k', k = k' + 1 := ⟨k - 1, by omega⟩
      have hne : encRoot ',' (nestArr (k' + 1))
          = encRoot ',' (.arr [nestArr k']) := rfl
      rw [hne] at hr
      simp only [encRoot] at hr
      rw [tabularEligible_nest k'] at hr
      simp only [Bool.false_eq_true, if_false] at hr
      cases hb : encElems ',' 1 [nestArr k'] with
      | error e => rw [hb] at hr; cases hr
      | ok body =>
          rw [hb] at hr
          simp only [Except.ok.injEq] at hr
          have harr : arrHeaderTail ',' [nestArr k']
              = '[' :: (natChars 1 ++ [']', ':']) := by
            simp [arrHeaderTail, tabularEligible_nest k', natChars]
          rw [← hr]
          rw [harr]
          simp only [parseRoot]
          rw [if_neg (by simp)]
          rw [parseEntryLine_bracket]
          have hif : (if ('[' :: (natChars 1 ++ [']', ':'])).head? = some '[' then
              parseArrShape ('[' :: (natChars 1 ++ [']', ':'])).tail
            else none) = some (.listHeader 1) := by
            have hcond : ('[' :: (natChars 1 ++ [']', ':'])).head? = some '[' := rfl
            rw [if_pos hcond]
            exact parseArrShape_render_list 1
          have hlen := encElems_nestArr_length k' 1 body hb
          have hk' : 100 < k' + 1 := by
            simpa only [DEFAULT_MAX_DEPTH] using hk
          have herr := parseElems_nestArr_depth (DEFAULT_MAX_DEPTH - 1) k' 1
            (2 * ((0, '[' :: (natChars 1 ++ [']', ':'])) :: body).length + 2) body
            (by simp only [DEFAULT_MAX_DEPTH]; omega)
            (by
              simp only [DEFAULT_MAX_DEPTH, List.length_cons]
              omega)
            hb
          simp only [hif, herr]
          rw [if_neg (by decide)]

/-! ### API budget characterization -/

theorem runWrappers_spec : ∀ n, runWrappers n = (n, min n (MAX_API_CALLS - 1)) := by
  intro n
  induction n with
  | zero => rfl
  | succ n ih =>
      rw [runWrappers, ih]
      simp only [queryWrapperStep, increment_api_calls, MAX_API_CALLS, ge_iff_le]
      by_cases h : 50 ≤ n + 1
      · rw [if_pos (by simpa using h)]
        simp only [Prod.mk.injEq, true_and]
        omega
      · rw [if_neg (by simpa using h)]
        simp only [Prod.mk.injEq, true_and]
        omega

/-! ### String-quoting characterization -/

theorem escChar_length_pos (c : Char) : 1 ≤ (escChar c).length := by
  unfold escChar
  split_ifs <;> simp

theorem escape_length (s : Chars) : s.length ≤ (escape s).length := by
  induction s with
  | nil => simp [escape]
  | cons c r ih =>
      have h1 : escape (c :: r) = escChar c ++ escape r := by
        simp [escape]
      rw [h1, List.length_append, List.length_cons]
      have := escChar_length_pos c
      omega

theorem quoteStr_ne_self (s : Chars) : quoteStr s ≠ s := by
  intro h
  have hlen := congrArg List.length h
  simp only [quoteStr, List.length_cons, List.length_append,
    List.length_singleton] at hlen
  have := escape_length s
  omega

theorem isBareStr_iff (d : Char) (s : Chars) :
    isBareStr d s = true ↔
      (s ≠ [] ∧ (∀ c ∈ s, badBareChar d c = false) ∧
        notWS? s.head? = true ∧ notWS? s.getLast? = true ∧
        isReserved s = false ∧ matchNum s = none) := by
  unfold isBareStr
  simp only [Bool.and_eq_true, Bool.not_eq_true', List.all_eq_true,
    Option.isNone_iff_eq_none, List.isEmpty_iff, Bool.not_eq_eq_eq_not, Bool.not_true]
  constructor
  · rintro ⟨⟨⟨⟨⟨h1, h2⟩, h3⟩, h4⟩, h5⟩, h6⟩
    refine ⟨?_, h2, h3, h4, h5, h6⟩
    intro he
    rw [he] at h1
    simp at h1
  · rintro ⟨h1, h2, h3, h4, h5, h6⟩
    refine ⟨⟨⟨⟨⟨?_, h2⟩, h3⟩, h4⟩, h5⟩, h6⟩
    cases s with
    | nil => exact absurd rfl h1
    | cons a r => rfl

/-! ### Claim theorems -/

/-- C1: for every well-formed JSON-compatible value with finite numbers whose
nesting stays within the decoder's configured maximum depth, decoding the
encoder's output returns the original value tree, with object key order and
array element order preserved (the values are compared as whole trees, so
order is part of the equality). -/
theorem C1_roundtrip (v : Value) (hwf : wfV v = true) (hfin : finV v = true)
    (hdep : vdepth v ≤ DEFAULT_MAX_DEPTH) (t : Chars) (henc : encode v = .ok t) :
    decode t = .ok v :=
  decode_encode_ok hwf hdep henc

theorem C1_roundtrip_witness :
    wfV (.obj [("a".data, .num (.int 1)), ("b".data, .str "x y".data)]) = true ∧
    finV (.obj [("a".data, .num (.int 1)), ("b".data, .str "x y".data)]) = true ∧
    vdepth (.obj [("a".data, .num (.int 1)), ("b".data, .str "x y".data)])
      ≤ DEFAULT_MAX_DEPTH ∧
    encode (.obj [("a".data, .num (.int 1)), ("b".data, .str "x y".data)])
      = .ok "a: 1\nb: x y".data ∧
    decode "a: 1\nb: x y".data
      = .ok (.obj [("a".data, .num (.int 1)), ("b".data, .str "x y".data)]) :=
  ⟨by decide, by decide, by decide, by decide,
    C1_roundtrip (.obj [("a".data, .num (.int 1)), ("b".data, .str "x y".data)])
      (by decide) (by decide) (by decide) "a: 1\nb: x y".data (by decide)⟩

/-- C2: the two crafted malformed tabular documents — a header declaring
three rows over only two data rows, and a row whose cell count differs from
the header's field count — are rejected with a structural-count decode error
(a `DeepToonDecodeError` value carrying kind and message), not decoded to a
short or padded array. -/
theorem C2_structural_errors :
    (∃ e : DeepToonDecodeError, decode malformed1 = .error e ∧
      e.kind = .structuralCount) ∧
    (∃ e : DeepToonDecodeError, decode malformed2 = .error e ∧
      e.kind = .structuralCount) :=
  ⟨⟨⟨.structuralCount, "fewer rows than declared".data⟩, by decide, rfl⟩,
   ⟨⟨.structuralCount, "row cell count does not match field count".data⟩, by decide, rfl⟩⟩

/-- C3: encoding the `flat_data` example produces exactly the single header
line `items[3]{id,name,age,active}:` followed by the three rows
`1,Alice,25,true`, `2,Bob,30,false`, `3,Charlie,35,true` in order, and
decoding that text reproduces the original structure with identical key
order. -/
theorem C3_flat_tabular :
    encode flatData = .ok flatText ∧ decode flatText = .ok flatData :=
  ⟨by decide, by decide⟩

/-- C4: `smart_encode` returns the compact encoder text iff the baseline cost
is nonzero and the savings ratio `(b - c) / b` reaches the threshold (a
non-strict comparison), and otherwise returns the minimal JSON baseline; the
ratio is not consulted when the baseline cost is zero, where the baseline is
preferred. -/
theorem C4_smart_encode (data : Value) (threshold : ℚ) (tc : Option (Chars → Nat))
    (compact : Chars) (henc : encode data = .ok compact) :
    smart_encode data threshold tc =
      .ok (if (tc.getD List.length) (jsonV data) = 0 then jsonV data
        else if threshold ≤ (((tc.getD List.length) (jsonV data) : ℚ)
            - ((tc.getD List.length) compact : ℚ)) / ((tc.getD List.length) (jsonV data) : ℚ)
          then compact else jsonV data) := by
  simp only [smart_encode, DeepToonEncoder.smart_encode]
  rw [show (DeepToonEncoder.mk ',').encode data = encode data from rfl, henc]
  simp only
  split_ifs <;> rfl

theorem C4_smart_encode_witness :
    encode (.obj []) = .ok [] ∧
    smart_encode (.obj []) ((1 : ℚ) / 10) (some fun _ => 0) = .ok (jsonV (.obj [])) :=
  ⟨by decide,
    (C4_smart_encode (.obj []) ((1 : ℚ) / 10) (some fun _ => 0) [] (by decide)).trans
      (by decide)⟩

/-- C5: scalar types and textual classes survive the round trip: the integer
`5` encodes to and decodes from the text `5` as an integral number (never a
fractional one), and the mixed array `[1, "text", true, null, 3.14]`
round-trips through list-fallback form to exactly an integer, a string, a
boolean, null and a fractional number. -/
theorem C5_scalar_type_preservation :
    (encode (.num (.int 5)) = .ok "5".data ∧
      decode "5".data = .ok (.num (.int 5))) ∧
    encode mixedData = .ok mixedText ∧ decode mixedText = .ok mixedData ∧
    mixedData = .arr [.num (.int 1), .str "text".data, .bool true, .null,
      .num (.dec 314 2)] :=
  ⟨⟨by decide, by decide⟩, by decide, by decide, rfl⟩

/-- C6 counterexample: the empty string satisfies every bare-rendering
condition stated by the claim (vacuously contains no forbidden character, has
no boundary whitespace, is not reserved, does not match the number grammar),
yet the encoder renders it quoted, not bare. -/
theorem C6_counterexample :
    (∀ c ∈ ([] : Chars), badBareChar ',' c = false) ∧
    notWS? ([] : Chars).head? = true ∧ notWS? ([] : Chars).getLast? = true ∧
    isReserved [] = false ∧ matchNum ([] : Chars) = none ∧
    renderStr ',' [] = quoteStr [] ∧ renderStr ',' [] ≠ [] := by
  decide

/-- C6 (amended): a string scalar is rendered bare (the rendering is the
string itself) iff it is nonempty, contains none of the delimiter, colon,
newline or double-quote characters, has no boundary whitespace, and matches
neither a reserved literal nor the number grammar; and every rendering is
either bare or the backslash-escaped quoted form. -/
theorem C6_amended (d : Char) (s : Chars) :
    (renderStr d s = s ↔
      (s ≠ [] ∧ (∀ c ∈ s, badBareChar d c = false) ∧
        notWS? s.head? = true ∧ notWS? s.getLast? = true ∧
        isReserved s = false ∧ matchNum s = none)) ∧
    (renderStr d s = s ∨ renderStr d s = quoteStr s) := by
  constructor
  · rw [← isBareStr_iff]
    unfold renderStr
    by_cases hb : isBareStr d s = true
    · rw [if_pos hb]
      simp [hb]
    · rw [if_neg hb]
      constructor
      · intro h
        exact absurd h (quoteStr_ne_self s)
      · intro h
        exact absurd h hb
  · unfold renderStr
    by_cases hb : isBareStr d s = true
    · rw [if_pos hb]
      exact Or.inl rfl
    · rw [if_neg hb]
      exact Or.inr rfl

/-- C7: the decoder's recursion is bounded by the configured maximum depth:
for any nesting depth beyond that maximum, decoding the encoded document of
the nested-array family fails with the depth-limit error instead of
recursing further (the decoder itself is a total function). -/
theorem C7_depth_limit (k : Nat) (hk : DEFAULT_MAX_DEPTH < k) (t : Chars)
    (henc : encode (nestArr k) = .ok t) :
    decode t = .error ⟨.depthLimit, "maximum depth exceeded".data⟩ :=
  decode_nestArr_depth hk henc

set_option maxRecDepth 4000 in
theorem C7_depth_limit_witness :
    DEFAULT_MAX_DEPTH < 101 ∧
    ∃ t, encode (nestArr 101) = .ok t ∧
      decode t = .error ⟨.depthLimit, "maximum depth exceeded".data⟩ := by
  refine ⟨by decide, ?_⟩
  obtain ⟨t, ht⟩ := (encode_ok_iff (nestArr 101)).mpr (by decide)
  exact ⟨t, ht, C7_depth_limit 101 (by decide) t ht⟩

/-- C8: the encoder is total exactly over finite-numeric values: `encode`
returns a text iff the value contains only finite numbers, so its error
branch is reachable only for non-finite numeric values. -/
theorem C8_encode_total (v : Value) :
    (∃ t, encode v = .ok t) ↔ finV v = true :=
  encode_ok_iff v

/-- C9: the module-level `smart_encode` constructs its encoder with no
delimiter argument, so any compact text it returns is the default
comma-delimiter encoding (`encode data ','`); the only other possible result
is the JSON baseline. -/
theorem C9_smart_encode_default_delimiter (data : Value) (threshold : ℚ)
    (tc : Option (Chars → Nat)) (r : Chars)
    (h : smart_encode data threshold tc = .ok r) :
    r = jsonV data ∨ encode data ',' = .ok r := by
  simp only [smart_encode, DeepToonEncoder.smart_encode] at h
  cases he : (DeepToonEncoder.mk ',').encode data with
  | error e => rw [he] at h; cases h
  | ok compact =>
      rw [he] at h
      simp only at h
      split_ifs at h with h0 h1
      · exact Or.inl (Except.ok.inj h).symm
      · refine Or.inr ?_
        rw [show encode data ',' = (DeepToonEncoder.mk ',').encode data from rfl, he,
          Except.ok.injEq]
        exact Except.ok.inj h
      · exact Or.inl (Except.ok.inj h).symm

theorem C9_smart_encode_default_delimiter_witness :
    smart_encode (.arr []) ((1 : ℚ) / 10) (some fun _ => 0) = .ok (jsonV (.arr [])) ∧
    (jsonV (.arr []) = jsonV (.arr []) ∨ encode (.arr []) ',' = .ok (jsonV (.arr []))) :=
  ⟨by decide,
    C9_smart_encode_default_delimiter (.arr []) ((1 : ℚ) / 10) (some fun _ => 0)
      (jsonV (.arr [])) (by decide)⟩

/-- C10: in the evaluation harness, each wrapper call increments the counter
before any remote request and raises once the incremented count reaches
`MAX_API_CALLS`; over any number of wrapper calls the number of requests
actually issued is `min n (MAX_API_CALLS - 1)`, hence always strictly below
`MAX_API_CALLS`. -/
theorem C10_api_budget (n : Nat) :
    (runWrappers n).2 = min n (MAX_API_CALLS - 1) ∧
    (runWrappers n).2 < MAX_API_CALLS := by
  rw [runWrappers_spec n]
  refine ⟨rfl, ?_⟩
  simp only [MAX_API_CALLS]
  omega

end DeepToon
